import Mathlib

/-!
AMOS source decoder (`amoslib.c`): a shallow embedding.

Memory is a list of byte values indexed from the address of the buffer the C
function receives; a pointer is an index into that list.  Reading past the end of
the modelled memory yields 0 and a write past its end is dropped.  Variables of
type `unsigned int` are natural numbers reduced modulo `2 ^ 32` after every
operation that can overflow.
-/

namespace Amos

/-! ## Memory access -/

/-- The byte stored at index `i` (an `unsigned char` read). -/
def peek (m : List Nat) (i : Nat) : Nat := m.getD i 0 % 256

/-- Modelled from the spec: the `amos_deek` macro of `amoslib.h` (absent from the
sources), a big-endian 16-bit read ("all multi-byte integers are big-endian"). -/
def amos_deek (m : List Nat) (a : Nat) : Nat :=
  (peek m a <<< 8) ||| peek m (a + 1)

/-- Modelled from the spec: the `amos_leek` macro of `amoslib.h` (absent from the
sources), a big-endian 32-bit read ("all multi-byte integers are big-endian"). -/
def amos_leek (m : List Nat) (a : Nat) : Nat :=
  (peek m a <<< 24) ||| (peek m (a + 1) <<< 16) ||| (peek m (a + 2) <<< 8) ||| peek m (a + 3)

/-- Every stored value is a byte. -/
def Bytes (m : List Nat) : Prop := ∀ b ∈ m, b < 256

/-- The statement `*p ^= k` on an `unsigned char`. -/
def xorAt (m : List Nat) (p k : Nat) : List Nat := m.set p (peek m p ^^^ k)

/-! ## `AMOS_decrypt_procedure` -/

/-- The inner `for (line += 4; line < next;)` loop of `AMOS_decrypt_procedure`, entered
with `line` already advanced by 4.  Returns the memory, `line`, `key` and `key2`. -/
def decrypt_line : Nat → List Nat → Nat → Nat → Nat → Nat → Nat → List Nat × Nat × Nat × Nat
  | 0, m, line, _, key, key2, _ => (m, line, key, key2)
  | fuel + 1, m, line, next, key, key2, key3 =>
    if line < next then
      let m1 := xorAt m line ((key >>> 8) &&& 0xFF)
      let m2 := xorAt m1 (line + 1) (key &&& 0xFF)
      let k := (key + key2) % 2 ^ 32
      let k2 := (key2 + key3) % 2 ^ 32
      let k := ((k >>> 1) ||| (k <<< 31)) % 2 ^ 32
      decrypt_line fuel m2 (line + 2) next k k2 key3
    else (m, line, key, key2)

/-- The memory after the procedure loop has transformed the line at `l` of `n * 2` bytes. -/
def lineXor (n l key key2 key3 : Nat) (m : List Nat) : List Nat :=
  (decrypt_line n m (l + 4) (l + n * 2) key key2 key3).1

/-- The `while (line < endline)` loop of `AMOS_decrypt_procedure`.  The boolean is
`false` when the loop was left by the early `return` on a zero length byte. -/
def decrypt_loop : Nat → List Nat → Nat → Nat → Nat → Nat → Nat → Nat → List Nat × Bool
  | 0, m, _, _, _, _, _, _ => (m, false)
  | fuel + 1, m, line, next, endline, key, key2, key3 =>
    if line < endline then
      let line := next
      let next := line + peek m line * 2
      if peek m line = 0 then (m, false)
      else
        let r := decrypt_line (peek m line) m (line + 4) next key key2 key3
        decrypt_loop fuel r.1 r.2.1 next endline r.2.2.1 r.2.2.2 key3
    else (m, true)

/-- `AMOS_decrypt_procedure(src)`, with `src` the index of the PROCEDURE line. -/
def AMOS_decrypt_procedure (m : List Nat) (src : Nat) : List Nat :=
  if peek m (src + 10) &&& 0x10 ≠ 0 then m
  else
    let size := amos_leek m (src + 4)
    let line := src + peek m src * 2
    let endline := src + (size + 8 + 6) % 2 ^ 32
    let key := ((size <<< 8) % 2 ^ 32) ||| peek m (src + 11)
    let key3 := amos_deek m (src + 8)
    let r := decrypt_loop (endline + 1) m line line endline key 1 key3
    if r.2 then xorAt r.1 (src + 10) 0x20 else r.1

/-! ## Text output

The output stream is the list of bytes written so far.  The functions of the C
library that the program calls are modelled from the C standard. -/

/-- The bytes of a string literal. -/
def str (s : String) : List Nat := s.toList.map Char.toNat

/-- The C string that starts at index `p`: the bytes up to the first NUL. -/
def cstr (m : List Nat) (p : Nat) : List Nat :=
  ((m.drop p).map (· % 256)).takeWhile (· ≠ 0)

/-- The decimal digits of `n`, as `printf` writes them. -/
def decDigits (n : Nat) : List Nat := (Nat.toDigits 10 n).map Char.toNat

/-- The `printf` conversion `%d`. -/
def fmt_d (i : Int) : List Nat :=
  if i < 0 then 45 :: decDigits i.natAbs else decDigits i.natAbs

/-- The value of a 32-bit pattern read as `int`. -/
def toInt32 (v : Nat) : Int :=
  if v % 2 ^ 32 < 2 ^ 31 then (v % 2 ^ 32 : Nat) else (v % 2 ^ 32 : Nat) - 2 ^ 32

/-- One upper-case hexadecimal digit. -/
def hexDigit (d : Nat) : Nat := if d < 10 then 48 + d else 55 + d

/-- The hexadecimal digits of `n`, most significant first, put before `acc`. -/
def hexDigits : Nat → Nat → List Nat → List Nat
  | 0, _, acc => acc
  | fuel + 1, n, acc =>
    if n / 16 = 0 then hexDigit (n % 16) :: acc
    else hexDigits fuel (n / 16) (hexDigit (n % 16) :: acc)

/-- The `printf` conversion `%0wX` (`%X` for `w = 0`) of an `unsigned int`. -/
def fmt_X (w n : Nat) : List Nat :=
  let ds := hexDigits 8 (n % 2 ^ 32) []
  List.replicate (w - ds.length) 48 ++ ds

/-- The `do … while (value)` loop of `print_binary`, filling the buffer backwards. -/
def print_binary_loop : Nat → Nat → List Nat → List Nat
  | 0, _, acc => acc
  | fuel + 1, value, acc =>
    let acc := (if value &&& 1 ≠ 0 then 49 else 48) :: acc
    let value := value >>> 1
    if value ≠ 0 then print_binary_loop fuel value acc else acc

/-- `print_binary`: the text written for the 32-bit `value`. -/
def print_binary (value : Nat) : List Nat :=
  37 :: print_binary_loop 32 (value % 2 ^ 32) []

/-- `print_float`: the text written for the raw 32-bit `value`.  `fmtG` stands for the
`%G` conversion of the float whose IEEE 754 bit pattern it is given. -/
def print_float (fmtG : Nat → List Nat) (value : Nat) : List Nat :=
  let fi :=
    if value ≠ 0 then
      let m := (value >>> 8) &&& 0x7FFFFF
      let s := (value >>> 7) &&& 1
      let e := (value &&& 0x7F) + 62
      ((s <<< 31) ||| ((e &&& 0xFF) <<< 23) ||| m) % 2 ^ 32
    else 0
  let buf := (fmtG fi).take 29
  if buf.any (fun c => c = 46 || c = 69) then buf else buf ++ str ".0"

/-! ## The token table -/

/-- Modelled from the spec: `struct AMOS_token` of `amoslib.h` (absent from the sources),
"`{ key: u32, text: string }`"; the `next` link is the tail of the bucket's list.  `text`
holds the bytes stored before the closing NUL. -/
structure AMOS_token where
  key : Nat
  text : List Nat
deriving DecidableEq, Repr

/-- The table `struct AMOS_token *table[AMOS_TOKEN_TABLE_SIZE]`: the chain of each bucket,
most recently added entry first. -/
abbrev Table := Nat → List AMOS_token

/-- The table with every bucket empty. -/
def emptyTable : Table := fun _ => []

/-- `lookup_token`; `tsize` is `AMOS_TOKEN_TABLE_SIZE` (declared in `amoslib.h`, absent from
the sources).  The result is the entry's `text` array, `none` for `NULL`. -/
def lookup_token (tsize slot offset : Nat) (table : Table) : Option (List Nat) :=
  let key := (slot <<< 16) ||| offset
  ((table (key % tsize)).find? (fun e => e.key == key)).map (·.text)

/-- The loop `while (name[len] < 0x80) len++` of `add_token`: the number of bytes before
the one that ends the name, `none` when no byte of the memory from `name` on ends it. -/
def name_len : Nat → List Nat → Nat → Option Nat
  | 0, _, _ => none
  | fuel + 1, m, name =>
    if peek m name < 0x80 then (name_len fuel m (name + 1)).map (· + 1) else some 0

/-- The copy loop of `add_token`: the bytes stored for the name, `none` when no byte of
the memory from `name` on ends it. -/
def copy_name : Nat → List Nat → Nat → Bool → Option (List Nat)
  | 0, _, _, _ => none
  | fuel + 1, m, name, upcase =>
    let c := peek m name
    let done := c &&& 0x80 ≠ 0
    let c := if done then c &&& 0x7F else c
    if 97 ≤ c ∧ c ≤ 122 then
      let c' := if upcase then c - 32 else c
      if done then some [c'] else (copy_name fuel m (name + 1) false).map (c' :: ·)
    else if c = 32 then
      if done then some [c] else (copy_name fuel m (name + 1) true).map (c :: ·)
    else
      if done then some [c] else (copy_name fuel m (name + 1) upcase).map (c :: ·)

/-- What `add_token` hands back: its return value, the table and `*last_name`. -/
structure AddResult where
  ret : Nat
  table : Table
  last_name : Option Nat

/-- The first step of `add_token`: the name it goes on with and the new `*last_name`;
`none` when the token is skipped (a blank name with nothing to recall). -/
def resolve_name (m : List Nat) (name : Nat) (last_name : Option Nat) :
    Option (Nat × Option Nat) :=
  if peek m name = 0x80 then last_name.map (fun ln => (ln, last_name))
  else if peek m name = 33 then some (name + 1, some (name + 1))
  else some (name, last_name)

/-- The text `add_token` stores for the name at index `name` and the type code `type`;
`none` when the name is not ended anywhere in the memory. -/
def token_text (m : List Nat) (name type : Nat) : Option (List Nat) :=
  let prepend_space := peek m name ≠ 32 ∧ type ≠ 79 ∧ type ≠ 48 ∧ type ≠ 49 ∧ type ≠ 50 ∧
    type ≠ 86
  let append_space := type = 73
  match name_len (m.length + 1 - name) m name with
  | none => none
  | some _ =>
    match copy_name (m.length + 1 - name) m name true with
    | none => none
    | some body =>
      some ((if prepend_space then [32] else []) ++ body ++ (if append_space then [32] else []))

/-- The table after `e->next = table[key % size]; table[key % size] = e`. -/
def link_token (tsize : Nat) (e : AMOS_token) (table : Table) : Table :=
  fun i => if i = e.key % tsize then e :: table i else table i

/-- `add_token`, for a `malloc` that never fails.  `name` and `*last_name` are indices into
`m`; the result is `none` when the name is not ended anywhere in the memory. -/
def add_token (tsize : Nat) (m : List Nat) (key name type : Nat) (table : Table)
    (last_name : Option Nat) : Option AddResult :=
  match resolve_name m name last_name with
  | none => some ⟨0, table, last_name⟩
  | some (name, last_name) =>
    match token_text m name type with
    | none => none
    | some text => some ⟨0, link_token tsize ⟨key, text⟩ table, last_name⟩

/-! ## `AMOS_parse_extension` -/

/-- The loop `while (p < end && *p < lim) p++`. -/
def skip_below (m : List Nat) (lim e : Nat) : Nat → Nat → Nat
  | 0, p => p
  | fuel + 1, p => if p < e ∧ peek m p < lim then skip_below m lim e fuel (p + 1) else p

/-- The start of the name field of the token-list entry at `p`. -/
def entry_name (p : Nat) : Nat := p + 4

/-- The start of the type field of the token-list entry at `p`. -/
def entry_type (m : List Nat) (e p : Nat) : Nat :=
  skip_below m 0x80 e (e - entry_name p) (entry_name p) + 1

/-- The start of the entry that follows the token-list entry at `p`. -/
def entry_next (m : List Nat) (e p : Nat) : Nat :=
  let q := skip_below m 0xFD e (e - entry_type m e p) (entry_type m e p) + 1
  if q &&& 1 ≠ 0 then q + 1 else q

/-- The key `(slot << 16) | (((p - src) - tkoff) & 0xFFFF)`, an `unsigned int`. -/
def entry_key (slot tkoff p : Nat) : Nat :=
  ((slot <<< 16) ||| (((p : Int) - (tkoff : Int)) % 65536).toNat) % 2 ^ 32

/-- The `for (p = …; (p+2) < end;)` loop of `AMOS_parse_extension`: the return value and
the table, `none` when `add_token` finds a name that is not ended in the memory. -/
def parse_loop (tsize : Nat) (m : List Nat) (len slot tkoff : Nat) :
    Nat → Nat → Table → Option Nat → Option (Nat × Table)
  | 0, _, _, _ => none
  | fuel + 1, p, table, last_name =>
    if p + 2 < len then
      let key := entry_key slot tkoff p
      if amos_deek m p = 0 then some (0, table)
      else
        match add_token tsize m key (entry_name p) (peek m (entry_type m len p)) table
          last_name with
        | none => none
        | some r =>
          if r.ret ≠ 0 then some (1, r.table)
          else parse_loop tsize m len slot tkoff fuel (entry_next m len p) r.table r.last_name
    else some (1, table)

/-- The token-list offset that `AMOS_parse_extension` computes from the header. -/
def ext_tkoff (m : List Nat) : Nat :=
  let tkoff := (amos_leek m 32 + 32 + 18) % 2 ^ 32
  if amos_leek m (32 + 18) = 0x41503230 then (tkoff + 4) % 2 ^ 32 else tkoff

/-- The index at which `AMOS_parse_extension` starts its walk: `&src[tkoff + start]`. -/
def walk_start (m : List Nat) (start : Int) : Nat :=
  (((ext_tkoff m : Int) + start) % 2 ^ 32).toNat

/-- `AMOS_parse_extension(src, len, slot, start, table)`: the return value (0 success,
1 failure) and the table. -/
def AMOS_parse_extension (tsize : Nat) (m : List Nat) (len slot : Nat) (start : Int)
    (table : Table) : Option (Nat × Table) :=
  if len < 54 then some (1, table)
  else if amos_leek m 0 ≠ 0x3f3 then some (1, table)
  else if amos_leek m 24 ≠ 0x3e9 then some (1, table)
  else
    let tkoff := ext_tkoff m
    if tkoff > len then some (1, table)
    else
      parse_loop tsize m len slot tkoff (len + 1) (walk_start m start) table none

/-! ## `AMOS_print_source` -/

/-- The variables of `AMOS_print_source` that the token loop reads and writes. -/
structure TState where
  mem : List Nat
  line : Nat
  err : Nat
  out : List Nat
  space_just_printed : Bool
  compiled_len : Nat
deriving DecidableEq, Repr

/-- The `c -= ('a'-'A')` of the name loop. -/
def upcase (c : Nat) : Nat := if 97 ≤ c ∧ c ≤ 122 then c - 32 else c

/-- The branch `token <= 0x0018` of the token loop; `s.line` is past the token. -/
def name_token (s : TState) (token : Nat) : TState :=
  let m := s.mem
  let line := s.line
  let name := (((List.range (peek m (line + 2))).map (fun i => peek m (line + 4 + i))).takeWhile
    (· ≠ 0)).map upcase
  let out := s.out ++ name
  let next := line + ((if peek m (line + 2) &&& 1 ≠ 0 then 5 else 4) + peek m (line + 2))
  if token = 0x000C then
    let out := if ¬ (48 ≤ peek m (line + 4) ∧ peek m (line + 4) ≤ 57) then out ++ [58] else out
    { s with out := out, line := next }
  else
    let out :=
      if peek m (line + 3) &&& 0x01 ≠ 0 then out ++ [35]
      else if peek m (line + 3) &&& 0x02 ≠ 0 then out ++ [36]
      else out
    if token = 0x0012 then { s with out := out ++ [32], space_just_printed := true, line := next }
    else { s with out := out, line := next }

/-- The branch `token < 0x004E` of the token loop; `s.line` is past the token. -/
def const_token (fmtG : Nat → List Nat) (s : TState) (token : Nat) : TState :=
  let m := s.mem
  let line := s.line
  if token = 0x001E then
    { s with out := s.out ++ print_binary (amos_leek m line), line := line + 4 }
  else if token = 0x0026 then
    let i := amos_deek m line
    let line := line + 2
    { s with out := s.out ++ [34] ++ (if i ≠ 0 then cstr m line else []) ++ [34],
             line := if i &&& 1 ≠ 0 then line + i + 1 else line + i }
  else if token = 0x002E then
    let i := amos_deek m line
    let line := line + 2
    { s with out := s.out ++ [39] ++ (if i ≠ 0 then cstr m line else []) ++ [39],
             line := if i &&& 1 ≠ 0 then line + i + 1 else line + i }
  else if token = 0x0036 then
    { s with out := s.out ++ [36] ++ fmt_X 0 (amos_leek m line), line := line + 4 }
  else if token = 0x003E then
    { s with out := s.out ++ fmt_d (toInt32 (amos_leek m line)), line := line + 4 }
  else if token = 0x0046 then
    { s with out := s.out ++ print_float fmtG (amos_leek m line), line := line + 4 }
  else
    { s with out := s.out ++ str "ILLEGAL_CONST_" ++ fmt_X 4 token, err := s.err ||| 2 }

/-- The value of `space_just_printed` after `while (*tok) space_just_printed = (*tok++ == ' ')`. -/
def space_after (tok : List Nat) (space_just_printed : Bool) : Bool :=
  match tok.getLast? with
  | none => space_just_printed
  | some c => c == 32

/-- The text written for an instruction token and the new `space_just_printed`; the unknown
token text and error bit 4 when `lookup_token` returns `NULL`. -/
def emit_token (tsize : Nat) (table : Table) (s : TState) (slot token : Nat) : TState :=
  match lookup_token tsize slot token table with
  | some text =>
    let tok := text.takeWhile (· ≠ 0)
    let tok := if tok.head? = some 32 ∧ s.space_just_printed then tok.tail else tok
    { s with out := s.out ++ tok, space_just_printed := space_after tok s.space_just_printed }
  | none =>
    { s with out := s.out ++ str "EXTENSION_" ++ fmt_X 2 slot ++ str "_" ++ fmt_X 4 token,
             err := s.err ||| 4 }

/-- The `switch (token)` on the core tokens that carry extra data (`slot == 0`). -/
def special_token (s : TState) (token : Nat) : TState :=
  let m := s.mem
  let line := s.line
  if token = 0x064A ∨ token = 0x0652 then
    let i := peek m (line + 1)
    { s with out := s.out ++ cstr m (line + 2),
             line := if i &&& 1 ≠ 0 then line + 2 + i + 1 else line + 2 + i }
  else if token = 0x023C ∨ token = 0x0250 ∨ token = 0x0268 ∨ token = 0x027E ∨ token = 0x02BE ∨
      token = 0x02D0 ∨ token = 0x0404 ∨ token = 0x25A4 then
    { s with line := line + 2 }
  else if token = 0x0290 ∨ token = 0x029E ∨ token = 0x0316 then
    { s with line := line + 4 }
  else if token = 0x0376 then
    let m := if peek m (line + 6) &&& 0x20 ≠ 0 then AMOS_decrypt_procedure m (line - 4) else m
    let compiled_len := if peek m (line + 6) &&& 0x10 ≠ 0 then amos_leek m line else s.compiled_len
    { s with mem := m, compiled_len := compiled_len, line := line + 8 }
  else s

/-- The branch of the token loop for the tokens `0x004E` to `0xFFFF`; `s.line` is past the
token. -/
def instr_token (tsize : Nat) (table : Table) (s : TState) (token : Nat) : TState :=
  let slot := if token = 0x004E then peek s.mem s.line else 0
  let tok := if token = 0x004E then amos_deek s.mem (s.line + 2) else token
  let s := if token = 0x004E then { s with line := s.line + 4 } else s
  let s := emit_token tsize table s slot tok
  if slot = 0 then special_token s tok else s

/-- One pass of the token loop for the non-zero `token` read at `s.line`. -/
def token_step (tsize : Nat) (fmtG : Nat → List Nat) (table : Table) (s : TState)
    (token : Nat) : TState :=
  let s := { s with line := s.line + 2 }
  if token ≤ 0x0018 then name_token s token
  else if token < 0x004E then const_token fmtG s token
  else instr_token tsize table s token

/-- The loop `while ((line < endline) && (token = amos_deek(line)))`. -/
def token_loop (tsize : Nat) (fmtG : Nat → List Nat) (table : Table) (endline : Nat) :
    Nat → TState → TState
  | 0, s => s
  | fuel + 1, s =>
    if s.line < endline ∧ amos_deek s.mem s.line ≠ 0 then
      token_loop tsize fmtG table endline fuel
        (token_step tsize fmtG table s (amos_deek s.mem s.line))
    else s

/-- The variables of `AMOS_print_source` that live across passes of the line loop. -/
structure PState where
  mem : List Nat
  inpos : Nat
  linelen : Nat
  compiled_len : Nat
  err : Nat
  out : List Nat
deriving DecidableEq, Repr

/-- The notice written in place of a compiled procedure. -/
def compiled_notice : List Nat :=
  str "   ' COMPILED PROCEDURE -- can't convert this to AMOS code\n"

/-- The value of `inpos` after `inpos += linelen`, for the line at `s.inpos`. -/
def next_inpos (s : PState) : Nat := (s.inpos + peek s.mem s.inpos * 2) % 2 ^ 32

/-- The value of `linelen` with which the line at `s.inpos` is decoded: `line[0] * 2`, or
`len - (inpos - linelen)` when the line is said to be longer than the bytes there are. -/
def line_linelen (len : Nat) (s : PState) : Nat :=
  if next_inpos s > len then
    (len - (next_inpos s + 2 ^ 32 - peek s.mem s.inpos * 2) % 2 ^ 32) % 2 ^ 32
  else peek s.mem s.inpos * 2

/-- The state in which the token loop of the line at `s.inpos` starts: the error bit of an
overlong line is set, the indent is written and `line` is past the two-byte line header. -/
def line_begin (len : Nat) (s : PState) : TState :=
  ⟨s.mem, s.inpos + 2, if next_inpos s > len then s.err ||| 1 else s.err,
    if peek s.mem (s.inpos + 1) > 1 then
      s.out ++ List.replicate (peek s.mem (s.inpos + 1) - 1) 32
    else s.out,
    true, s.compiled_len⟩

/-- The part of a pass of the line loop from `line = &src[inpos]` on.  The boolean is
`false` when the pass ends in `break`. -/
def read_line (tsize : Nat) (fmtG : Nat → List Nat) (table : Table) (len : Nat)
    (s : PState) : PState × Bool :=
  if peek s.mem s.inpos * 2 = 0 then
    ({ s with linelen := 0, inpos := next_inpos s, err := s.err ||| 1 }, false)
  else
    let t := token_loop tsize fmtG table (s.inpos + line_linelen len s) (line_linelen len s)
      (line_begin len s)
    (⟨t.mem, next_inpos s, line_linelen len s, t.compiled_len, t.err, t.out ++ [10]⟩, true)

/-- The start of a pass with a compiled procedure pending: the notice and
`inpos += compiled_len + 8 - linelen`. -/
def skip_compiled (s : PState) : PState :=
  if s.compiled_len ≠ 0 then
    { s with out := s.out ++ compiled_notice,
             inpos := (s.inpos + s.compiled_len + 8 + 2 ^ 32 - s.linelen) % 2 ^ 32 }
  else s

/-- The state in which a pass that is not left by `break` reads its line. -/
def pass_begin (s : PState) : PState := { skip_compiled s with compiled_len := 0 }

/-- One pass of the body of the line loop.  The boolean is `false` when the pass ends in
`break`. -/
def line_pass (tsize : Nat) (fmtG : Nat → List Nat) (table : Table) (len : Nat)
    (s : PState) : PState × Bool :=
  if s.compiled_len ≠ 0 ∧ (skip_compiled s).inpos > len then (skip_compiled s, false)
  else read_line tsize fmtG table len (pass_begin s)

/-- The loop `for (inpos = 0; inpos < len;)`; `none` when the fuel runs out. -/
def line_loop (tsize : Nat) (fmtG : Nat → List Nat) (table : Table) (len : Nat) :
    Nat → PState → Option PState
  | 0, _ => none
  | fuel + 1, s =>
    if s.inpos < len then
      let r := line_pass tsize fmtG table len s
      if r.2 then line_loop tsize fmtG table len fuel r.1 else some r.1
    else some s

/-- The state in which `AMOS_print_source` enters its line loop. -/
def initial (src : List Nat) : PState := ⟨src, 0, 0, 0, 0, []⟩

/-- `AMOS_print_source(src, len, out, table)` run for at most `fuel` lines: the final
state, whose `err` is the value returned and whose `out` is the text written. -/
def AMOS_print_source (tsize : Nat) (fmtG : Nat → List Nat) (fuel : Nat) (src : List Nat)
    (len : Nat) (table : Table) : Option PState :=
  line_loop tsize fmtG table len fuel (initial src)

/-- The text the specification gives for an unknown instruction token: "EXTENSION_", the
slot as 2 upper-case hexadecimal digits, "_" and the offset as 4 upper-case hexadecimal
digits. -/
def placeholder_text (slot offset : Nat) : List Nat :=
  str "EXTENSION_" ++ [hexDigit (slot / 16), hexDigit (slot % 16)] ++ str "_" ++
    [hexDigit (offset / 4096), hexDigit (offset / 256 % 16), hexDigit (offset / 16 % 16),
      hexDigit (offset % 16)]

/-- The slot under which the instruction token at `s.line` is looked up. -/
def token_slot (s : TState) : Nat :=
  if amos_deek s.mem s.line = 0x004E then peek s.mem (s.line + 2) else 0

/-- The offset under which the instruction token at `s.line` is looked up. -/
def token_offset (s : TState) : Nat :=
  if amos_deek s.mem s.line = 0x004E then amos_deek s.mem (s.line + 4)
  else amos_deek s.mem s.line

/-- Every bit that is set in the mask `a` is set in the mask `b`. -/
def BitsLe (a b : Nat) : Prop := ∀ i, a.testBit i = true → b.testBit i = true

/-! ## Reaching a line and a token

The two functions below follow the loops of `AMOS_print_source` for a given number of
passes; they serve to say that the decoder gets to a line or to a token. -/

/-- The state at the head of the line loop after `k` passes from `s`, none of them the
last; `none` when the loop ends earlier. -/
def run_passes (tsize : Nat) (fmtG : Nat → List Nat) (table : Table) (len : Nat) :
    Nat → PState → Option PState
  | 0, s => some s
  | k + 1, s =>
    if s.inpos < len ∧ (line_pass tsize fmtG table len s).2 then
      run_passes tsize fmtG table len k (line_pass tsize fmtG table len s).1
    else none

/-- The state at the head of the token loop after `k` passes from `s`; `none` when the
loop ends earlier. -/
def token_steps (tsize : Nat) (fmtG : Nat → List Nat) (table : Table) (endline : Nat) :
    Nat → TState → Option TState
  | 0, s => some s
  | k + 1, s =>
    if s.line < endline ∧ amos_deek s.mem s.line ≠ 0 then
      token_steps tsize fmtG table endline k
        (token_step tsize fmtG table s (amos_deek s.mem s.line))
    else none

/-! ## The walk over the token list

The two functions below follow the loop of `AMOS_parse_extension` without the table; they
serve to name the entries that the loop walks and the entry at which it ends. -/

/-- The value of `*last_name` after `add_token` has been called for the entry at `p`. -/
def next_last (m : List Nat) (p : Nat) (last_name : Option Nat) : Option Nat :=
  match resolve_name m (entry_name p) last_name with
  | none => last_name
  | some r => r.2

/-- The index of the entry whose first 16-bit pointer is zero at which the walk from `p`
ends; `none` when the walk runs out of the buffer before such an entry. -/
def walk_end (m : List Nat) (len : Nat) : Nat → Nat → Option Nat
  | 0, _ => none
  | fuel + 1, p =>
    if p + 2 < len then
      if amos_deek m p = 0 then some p else walk_end m len fuel (entry_next m len p)
    else none

/-- The entries walked from `p` on, each with the value of `*last_name` on arrival. -/
def walk_entries (m : List Nat) (len : Nat) : Nat → Nat → Option Nat → List (Nat × Option Nat)
  | 0, _, _ => []
  | fuel + 1, p, last_name =>
    if p + 2 < len ∧ amos_deek m p ≠ 0 then
      (p, last_name) :: walk_entries m len fuel (entry_next m len p) (next_last m p last_name)
    else []

/-- A remembered name, if there is one, is ended somewhere in the memory. -/
def LastOk (m : List Nat) (last_name : Option Nat) : Prop :=
  ∀ ln, last_name = some ln → ∃ t, ln ≤ t ∧ 0x80 ≤ peek m t

/-! ## A buffer of nearly 4 GiB -/

/-- The number of zero bytes in `wrapBuffer`. -/
def wrapPad : Nat := 2 ^ 32 - 36

/-- A buffer of `2 ^ 32 - 2` bytes: two PROCEDURE lines marked as compiled code, zeros, and
at index `2 ^ 32 - 4` a last line that declares 20 bytes where 2 are left. -/
@[irreducible] def wrapBuffer : List Nat :=
  [8, 1, 0x03, 0x76, 0xFF, 0xFF, 0xFF, 0xF4, 0, 0, 0x10, 0, 0, 0, 0, 0] ++
    ([8, 1, 0x03, 0x76, 0xFF, 0xFF, 0xFF, 0xE7, 0, 0, 0x10, 0, 0, 0, 0, 0] ++
      (List.replicate wrapPad 0 ++ [10, 0]))

/-! ## Extension images -/

/-- The 50 header bytes of an extension image whose token list starts at offset 50. -/
def hunkHeader : List Nat :=
  [0, 0, 3, 0xF3, 0, 0, 0, 0, 0, 0, 0, 0, 0, 0, 0, 0, 0, 0, 0, 0, 0, 0, 0, 0,
   0, 0, 3, 0xE9, 0, 0, 0, 0, 0, 0, 0, 0, 0, 0, 0, 0, 0, 0, 0, 0, 0, 0, 0, 0, 0, 0]

/-- An extension image of 73 bytes: the entry `!open` of type `I`, an entry with a blank
name of type `0`, and the end of the list. -/
def smallImage : List Nat :=
  hunkHeader ++ [0, 1, 0, 0, 33, 111, 112, 101, 0xEE, 73, 0xFF, 0,
    0, 2, 0, 0, 0x80, 48, 0xFF, 0, 0, 0, 0]

/-- The number of zero bytes between the header and the entry of `farImage`. -/
def farPad : Nat := 65536

/-- An extension image of 65595 bytes whose token list starts at offset 50 and holds, 65536
bytes further, the entry `a` of type `0xFF` followed by the end of the list. -/
@[irreducible] def farImage : List Nat :=
  hunkHeader ++ (List.replicate farPad 0 ++ [0, 1, 0, 0, 0xE1, 0xFF, 0, 0, 0])

/-- An extension image of 57 bytes whose token list holds one entry, with a name that no
byte of the image ends. -/
def unendedImage : List Nat := hunkHeader ++ [0, 1, 0, 0, 97, 98, 99]

/-! ## `AMOS_find_slot` -/

/-- The state of the scan of `AMOS_find_slot`: the candidates `b`, `w` and `l` (-1 while
none is found) and the indices of the bytes of `src` read so far. -/
structure FindState where
  b : Int
  w : Int
  l : Int
  reads : List Nat
deriving DecidableEq, Repr

/-- The indices of the bytes that `amos_deek(&src[a])` reads. -/
def deek_reads (a : Nat) : List Nat := [a, a + 1]

/-- The indices of the bytes that `amos_leek(&src[a])` reads. -/
def leek_reads (a : Nat) : List Nat := [a, a + 1, a + 2, a + 3]

/-- The body of the `for` loop of `AMOS_find_slot` for the word at `p`, with `e` the index
of `end`; `slots` is `AMOS_EXTENSION_SLOTS` (declared in `amoslib.h`, absent from the
sources).  The boolean is `false` when the body ends in `break`. -/
def find_step (slots : Nat) (m : List Nat) (e p : Nat) (s : FindState) : FindState × Bool :=
  let c := amos_deek m p
  let reads := s.reads ++ deek_reads p
  if c = 0x4E75 then (⟨s.b, s.w, s.l, reads⟩, false)
  else if 0x7000 ≤ c ∧ c ≤ (0x7000 ||| slots) then
    (⟨((c &&& 0xFF : Nat) : Int) + 1, s.w, s.l, reads⟩, true)
  else if c = 0x303C ∧ p + 4 < e then
    let c := amos_deek m (p + 2)
    let reads := reads ++ deek_reads (p + 2)
    if c ≤ slots then (⟨s.b, (c : Int) + 1, s.l, reads⟩, true) else (⟨s.b, s.w, s.l, reads⟩, true)
  else if c = 0x203C ∧ p + 6 < e then
    let c := amos_leek m (p + 2)
    let reads := reads ++ leek_reads (p + 2)
    if c ≤ slots then (⟨s.b, s.w, (c : Int) + 1, reads⟩, true) else (⟨s.b, s.w, s.l, reads⟩, true)
  else (⟨s.b, s.w, s.l, reads⟩, true)

/-- The loop `for (p = &src[codeoff], end = &src[titleoff]; p+2 < end; p += 2)`. -/
def find_loop (slots : Nat) (m : List Nat) (e : Nat) : Nat → Nat → FindState → FindState
  | 0, _, s => s
  | fuel + 1, p, s =>
    if p + 2 < e then
      let r := find_step slots m e p s
      if r.2 then find_loop slots m e fuel (p + 2) r.1 else r.1
    else s

/-- The value of `tkoff` before the "AP20" check. -/
def find_tkoff (m : List Nat) : Nat := (amos_leek m 32 + 32 + 18) % 2 ^ 32

/-- The value of `codeoff` at the bounds check of `AMOS_find_slot`. -/
def find_codeoff (m : List Nat) : Nat :=
  let codeoff := (amos_leek m 36 + find_tkoff m) % 2 ^ 32
  if amos_leek m (32 + 18) = 0x41503230 then (codeoff + 4) % 2 ^ 32 else codeoff

/-- The value of `titleoff` at the bounds check of `AMOS_find_slot`. -/
def find_titleoff (m : List Nat) : Nat :=
  let codeoff := (amos_leek m 36 + find_tkoff m) % 2 ^ 32
  let titleoff := (amos_leek m 40 + codeoff) % 2 ^ 32
  if amos_leek m (32 + 18) = 0x41503230 then (titleoff + 4) % 2 ^ 32 else titleoff

/-- The bytes that `AMOS_find_slot` reads before its bounds check. -/
def header_reads : List Nat :=
  leek_reads 32 ++ leek_reads 36 ++ leek_reads 40 ++ leek_reads (32 + 18)

/-- `AMOS_find_slot(src, len)` together with the indices of the bytes of `src` it reads, in
the order in which it reads them. -/
def find_slot_run (slots : Nat) (m : List Nat) (len : Nat) : Int × List Nat :=
  if len < 50 then (-1, [])
  else if find_codeoff m > len ∨ find_titleoff m > len then (-1, header_reads)
  else
    let s := find_loop slots m (find_titleoff m) (find_titleoff m - find_codeoff m)
      (find_codeoff m) ⟨-1, -1, -1, header_reads⟩
    (if s.b ≠ -1 then s.b else if s.l ≠ -1 then s.l else s.w, s.reads)

/-- `AMOS_find_slot(src, len)`: the slot number, -1 when none is found. -/
def AMOS_find_slot (slots : Nat) (m : List Nat) (len : Nat) : Int :=
  (find_slot_run slots m len).1

/-- The indices of the words that the scan of `AMOS_find_slot` from `p` looks at before it
stops: every second index while `p + 2 < e`, up to the first word 0x4E75 (left out). -/
def scan_words (m : List Nat) (e : Nat) : Nat → Nat → List Nat
  | 0, _ => []
  | fuel + 1, p =>
    if p + 2 < e ∧ amos_deek m p ≠ 0x4E75 then p :: scan_words m e fuel (p + 2) else []

/-- The slot that the word at `p` gives when it is the 8-bit idiom `MOVEQ #n,D0`. -/
def moveq_slot (slots : Nat) (m : List Nat) (p : Nat) : Option Int :=
  if 0x7000 ≤ amos_deek m p ∧ amos_deek m p ≤ (0x7000 ||| slots) then
    some (((amos_deek m p &&& 0xFF : Nat) : Int) + 1)
  else none

/-- The slot that the word at `p` gives when it is the 32-bit idiom `MOVE.L #n,D0` with its
operand inside the region and in range. -/
def movel_slot (slots : Nat) (m : List Nat) (e p : Nat) : Option Int :=
  if amos_deek m p = 0x203C ∧ p + 6 < e ∧ amos_leek m (p + 2) ≤ slots then
    some ((amos_leek m (p + 2) : Int) + 1)
  else none

/-- The slot that the word at `p` gives when it is the 16-bit idiom `MOVE.W #n,D0` with its
operand inside the region and in range. -/
def movew_slot (slots : Nat) (m : List Nat) (e p : Nat) : Option Int :=
  if amos_deek m p = 0x303C ∧ p + 4 < e ∧ amos_deek m (p + 2) ≤ slots then
    some ((amos_deek m (p + 2) : Int) + 1)
  else none

/-- The result the specification gives for the scanned words `ws`: the 8-bit form if there
is one, else the 32-bit form, else the 16-bit form, else -1; among several of one form the
last. -/
def preferred_slot (slots : Nat) (m : List Nat) (e : Nat) (ws : List Nat) : Int :=
  match (ws.filterMap (moveq_slot slots m)).getLast? with
  | some v => v
  | none =>
    match (ws.filterMap (movel_slot slots m e)).getLast? with
    | some v => v
    | none =>
      match (ws.filterMap (movew_slot slots m e)).getLast? with
      | some v => v
      | none => -1

/-- An extension image of 54 bytes whose code region holds the one word 0x7019,
`MOVEQ #25,D0`. -/
def moveqImage : List Nat :=
  List.replicate 40 0 ++ [0, 0, 0, 4, 0, 0, 0, 0, 0, 0, 0x70, 0x19, 0, 0]

/-- An extension image of 68 bytes whose code region holds `MOVE.L #3,D0`, `MOVEQ #5,D0`,
`MOVE.W #7,D0`, `RTS` and, behind it, `MOVEQ #9,D0`. -/
def idiomImage : List Nat :=
  List.replicate 40 0 ++ [0, 0, 0, 18, 0, 0, 0, 0, 0, 0,
    0x20, 0x3C, 0, 0, 0, 3, 0x70, 0x05, 0x30, 0x3C, 0, 7, 0x4E, 0x75, 0x70, 0x09, 0, 0]

/-- A candidate of the scan is -1 or a number from 1 to 26. -/
def SlotOk (x : Int) : Prop := x = -1 ∨ (1 ≤ x ∧ x ≤ 26)

/-- The number that a list of the characters '0' and '1' reads as, most significant digit
first. -/
def binary_value (ds : List Nat) : Nat := ds.foldl (fun a d => 2 * a + (d - 48)) 0

/-- The IEEE 754 bit pattern that `print_float` builds from the raw AMOS float `value`. -/
def float_bits (value : Nat) : Nat :=
  if value ≠ 0 then
    ((((value >>> 7) &&& 1) <<< 31) ||| ((((value &&& 0x7F) + 62) &&& 0xFF) <<< 23) |||
      ((value >>> 8) &&& 0x7FFFFF)) % 2 ^ 32
  else 0

/-- The bytes `bs` are the ones that memory holds from index `a` on. -/
def BytesAt (m : List Nat) (a : Nat) (bs : List Nat) : Prop :=
  ∀ i, i < bs.length → peek m (a + i) = bs.getD i 0

/-- The bytes `cs ++ [t]` are a raw name: ASCII bytes, the last one carrying the high
bit. -/
def RawName (cs : List Nat) (t : Nat) : Prop := (∀ c ∈ cs, c < 0x80) ∧ 0x80 ≤ t ∧ t < 256

/-- The copy loop of `add_token` on the characters of a name (the last one without its high
bit): a lower-case letter is raised when `upcase` is set, which clears `upcase`; a space sets
`upcase`; every other character is copied and leaves `upcase` as it is. -/
def raise_words : Bool → List Nat → List Nat
  | _, [] => []
  | upcase, c :: rest =>
    if 97 ≤ c ∧ c ≤ 122 then (if upcase then c - 32 else c) :: raise_words false rest
    else if c = 32 then c :: raise_words true rest
    else c :: raise_words upcase rest

/-- The capitalisation that the specification describes: the first letter of the name and
the first letter after each space in upper case, every other letter in lower case; `first`
says that the next letter is such a first letter. -/
def capitalise_words : Bool → List Nat → List Nat
  | _, [] => []
  | first, c :: rest =>
    if 97 ≤ c ∧ c ≤ 122 then (if first then c - 32 else c) :: capitalise_words false rest
    else if 65 ≤ c ∧ c ≤ 90 then (if first then c else c + 32) :: capitalise_words false rest
    else if c = 32 then c :: capitalise_words true rest
    else c :: capitalise_words first rest


/-- A program of 18 bytes: a PROCEDURE line of 16 bytes, marked as compiled code, whose
length field is `2 ^ 32 - 8`, and two more bytes. -/
def loopBuffer : List Nat :=
  [8, 1, 0x03, 0x76, 0xFF, 0xFF, 0xFF, 0xF8, 0, 0, 0x10, 0, 0, 0, 0, 0, 0, 0]

/-- The number that a list of decimal digit characters reads as, most significant digit
first. -/
def decimal_value (ds : List Nat) : Nat := ds.foldl (fun a d => 10 * a + (d - 48)) 0

/-- The capitalisation that `add_token` is written for: the first letter of the name and
the first letter after each space in upper case, every other character as it is in the raw
name; `first` says that the next letter is such a first letter. -/
def capitalise_first : Bool → List Nat → List Nat
  | _, [] => []
  | first, c :: rest =>
    if 97 ≤ c ∧ c ≤ 122 then (if first then c - 32 else c) :: capitalise_first false rest
    else if 65 ≤ c ∧ c ≤ 90 then c :: capitalise_first false rest
    else if c = 32 then c :: capitalise_first true rest
    else c :: capitalise_first first rest

/-- No word of the name begins with an upper-case letter: the first letter of the name and
the first letter after each space are lower-case letters. -/
def lower_initials : Bool → List Nat → Bool
  | _, [] => true
  | first, c :: rest =>
    if 97 ≤ c ∧ c ≤ 122 then lower_initials false rest
    else if 65 ≤ c ∧ c ≤ 90 then !first && lower_initials false rest
    else if c = 32 then lower_initials true rest
    else lower_initials first rest

/-- An extension image of 56 bytes whose code region is the six bytes of `MOVE.L #3,D0`. -/
def moveEndImage : List Nat :=
  List.replicate 40 0 ++ [0, 0, 0, 6, 0, 0, 0, 0, 0, 0, 0x20, 0x3C, 0, 0, 0, 3]

/-- An extension image of 58 bytes whose code region is `MOVE.L #3,D0` and two more
bytes. -/
def moveRoomImage : List Nat :=
  List.replicate 40 0 ++ [0, 0, 0, 8, 0, 0, 0, 0, 0, 0, 0x20, 0x3C, 0, 0, 0, 3, 0, 0]
/-! ## Memory lemmas -/

theorem peek_lt (m : List Nat) (i : Nat) : peek m i < 256 :=
  Nat.mod_lt _ (by decide)

theorem peek_eq_getElem? (m : List Nat) (i : Nat) : peek m i = m[i]?.getD 0 % 256 := by
  simp [peek, List.getD_eq_getElem?_getD]

theorem peek_congr {m m' : List Nat} {i : Nat} (h : m[i]? = m'[i]?) : peek m i = peek m' i := by
  simp [peek_eq_getElem?, h]

theorem getElem?_xorAt (m : List Nat) (p k i : Nat) :
    (xorAt m p k)[i]? = if i = p then m[i]?.map (fun b => b % 256 ^^^ k) else m[i]? := by
  unfold xorAt
  rw [List.getElem?_set]
  by_cases h : p = i
  · subst h
    by_cases hl : p < m.length
    · simp [hl, peek_eq_getElem?, List.getElem?_eq_getElem hl]
    · simp [hl, List.getElem?_eq_none (Nat.le_of_not_lt hl)]
  · have h' : ¬ i = p := fun e => h e.symm
    simp [h, h']

theorem getElem?_xorAt_ne (m : List Nat) {p i : Nat} (k : Nat) (h : i ≠ p) :
    (xorAt m p k)[i]? = m[i]? := by
  simp [getElem?_xorAt, h]

theorem getElem?_xorAt_congr {m m' : List Nat} (p k : Nat) {i : Nat} (h : m[i]? = m'[i]?) :
    (xorAt m p k)[i]? = (xorAt m' p k)[i]? := by
  simp [getElem?_xorAt, h]

theorem Bytes.getElem? {m : List Nat} (hm : Bytes m) {i b : Nat} (h : m[i]? = some b) :
    b < 256 :=
  hm b (List.getElem?_mem h)

theorem xor_xor_cancel (b k : Nat) (hb : b < 256) (hk : k < 256) :
    (b % 256 ^^^ k) % 256 ^^^ k = b := by
  have h1 : b % 256 = b := Nat.mod_eq_of_lt hb
  have h2 : b ^^^ k < 2 ^ 8 := Nat.xor_lt_two_pow (by simpa using hb) (by simpa using hk)
  rw [h1, Nat.mod_eq_of_lt (by simpa using h2), Nat.xor_assoc, Nat.xor_self, Nat.xor_zero]

theorem xorAt_xorAt_getElem? {m : List Nat} (hm : Bytes m) (p k i : Nat) (hk : k < 256) :
    (xorAt (xorAt m p k) p k)[i]? = m[i]? := by
  rw [getElem?_xorAt, getElem?_xorAt]
  by_cases h : i = p
  · simp only [h, if_true]
    cases hb : m[p]? with
    | none => rfl
    | some b => simp [xor_xor_cancel b k (hm.getElem? hb) hk]
  · simp [h]

/-! ## The line loop of the decryptor -/

theorem decrypt_line_of_le (fuel : Nat) (m : List Nat) (line next key key2 key3 : Nat)
    (h : next ≤ line) : decrypt_line fuel m line next key key2 key3 = (m, line, key, key2) := by
  cases fuel with
  | zero => rfl
  | succ f => simp [decrypt_line, Nat.not_lt.mpr h]

/-- The line loop leaves every byte outside `[line, line + 2 * k)` alone. -/
theorem decrypt_line_frame (fuel : Nat) : ∀ (m : List Nat) (a k key key2 key3 i : Nat),
    (i < a ∨ a + 2 * k ≤ i) →
    (decrypt_line fuel m a (a + 2 * k) key key2 key3).1[i]? = m[i]? := by
  induction fuel with
  | zero => intro m a k key key2 key3 i _; rfl
  | succ f ih =>
    intro m a k key key2 key3 i hi
    cases k with
    | zero => rw [decrypt_line_of_le _ _ _ _ _ _ _ (by omega)]
    | succ k =>
      have hlt : a < a + 2 * (k + 1) := by omega
      simp only [decrypt_line, hlt, if_true]
      have e : a + 2 * (k + 1) = (a + 2) + 2 * k := by omega
      rw [e, ih _ _ _ _ _ _ i (by omega), getElem?_xorAt_ne _ _ (by omega),
        getElem?_xorAt_ne _ _ (by omega)]

/-- The final `line`, `key` and `key2` of the line loop do not depend on the memory. -/
theorem decrypt_line_snd (fuel : Nat) : ∀ (m m' : List Nat) (a nx key key2 key3 : Nat),
    (decrypt_line fuel m a nx key key2 key3).2 = (decrypt_line fuel m' a nx key key2 key3).2 := by
  induction fuel with
  | zero => intro m m' a nx key key2 key3; rfl
  | succ f ih =>
    intro m m' a nx key key2 key3
    by_cases h : a < nx
    · simp only [decrypt_line, h, if_true]
      exact ih _ _ _ _ _ _ _
    · simp [decrypt_line, h]

/-- The line loop acts on each byte separately. -/
theorem decrypt_line_congr (fuel : Nat) : ∀ (m m' : List Nat) (a nx key key2 key3 i : Nat),
    m[i]? = m'[i]? →
    (decrypt_line fuel m a nx key key2 key3).1[i]? =
      (decrypt_line fuel m' a nx key key2 key3).1[i]? := by
  induction fuel with
  | zero => intro m m' a nx key key2 key3 i h; exact h
  | succ f ih =>
    intro m m' a nx key key2 key3 i h
    by_cases hlt : a < nx
    · simp only [decrypt_line, hlt, if_true]
      exact ih _ _ _ _ _ _ _ i (getElem?_xorAt_congr _ _ (getElem?_xorAt_congr _ _ h))
    · simpa [decrypt_line, hlt] using h

theorem and_255_lt (k : Nat) : k &&& 0xFF < 256 :=
  Nat.lt_of_le_of_lt Nat.and_le_right (by decide)

theorem xorAt_twice_at {m : List Nat} {i : Nat} (hm : ∀ b, m[i]? = some b → b < 256)
    (p k : Nat) (hk : k < 256) : (xorAt (xorAt m p k) p k)[i]? = m[i]? := by
  rw [getElem?_xorAt, getElem?_xorAt]
  by_cases h : i = p
  · simp only [h, if_true]
    cases hb : m[p]? with
    | none => rfl
    | some b => simp [xor_xor_cancel b k (hm b (h ▸ hb)) hk]
  · simp [h]

/-- Running the line loop twice with the same keys restores a byte. -/
theorem decrypt_line_twice (fuel : Nat) : ∀ (m : List Nat) (a k key key2 key3 i : Nat),
    (∀ b, m[i]? = some b → b < 256) →
    (decrypt_line fuel (decrypt_line fuel m a (a + 2 * k) key key2 key3).1
      a (a + 2 * k) key key2 key3).1[i]? = m[i]? := by
  induction fuel with
  | zero => intro m a k key key2 key3 i _; rfl
  | succ f ih =>
    intro m a k key key2 key3 i hm
    cases k with
    | zero =>
      rw [decrypt_line_of_le _ _ _ _ _ _ _ (by omega), decrypt_line_of_le _ _ _ _ _ _ _ (by omega)]
    | succ k =>
      have hlt : a < a + 2 * (k + 1) := by omega
      have e : a + 2 * (k + 1) = (a + 2) + 2 * k := by omega
      simp only [decrypt_line, hlt, if_true]
      rw [e]
      generalize hk1 : (key >>> 8) &&& 0xFF = k1
      generalize hk0 : key &&& 0xFF = k0
      generalize (((key + key2) % 2 ^ 32) >>> 1 ||| ((key + key2) % 2 ^ 32) <<< 31) % 2 ^ 32 = K
      generalize (key2 + key3) % 2 ^ 32 = K2
      have hk1lt : k1 < 256 := hk1 ▸ and_255_lt _
      have hk0lt : k0 < 256 := hk0 ▸ and_255_lt _
      by_cases hi : i < a + 2
      · rw [decrypt_line_frame f _ _ _ _ _ _ i (Or.inl hi)]
        have f2 := decrypt_line_frame f (xorAt (xorAt m a k1) (a + 1) k0) (a + 2) k K K2 key3 i
          (Or.inl hi)
        rw [getElem?_xorAt_congr _ _ (getElem?_xorAt_congr _ _ f2)]
        by_cases h1 : i = a + 1
        · have hM : (xorAt m a k1)[i]? = m[i]? := getElem?_xorAt_ne _ _ (by omega)
          rw [getElem?_xorAt_congr _ _ (getElem?_xorAt_ne _ _ (by omega)),
            xorAt_twice_at (by rw [hM]; exact hm) _ _ hk0lt, hM]
        · rw [getElem?_xorAt_ne _ _ h1,
            getElem?_xorAt_congr _ _ (getElem?_xorAt_ne _ _ h1)]
          exact xorAt_twice_at hm _ _ hk1lt
      · have g3 : (xorAt (xorAt m a k1) (a + 1) k0)[i]? = m[i]? := by
          rw [getElem?_xorAt_ne _ _ (by omega), getElem?_xorAt_ne _ _ (by omega)]
        have g1 := ih (xorAt (xorAt m a k1) (a + 1) k0) (a + 2) k K K2 key3 i
          (by rw [g3]; exact hm)
        rw [← g3, ← g1]
        apply decrypt_line_congr
        rw [getElem?_xorAt_ne _ _ (by omega), getElem?_xorAt_ne _ _ (by omega)]

/-! ## The procedure loop of the decryptor -/

theorem lineXor_frame (n l key key2 key3 : Nat) (m : List Nat) (i : Nat)
    (h : i < l + 4 ∨ l + n * 2 ≤ i) : (lineXor n l key key2 key3 m)[i]? = m[i]? := by
  unfold lineXor
  by_cases hn : n ≤ 2
  · rw [decrypt_line_of_le _ _ _ _ _ _ _ (by omega)]
  · obtain ⟨k, rfl⟩ : ∃ k, n = k + 2 := ⟨n - 2, by omega⟩
    have e : l + (k + 2) * 2 = (l + 4) + 2 * k := by omega
    rw [e]
    exact decrypt_line_frame _ _ _ _ _ _ _ i (by omega)

theorem lineXor_congr (n l key key2 key3 : Nat) {m m' : List Nat} {i : Nat}
    (h : m[i]? = m'[i]?) : (lineXor n l key key2 key3 m)[i]? = (lineXor n l key key2 key3 m')[i]? :=
  decrypt_line_congr _ _ _ _ _ _ _ _ i h

theorem lineXor_twice (n l key key2 key3 : Nat) (m : List Nat) (i : Nat)
    (h : ∀ b, m[i]? = some b → b < 256) :
    (lineXor n l key key2 key3 (lineXor n l key key2 key3 m))[i]? = m[i]? := by
  unfold lineXor
  by_cases hn : n ≤ 2
  · rw [decrypt_line_of_le _ _ _ _ _ _ _ (by omega), decrypt_line_of_le _ _ _ _ _ _ _ (by omega)]
  · obtain ⟨k, rfl⟩ : ∃ k, n = k + 2 := ⟨n - 2, by omega⟩
    have e : l + (k + 2) * 2 = (l + 4) + 2 * k := by omega
    rw [e]
    exact decrypt_line_twice _ _ _ _ _ _ _ i h

theorem decrypt_loop_succ (fuel : Nat) (m : List Nat) (line next endline key key2 key3 : Nat) :
    decrypt_loop (fuel + 1) m line next endline key key2 key3 =
      if line < endline then
        if peek m next = 0 then (m, false)
        else
          decrypt_loop fuel (lineXor (peek m next) next key key2 key3 m)
            (decrypt_line (peek m next) m (next + 4) (next + peek m next * 2) key key2 key3).2.1
            (next + peek m next * 2) endline
            (decrypt_line (peek m next) m (next + 4) (next + peek m next * 2) key key2 key3).2.2.1
            (decrypt_line (peek m next) m (next + 4) (next + peek m next * 2) key key2 key3).2.2.2
            key3
      else (m, true) := rfl

/-- The procedure loop changes no byte before the fifth byte of the line it starts at. -/
theorem decrypt_loop_frame (fuel : Nat) : ∀ (m : List Nat) (line next endline key key2 key3 i : Nat),
    i < next + 4 → (decrypt_loop fuel m line next endline key key2 key3).1[i]? = m[i]? := by
  induction fuel with
  | zero => intro m line next endline key key2 key3 i _; rfl
  | succ f ih =>
    intro m line next endline key key2 key3 i hi
    rw [decrypt_loop_succ]
    by_cases h1 : line < endline
    · by_cases h2 : peek m next = 0
      · simp [h1, h2]
      · simp only [h1, h2, if_true, if_false]
        rw [ih _ _ _ _ _ _ _ i (by omega)]
        exact lineXor_frame _ _ _ _ _ _ i (Or.inl hi)
    · simp [h1]

/-- Two memories that agree from `next` on are transformed alike from `next` on. -/
theorem decrypt_loop_congr (fuel : Nat) :
    ∀ (m m' : List Nat) (line next endline key key2 key3 : Nat),
    (∀ i, next ≤ i → m[i]? = m'[i]?) →
    (decrypt_loop fuel m line next endline key key2 key3).2 =
      (decrypt_loop fuel m' line next endline key key2 key3).2 ∧
    ∀ i, next ≤ i → (decrypt_loop fuel m line next endline key key2 key3).1[i]? =
      (decrypt_loop fuel m' line next endline key key2 key3).1[i]? := by
  induction fuel with
  | zero => intro m m' line next endline key key2 key3 h; exact ⟨rfl, h⟩
  | succ f ih =>
    intro m m' line next endline key key2 key3 h
    have hp : peek m next = peek m' next := peek_congr (h next (Nat.le_refl _))
    rw [decrypt_loop_succ, decrypt_loop_succ, ← hp]
    by_cases h1 : line < endline
    · by_cases h2 : peek m next = 0
      · simpa [h1, h2] using h
      · simp only [h1, h2, if_true, if_false]
        rw [decrypt_line_snd _ m m']
        have hx : ∀ i, next ≤ i → (lineXor (peek m next) next key key2 key3 m)[i]? =
            (lineXor (peek m next) next key key2 key3 m')[i]? :=
          fun i hi => lineXor_congr _ _ _ _ _ (h i hi)
        have := ih (lineXor (peek m next) next key key2 key3 m)
          (lineXor (peek m next) next key key2 key3 m')
          (decrypt_line (peek m next) m' (next + 4) (next + peek m next * 2) key key2 key3).2.1
          (next + peek m next * 2) endline
          (decrypt_line (peek m next) m' (next + 4) (next + peek m next * 2) key key2 key3).2.2.1
          (decrypt_line (peek m next) m' (next + 4) (next + peek m next * 2) key key2 key3).2.2.2
          key3 (fun i hi => hx i (by omega))
        refine ⟨this.1, fun i hi => ?_⟩
        by_cases hin : next + peek m next * 2 ≤ i
        · exact this.2 i hin
        · rw [decrypt_loop_frame _ _ _ _ _ _ _ _ i (by omega),
            decrypt_loop_frame _ _ _ _ _ _ _ _ i (by omega)]
          exact hx i hi
    · simpa [h1] using h

/-- The procedure loop commutes with any bytewise change made below the line it starts at. -/
theorem decrypt_loop_comm (G : List Nat → List Nat) (p : Nat)
    (hG1 : ∀ (M : List Nat) (i : Nat), p ≤ i → (G M)[i]? = M[i]?)
    (hG2 : ∀ (M M' : List Nat) (i : Nat), M[i]? = M'[i]? → (G M)[i]? = (G M')[i]?)
    (fuel : Nat) (m : List Nat) (line next endline key key2 key3 : Nat) (hp : p ≤ next) :
    decrypt_loop fuel (G m) line next endline key key2 key3 =
      (G (decrypt_loop fuel m line next endline key key2 key3).1,
        (decrypt_loop fuel m line next endline key key2 key3).2) := by
  have hc := decrypt_loop_congr fuel (G m) m line next endline key key2 key3
    (fun i hi => hG1 m i (by omega))
  refine Prod.ext ?_ hc.1
  apply List.ext_getElem?
  intro i
  show (decrypt_loop fuel (G m) line next endline key key2 key3).1[i]? =
    (G (decrypt_loop fuel m line next endline key key2 key3).1)[i]?
  by_cases hi : next ≤ i
  · rw [hc.2 i hi, hG1 _ i (by omega)]
  · rw [decrypt_loop_frame _ _ _ _ _ _ _ _ i (by omega)]
    exact hG2 _ _ i (decrypt_loop_frame _ _ _ _ _ _ _ _ i (by omega)).symm

/-- Running the procedure loop twice from the same state restores the memory. -/
theorem decrypt_loop_twice (fuel : Nat) : ∀ (m : List Nat) (line next endline key key2 key3 : Nat),
    Bytes m →
    decrypt_loop fuel (decrypt_loop fuel m line next endline key key2 key3).1
        line next endline key key2 key3 =
      (m, (decrypt_loop fuel m line next endline key key2 key3).2) := by
  induction fuel with
  | zero => intro m line next endline key key2 key3 _; rfl
  | succ f ih =>
    intro m line next endline key key2 key3 hm
    by_cases h1 : line < endline
    · by_cases h2 : peek m next = 0
      · have e : decrypt_loop (f + 1) m line next endline key key2 key3 = (m, false) := by
          rw [decrypt_loop_succ]; simp [h1, h2]
        rw [e, e]
      · have e : decrypt_loop (f + 1) m line next endline key key2 key3 =
            decrypt_loop f (lineXor (peek m next) next key key2 key3 m)
              (decrypt_line (peek m next) m (next + 4) (next + peek m next * 2) key key2 key3).2.1
              (next + peek m next * 2) endline
              (decrypt_line (peek m next) m (next + 4) (next + peek m next * 2) key key2 key3).2.2.1
              (decrypt_line (peek m next) m (next + 4) (next + peek m next * 2) key key2 key3).2.2.2
              key3 := by
          rw [decrypt_loop_succ]; simp [h1, h2]
        rw [e]
        generalize hn : peek m next = n at h2 ⊢
        generalize hs : (decrypt_line n m (next + 4) (next + n * 2) key key2 key3).2 = st
        have hX1 : ∀ (M : List Nat) (i : Nat), next + n * 2 ≤ i →
            (lineXor n next key key2 key3 M)[i]? = M[i]? :=
          fun M i hi => lineXor_frame _ _ _ _ _ _ i (Or.inr hi)
        have hX2 : ∀ (M M' : List Nat) (i : Nat), M[i]? = M'[i]? →
            (lineXor n next key key2 key3 M)[i]? = (lineXor n next key key2 key3 M')[i]? :=
          fun M M' i h => lineXor_congr _ _ _ _ _ h
        have hXX : lineXor n next key key2 key3 (lineXor n next key key2 key3 m) = m :=
          List.ext_getElem? fun i => lineXor_twice _ _ _ _ _ _ i (fun b hb => hm.getElem? hb)
        have hc := decrypt_loop_comm _ _ hX1 hX2 f m st.1 (next + n * 2) endline st.2.1 st.2.2
          key3 (Nat.le_refl _)
        rw [hc]
        have hpk : peek (lineXor n next key key2 key3
            (decrypt_loop f m st.1 (next + n * 2) endline st.2.1 st.2.2 key3).1) next = n := by
          rw [← hn]
          apply peek_congr
          rw [lineXor_frame _ _ _ _ _ _ _ (Or.inl (by omega)),
            decrypt_loop_frame _ _ _ _ _ _ _ _ _ (by omega)]
        rw [decrypt_loop_succ]
        simp only [hpk, h1, h2, if_true, if_false]
        rw [decrypt_line_snd _ _ m, hs,
          decrypt_loop_comm _ _ hX1 hX2 f _ st.1 (next + n * 2) endline st.2.1 st.2.2
            key3 (Nat.le_refl _),
          decrypt_loop_comm _ _ hX1 hX2 f _ st.1 (next + n * 2) endline st.2.1 st.2.2
            key3 (Nat.le_refl _), ih _ _ _ _ _ _ _ hm, hXX]
    · have e : decrypt_loop (f + 1) m line next endline key key2 key3 = (m, true) := by
        rw [decrypt_loop_succ]; simp [h1]
      rw [e, e]

set_option maxRecDepth 100000 in
theorem flag_toggle_keeps_compiled :
    ∀ b < 256, b &&& 0x10 = 0 → (b ^^^ 0x20) % 256 &&& 0x10 = 0 := by
  decide

theorem peek_xorAt_ne (m : List Nat) {p i : Nat} (k : Nat) (h : i ≠ p) :
    peek (xorAt m p k) i = peek m i :=
  peek_congr (getElem?_xorAt_ne m k h)

theorem peek_xorAt_flag (m : List Nat) (p : Nat) (h : peek m p &&& 0x10 = 0) :
    peek (xorAt m p 0x20) p &&& 0x10 = 0 := by
  rw [peek_eq_getElem?] at h
  rw [peek_eq_getElem?, getElem?_xorAt]
  cases hb : m[p]? with
  | none => simp
  | some b =>
    rw [hb] at h
    simpa using flag_toggle_keeps_compiled (b % 256) (Nat.mod_lt _ (by decide)) (by simpa using h)

/-- The decryptor's parameters are read from the first twelve bytes of the PROCEDURE line. -/
theorem decrypt_procedure_congr (m m' : List Nat) (src : Nat)
    (h : ∀ i, i < src + 12 → i ≠ src + 10 → peek m' i = peek m i)
    (hflag : peek m' (src + 10) &&& 0x10 = 0) :
    AMOS_decrypt_procedure m' src =
      if (decrypt_loop (src + (amos_leek m (src + 4) + 8 + 6) % 2 ^ 32 + 1) m'
          (src + peek m src * 2) (src + peek m src * 2)
          (src + (amos_leek m (src + 4) + 8 + 6) % 2 ^ 32)
          (((amos_leek m (src + 4) <<< 8) % 2 ^ 32) ||| peek m (src + 11)) 1
          (amos_deek m (src + 8))).2
      then xorAt (decrypt_loop (src + (amos_leek m (src + 4) + 8 + 6) % 2 ^ 32 + 1) m'
          (src + peek m src * 2) (src + peek m src * 2)
          (src + (amos_leek m (src + 4) + 8 + 6) % 2 ^ 32)
          (((amos_leek m (src + 4) <<< 8) % 2 ^ 32) ||| peek m (src + 11)) 1
          (amos_deek m (src + 8))).1 (src + 10) 0x20
      else (decrypt_loop (src + (amos_leek m (src + 4) + 8 + 6) % 2 ^ 32 + 1) m'
          (src + peek m src * 2) (src + peek m src * 2)
          (src + (amos_leek m (src + 4) + 8 + 6) % 2 ^ 32)
          (((amos_leek m (src + 4) <<< 8) % 2 ^ 32) ||| peek m (src + 11)) 1
          (amos_deek m (src + 8))).1 := by
  have e1 : amos_leek m' (src + 4) = amos_leek m (src + 4) := by
    simp only [amos_leek]
    rw [h _ (by omega) (by omega), h _ (by omega) (by omega), h _ (by omega) (by omega),
      h _ (by omega) (by omega)]
  have e2 : amos_deek m' (src + 8) = amos_deek m (src + 8) := by
    simp only [amos_deek]
    rw [h _ (by omega) (by omega), h _ (by omega) (by omega)]
  unfold AMOS_decrypt_procedure
  simp only [hflag, ne_eq, not_true_eq_false, if_false, e1, e2,
    h (src + 11) (by omega) (by omega), h src (by omega) (by omega)]

/-! ## The fuel of the decryptor's loops is never exhausted -/

/-- The line loop ends because `line` has reached `next`, not because its fuel is spent. -/
theorem decrypt_line_exit (n l key key2 key3 : Nat) (m : List Nat) :
    (decrypt_line n m (l + 4) (l + n * 2) key key2 key3).2.1 = max (l + 4) (l + n * 2) := by
  have key_fact : ∀ (f : Nat) (m : List Nat) (a k key key2 : Nat), k ≤ f →
      (decrypt_line f m a (a + 2 * k) key key2 key3).2.1 = a + 2 * k := by
    intro f
    induction f with
    | zero =>
      intro m a k key key2 hk
      have : k = 0 := by omega
      subst this; rfl
    | succ f ih =>
      intro m a k key key2 hk
      cases k with
      | zero => rw [decrypt_line_of_le _ _ _ _ _ _ _ (by omega)]; rfl
      | succ k =>
        have hlt : a < a + 2 * (k + 1) := by omega
        have e : a + 2 * (k + 1) = (a + 2) + 2 * k := by omega
        simp only [decrypt_line, hlt, if_true]
        rw [e]
        exact ih _ _ _ _ _ (by omega)
  by_cases hn : n ≤ 2
  · rw [decrypt_line_of_le _ _ _ _ _ _ _ (by omega)]
    show l + 4 = max (l + 4) (l + n * 2)
    omega
  · obtain ⟨k, rfl⟩ : ∃ k, n = k + 2 := ⟨n - 2, by omega⟩
    have e : l + (k + 2) * 2 = (l + 4) + 2 * k := by omega
    rw [e, key_fact _ _ _ _ _ _ (by omega)]
    omega

/-- The procedure loop never runs out of fuel: once the fuel exceeds `endline - line`,
more fuel does not change the result. -/
theorem decrypt_loop_fuel (fuel : Nat) : ∀ (m : List Nat) (line next endline key key2 key3 : Nat),
    endline - line < fuel → line ≤ next + 2 →
    decrypt_loop (fuel + 1) m line next endline key key2 key3 =
      decrypt_loop fuel m line next endline key key2 key3 := by
  induction fuel with
  | zero => intro m line next endline key key2 key3 h; omega
  | succ f ih =>
    intro m line next endline key key2 key3 h hl
    rw [decrypt_loop_succ (f + 1) m line next endline key key2 key3,
      decrypt_loop_succ f m line next endline key key2 key3]
    by_cases h1 : line < endline
    · by_cases h2 : peek m next = 0
      · simp [h1, h2]
      · simp only [h1, h2, if_true, if_false]
        have := decrypt_line_exit (peek m next) next key key2 key3 m
        exact ih _ _ _ _ _ _ _ (by omega) (by omega)
    · simp [h1]

/-! ## C1: decrypting twice -/

/-- C1: for a procedure whose compiled flag (bit 0x10 of the flags byte at offset 10) is
unset and whose PROCEDURE line has a length byte of at least 6, applying
`AMOS_decrypt_procedure` twice gives back the original memory, flags byte included. -/
theorem decrypt_procedure_twice (m : List Nat) (src : Nat) (hm : Bytes m)
    (hflag : peek m (src + 10) &&& 0x10 = 0) (hlen : 6 ≤ peek m src) :
    AMOS_decrypt_procedure (AMOS_decrypt_procedure m src) src = m := by
  have h0 := decrypt_procedure_congr m m src (fun _ _ _ => rfl) hflag
  generalize hfuel : src + (amos_leek m (src + 4) + 8 + 6) % 2 ^ 32 + 1 = fuel at h0
  generalize hend : src + (amos_leek m (src + 4) + 8 + 6) % 2 ^ 32 = endline at h0
  generalize hkey : ((amos_leek m (src + 4) <<< 8) % 2 ^ 32) ||| peek m (src + 11) = key at h0
  generalize hk3 : amos_deek m (src + 8) = key3 at h0
  generalize hline : src + peek m src * 2 = line at h0
  have hl : src + 12 ≤ line := by omega
  have htw := decrypt_loop_twice fuel m line line endline key 1 key3 hm
  have hfr : ∀ i, i < src + 12 →
      (decrypt_loop fuel m line line endline key 1 key3).1[i]? = m[i]? :=
    fun i hi => decrypt_loop_frame _ _ _ _ _ _ _ _ i (by omega)
  cases hr : (decrypt_loop fuel m line line endline key 1 key3).2 with
  | false =>
    rw [hr] at h0 htw
    simp only [Bool.false_eq_true, if_false] at h0
    rw [h0, decrypt_procedure_congr m _ src
      (fun i hi _ => peek_congr (hfr i hi))
      (by rw [peek_congr (hfr _ (by omega))]; exact hflag),
      hfuel, hend, hkey, hk3, hline, htw]
    simp
  | true =>
    rw [hr] at h0 htw
    simp only [if_true] at h0
    have hG1 : ∀ (M : List Nat) (i : Nat), src + 11 ≤ i → (xorAt M (src + 10) 0x20)[i]? = M[i]? :=
      fun M i hi => getElem?_xorAt_ne _ _ (by omega)
    have hG2 : ∀ (M M' : List Nat) (i : Nat), M[i]? = M'[i]? →
        (xorAt M (src + 10) 0x20)[i]? = (xorAt M' (src + 10) 0x20)[i]? :=
      fun M M' i h => getElem?_xorAt_congr _ _ h
    rw [h0, decrypt_procedure_congr m _ src
      (fun i hi hne => by
        rw [peek_xorAt_ne _ _ hne]; exact peek_congr (hfr i hi))
      (peek_xorAt_flag _ _ (by rw [peek_congr (hfr _ (by omega))]; exact hflag)),
      hfuel, hend, hkey, hk3, hline,
      decrypt_loop_comm _ _ hG1 hG2 fuel _ line line endline key 1 key3 (by omega), htw]
    simp only [if_true]
    exact List.ext_getElem? fun i =>
      xorAt_twice_at (fun b hb => hm.getElem? hb) _ _ (by decide)

/-- Witness for C1: an encrypted two-line procedure body. -/
theorem decrypt_procedure_twice_witness :
    AMOS_decrypt_procedure (AMOS_decrypt_procedure
      [6, 0, 3, 0x76, 0, 0, 0, 10, 1, 2, 0x20, 7, 3, 1, 0, 0, 9, 9, 2, 0, 1, 2,
        3, 1, 0, 0, 0, 0, 9, 9, 9] 0) 0 =
      [6, 0, 3, 0x76, 0, 0, 0, 10, 1, 2, 0x20, 7, 3, 1, 0, 0, 9, 9, 2, 0, 1, 2,
        3, 1, 0, 0, 0, 0, 9, 9, 9] :=
  decrypt_procedure_twice _ 0 (by unfold Bytes; decide) (by decide) (by decide)

/-! ## C10: the table after an insertion -/

theorem lookup_link_same (tsize slot offset : Nat) (text : List Nat) (table : Table) :
    lookup_token tsize slot offset (link_token tsize ⟨(slot <<< 16) ||| offset, text⟩ table) =
      some text := by
  simp [lookup_token, link_token]

theorem lookup_link_other (tsize slot offset key : Nat) (text : List Nat) (table : Table)
    (h : (slot <<< 16) ||| offset ≠ key) :
    lookup_token tsize slot offset (link_token tsize ⟨key, text⟩ table) =
      lookup_token tsize slot offset table := by
  unfold lookup_token link_token
  by_cases hb : ((slot <<< 16) ||| offset) % tsize = key % tsize
  · have hk : (key == (slot <<< 16) ||| offset) = false := by
      simpa using fun e => h e.symm
    simp [hb, List.find?_cons, hk]
  · simp [hb]

theorem key_eq_mul_add (slot offset : Nat) (h : offset < 65536) :
    (slot <<< 16) ||| offset = slot * 65536 + offset := by
  have e := Nat.mul_add_lt_is_or (i := 16) (b := offset) (by simpa using h) slot
  rw [Nat.shiftLeft_eq, Nat.mul_comm slot (2 ^ 16), ← e]

/-- C10: after `add_token` has inserted an entry under the key `(slot << 16) | offset`
(slot 0..255, 16-bit offset), `lookup_token(slot, offset)` returns the text of that entry,
whatever older entries the table holds, and `lookup_token` returns for every other key what
it returned before. -/
theorem lookup_after_add (tsize : Nat) (m : List Nat) (slot offset name type : Nat)
    (table : Table) (last_name : Option Nat) (r : AddResult) (nm : Nat) (ln : Option Nat)
    (hslot : slot < 256) (hoff : offset < 65536)
    (hres : resolve_name m name last_name = some (nm, ln))
    (hadd : add_token tsize m ((slot <<< 16) ||| offset) name type table last_name = some r) :
    (slot <<< 16) ||| offset < 2 ^ 24 ∧
    (∃ text, token_text m nm type = some text ∧
      lookup_token tsize slot offset r.table = some text) ∧
    ∀ slot' offset', offset' < 65536 → (slot', offset') ≠ (slot, offset) →
      lookup_token tsize slot' offset' r.table = lookup_token tsize slot' offset' table := by
  unfold add_token at hadd
  rw [hres] at hadd
  cases ht : token_text m nm type with
  | none => simp [ht] at hadd
  | some text =>
    simp only [ht, Option.some.injEq] at hadd
    subst hadd
    refine ⟨by rw [key_eq_mul_add _ _ hoff]; omega, ⟨text, rfl, lookup_link_same _ _ _ _ _⟩,
      fun slot' offset' ho h => lookup_link_other _ _ _ _ _ _ ?_⟩
    rw [key_eq_mul_add _ _ hoff, key_eq_mul_add _ _ ho]
    intro e
    apply h
    have h1 : slot' = slot := by omega
    have h2 : offset' = offset := by omega
    rw [h1, h2]

/-- Witness for C10: "!Open" of type `O` is added under (3, 0) to a table that already
holds an entry with that key. -/
theorem lookup_after_add_witness :
    (3 <<< 16) ||| 0 < 2 ^ 24 ∧
    (∃ text, token_text [33, 79, 112, 101, 238] 1 79 = some text ∧
      lookup_token 512 3 0 (link_token 512 ⟨(3 <<< 16) ||| 0, [79, 80, 101, 110]⟩
        (link_token 512 ⟨(3 <<< 16) ||| 0, [88]⟩ emptyTable)) = some text) ∧
    ∀ slot' offset', offset' < 65536 → (slot', offset') ≠ (3, 0) →
      lookup_token 512 slot' offset' (link_token 512 ⟨(3 <<< 16) ||| 0, [79, 80, 101, 110]⟩
        (link_token 512 ⟨(3 <<< 16) ||| 0, [88]⟩ emptyTable)) =
      lookup_token 512 slot' offset' (link_token 512 ⟨(3 <<< 16) ||| 0, [88]⟩ emptyTable) :=
  lookup_after_add 512 [33, 79, 112, 101, 238] 3 0 0 79
    (link_token 512 ⟨(3 <<< 16) ||| 0, [88]⟩ emptyTable) none
    ⟨0, link_token 512 ⟨(3 <<< 16) ||| 0, [79, 80, 101, 110]⟩
      (link_token 512 ⟨(3 <<< 16) ||| 0, [88]⟩ emptyTable), some 1⟩ 1 (some 1)
    (by decide) (by decide) (by decide) rfl

/-! ## C2: the entry "!Open" of type `O` -/

theorem line_loop_succ (tsize : Nat) (fmtG : Nat → List Nat) (table : Table) (len fuel : Nat)
    (s : PState) :
    line_loop tsize fmtG table len (fuel + 1) s =
      if s.inpos < len then
        if (line_pass tsize fmtG table len s).2 then
          line_loop tsize fmtG table len fuel (line_pass tsize fmtG table len s).1
        else some (line_pass tsize fmtG table len s).1
      else some s := rfl

theorem token_text_open : token_text [33, 79, 112, 101, 238] 1 79 = some [79, 80, 101, 110] := by
  decide

theorem add_token_open (tsize : Nat) :
    add_token tsize [33, 79, 112, 101, 238] ((3 <<< 16) ||| 0) 0 79 emptyTable none =
      some ⟨0, link_token tsize ⟨(3 <<< 16) ||| 0, [79, 80, 101, 110]⟩ emptyTable, some 1⟩ := rfl

theorem open_line_pass (tsize : Nat) (fmtG : Nat → List Nat) (table : Table)
    (h : lookup_token tsize 3 0 table = some [79, 80, 101, 110]) :
    line_pass tsize fmtG table 8 (initial [4, 1, 0, 0x4E, 3, 0, 0, 0]) =
      (⟨[4, 1, 0, 0x4E, 3, 0, 0, 0], 8, 8, 0, 0, str "OPen\n"⟩, true) := by
  have e : emit_token tsize table ⟨[4, 1, 0, 0x4E, 3, 0, 0, 0], 8, 0, [], true, 0⟩ 3 0 =
      ⟨[4, 1, 0, 0x4E, 3, 0, 0, 0], 8, 0, str "OPen", false, 0⟩ := by
    unfold emit_token
    rw [h]
    rfl
  have t : token_loop tsize fmtG table 8 8 ⟨[4, 1, 0, 0x4E, 3, 0, 0, 0], 2, 0, [], true, 0⟩ =
      ⟨[4, 1, 0, 0x4E, 3, 0, 0, 0], 8, 0, str "OPen", false, 0⟩ := by
    have t1 : token_loop tsize fmtG table 8 8 ⟨[4, 1, 0, 0x4E, 3, 0, 0, 0], 2, 0, [], true, 0⟩ =
        token_loop tsize fmtG table 8 7
          (emit_token tsize table ⟨[4, 1, 0, 0x4E, 3, 0, 0, 0], 8, 0, [], true, 0⟩ 3 0) := rfl
    rw [t1, e]
    rfl
  have p1 : line_pass tsize fmtG table 8 (initial [4, 1, 0, 0x4E, 3, 0, 0, 0]) =
      (⟨(token_loop tsize fmtG table 8 8 ⟨[4, 1, 0, 0x4E, 3, 0, 0, 0], 2, 0, [], true, 0⟩).mem,
        8, 8,
        (token_loop tsize fmtG table 8 8
          ⟨[4, 1, 0, 0x4E, 3, 0, 0, 0], 2, 0, [], true, 0⟩).compiled_len,
        (token_loop tsize fmtG table 8 8 ⟨[4, 1, 0, 0x4E, 3, 0, 0, 0], 2, 0, [], true, 0⟩).err,
        (token_loop tsize fmtG table 8 8 ⟨[4, 1, 0, 0x4E, 3, 0, 0, 0], 2, 0, [], true, 0⟩).out
          ++ [10]⟩, true) := rfl
  rw [p1, t]
  rfl

theorem open_line_decode (tsize : Nat) (fmtG : Nat → List Nat) (fuel : Nat) (table : Table)
    (h : lookup_token tsize 3 0 table = some [79, 80, 101, 110]) :
    AMOS_print_source tsize fmtG (fuel + 2) [4, 1, 0, 0x4E, 3, 0, 0, 0] 8 table =
      some ⟨[4, 1, 0, 0x4E, 3, 0, 0, 0], 8, 8, 0, 0, str "OPen\n"⟩ := by
  unfold AMOS_print_source
  rw [line_loop_succ, open_line_pass tsize fmtG table h]
  rfl

/-- C2 on its own input: with the table built by one `add_token` of the raw name "!Open"
(type `O`) under the key (3, 0), the line holding the extension token 0x004E with slot 3
and offset 0 is written as "OPen" and not as "Open": the upper-case `O` does not clear
`upcase`, so `p` is raised too.  There is no leading space, a newline follows, and the mask
is 0.  For every type `O` name that starts with `!`, `add_token` stores the copied name
without the `!` and with no space added. -/
theorem open_entry_decodes (tsize : Nat) (fmtG : Nat → List Nat) (fuel : Nat) :
    (∃ r, add_token tsize [33, 79, 112, 101, 238] ((3 <<< 16) ||| 0) 0 79 emptyTable none =
        some r ∧ r.ret = 0 ∧
      AMOS_print_source tsize fmtG (fuel + 2) [4, 1, 0, 0x4E, 3, 0, 0, 0] 8 r.table =
        some ⟨[4, 1, 0, 0x4E, 3, 0, 0, 0], 8, 8, 0, 0, str "OPen\n"⟩) ∧
    ∀ (m : List Nat) (key name : Nat) (table : Table) (last_name : Option Nat) (r : AddResult),
      peek m name = 33 → add_token tsize m key name 79 table last_name = some r →
      ∃ body, copy_name (m.length + 1 - (name + 1)) m (name + 1) true = some body ∧
        r.table = link_token tsize ⟨key, body⟩ table ∧ r.last_name = some (name + 1) := by
  constructor
  · exact ⟨_, add_token_open tsize, rfl, open_line_decode tsize fmtG fuel _ (lookup_link_same _ _ _ _ _)⟩
  · intro m key name table last_name r hbang hadd
    have hres : resolve_name m name last_name = some (name + 1, some (name + 1)) := by
      simp [resolve_name, hbang]
    unfold add_token at hadd
    rw [hres] at hadd
    simp only [token_text] at hadd
    generalize m.length + 1 - (name + 1) = F at hadd ⊢
    cases hn : name_len F m (name + 1) with
    | none => simp [hn] at hadd
    | some n =>
      cases hc : copy_name F m (name + 1) true with
      | none => simp [hn, hc] at hadd
      | some body =>
        simp [hn, hc] at hadd
        subst hadd
        exact ⟨body, rfl, rfl, rfl⟩

/-- C2 fails as stated: whatever the table size and the fuel, the line is not written as
"Open" followed by a newline. -/
theorem open_entry_not_Open :
    ¬ ∃ (tsize : Nat) (fmtG : Nat → List Nat) (fuel : Nat) (r : AddResult) (s : PState),
      add_token tsize [33, 79, 112, 101, 238] ((3 <<< 16) ||| 0) 0 79 emptyTable none = some r ∧
      AMOS_print_source tsize fmtG fuel [4, 1, 0, 0x4E, 3, 0, 0, 0] 8 r.table = some s ∧
      s.out = str "Open\n" := by
  rintro ⟨tsize, fmtG, fuel, r, s, hadd, hrun, hout⟩
  rw [add_token_open] at hadd
  have hr : r.table = link_token tsize ⟨(3 <<< 16) ||| 0, [79, 80, 101, 110]⟩ emptyTable := by
    cases hadd; rfl
  rw [hr] at hrun
  have hl := lookup_link_same tsize 3 0 [79, 80, 101, 110] emptyTable
  match fuel, hrun with
  | 0, hrun => cases hrun
  | 1, hrun =>
    unfold AMOS_print_source at hrun
    rw [line_loop_succ, open_line_pass tsize fmtG _ hl] at hrun
    cases hrun
  | fuel + 2, hrun =>
    rw [open_line_decode tsize fmtG fuel _ hl] at hrun
    cases hrun
    revert hout
    decide

/-! ## The token loop, step by step -/

theorem token_loop_step (tsize : Nat) (fmtG : Nat → List Nat) (table : Table)
    (endline fuel : Nat) (s : TState) (h1 : s.line < endline)
    (h2 : amos_deek s.mem s.line ≠ 0) :
    token_loop tsize fmtG table endline (fuel + 1) s =
      token_loop tsize fmtG table endline fuel
        (token_step tsize fmtG table s (amos_deek s.mem s.line)) := by
  rw [token_loop, if_pos ⟨h1, h2⟩]

theorem token_loop_end (tsize : Nat) (fmtG : Nat → List Nat) (table : Table)
    (endline fuel : Nat) (s : TState) (h : endline ≤ s.line) :
    token_loop tsize fmtG table endline fuel s = s := by
  cases fuel with
  | zero => rfl
  | succ f => rw [token_loop, if_neg (fun hc => absurd hc.1 (Nat.not_lt.mpr h))]

theorem token_loop_zero_token (tsize : Nat) (fmtG : Nat → List Nat) (table : Table)
    (endline fuel : Nat) (s : TState) (h : amos_deek s.mem s.line = 0) :
    token_loop tsize fmtG table endline fuel s = s := by
  cases fuel with
  | zero => rfl
  | succ f => rw [token_loop, if_neg (fun hc => hc.2 h)]

/-! ## C3: the decimal constant -/

theorem leek_of_bytes (a b c d : Nat) (hb : b < 256) (hc : c < 256) (hd : d < 256) :
    (a <<< 24) ||| (b <<< 16) ||| (c <<< 8) ||| d = a * 2 ^ 24 + b * 2 ^ 16 + c * 2 ^ 8 + d := by
  have e1 := Nat.mul_add_lt_is_or (i := 8) (b := d) (by simpa using hd) c
  have e2 := Nat.mul_add_lt_is_or (i := 16) (b := 2 ^ 8 * c + d) (by omega) b
  have e3 := Nat.mul_add_lt_is_or (i := 24) (b := 2 ^ 16 * b + (2 ^ 8 * c + d)) (by omega) a
  rw [Nat.or_assoc, Nat.or_assoc, Nat.shiftLeft_eq, Nat.shiftLeft_eq, Nat.shiftLeft_eq,
    Nat.mul_comm c, ← e1, Nat.mul_comm b, ← e2, Nat.mul_comm a, ← e3]
  omega

theorem leek_decimal_line (ind v : Nat) (hv : v < 2 ^ 32) :
    amos_leek [4, ind, 0, 0x3E, v / 2 ^ 24 % 256, v / 2 ^ 16 % 256, v / 2 ^ 8 % 256, v % 256] 4
      = v := by
  have e : amos_leek
      [4, ind, 0, 0x3E, v / 2 ^ 24 % 256, v / 2 ^ 16 % 256, v / 2 ^ 8 % 256, v % 256] 4 =
      ((v / 2 ^ 24 % 256 % 256) <<< 24) ||| ((v / 2 ^ 16 % 256 % 256) <<< 16) |||
        ((v / 2 ^ 8 % 256 % 256) <<< 8) ||| (v % 256 % 256) := rfl
  rw [e, leek_of_bytes _ _ _ _ (Nat.mod_lt _ (by decide)) (Nat.mod_lt _ (by decide))
    (Nat.mod_lt _ (by decide))]
  omega

theorem decimal_line_pass (tsize : Nat) (fmtG : Nat → List Nat) (table : Table)
    (ind b3 b2 b1 b0 : Nat) (hind : ind ≤ 1) :
    line_pass tsize fmtG table 8 (initial [4, ind, 0, 0x3E, b3, b2, b1, b0]) =
      (⟨[4, ind, 0, 0x3E, b3, b2, b1, b0], 8, 8, 0, 0,
        fmt_d (toInt32 (amos_leek [4, ind, 0, 0x3E, b3, b2, b1, b0] 4)) ++ [10]⟩, true) := by
  have d2 : amos_deek [4, ind, 0, 0x3E, b3, b2, b1, b0] 2 = 0x3E := by
    simp [amos_deek, peek]
  have t2 : token_step tsize fmtG table ⟨[4, ind, 0, 0x3E, b3, b2, b1, b0], 2, 0, [], true, 0⟩
      0x3E = ⟨[4, ind, 0, 0x3E, b3, b2, b1, b0], 8, 0,
        [] ++ fmt_d (toInt32 (amos_leek [4, ind, 0, 0x3E, b3, b2, b1, b0] 4)), true, 0⟩ := by rfl
  have t : token_loop tsize fmtG table 8 8 ⟨[4, ind, 0, 0x3E, b3, b2, b1, b0], 2, 0, [], true, 0⟩
      = ⟨[4, ind, 0, 0x3E, b3, b2, b1, b0], 8, 0,
        fmt_d (toInt32 (amos_leek [4, ind, 0, 0x3E, b3, b2, b1, b0] 4)), true, 0⟩ := by
    rw [token_loop_step _ _ _ _ _ _ (by show 2 < 8; omega) (by rw [d2]; decide), d2, t2,
      token_loop_end tsize fmtG table 8 7 _ (Nat.le_refl 8), List.nil_append]
  have h : ind = 0 ∨ ind = 1 := by omega
  have p1 : line_pass tsize fmtG table 8 (initial [4, ind, 0, 0x3E, b3, b2, b1, b0]) =
      (⟨(token_loop tsize fmtG table 8 8
          ⟨[4, ind, 0, 0x3E, b3, b2, b1, b0], 2, 0, [], true, 0⟩).mem, 8, 8,
        (token_loop tsize fmtG table 8 8
          ⟨[4, ind, 0, 0x3E, b3, b2, b1, b0], 2, 0, [], true, 0⟩).compiled_len,
        (token_loop tsize fmtG table 8 8
          ⟨[4, ind, 0, 0x3E, b3, b2, b1, b0], 2, 0, [], true, 0⟩).err,
        (token_loop tsize fmtG table 8 8
          ⟨[4, ind, 0, 0x3E, b3, b2, b1, b0], 2, 0, [], true, 0⟩).out ++ [10]⟩, true) := by
    rcases h with rfl | rfl <;>
      simp [line_pass, skip_compiled, pass_begin, initial, read_line, next_inpos, line_linelen,
        line_begin, peek]
  rw [p1, t]

theorem digitChar_toNat : ∀ d < 10, (Nat.digitChar d).toNat = 48 + d := by
  decide

theorem decimal_value_append (ds : List Nat) (d : Nat) :
    decimal_value (ds ++ [d]) = 10 * decimal_value ds + (d - 48) := by
  unfold decimal_value
  rw [List.foldl_append]
  rfl

theorem toDigitsCore_spec (fuel : Nat) : ∀ (n : Nat) (acc : List Char), n < fuel →
    ∃ ds, (Nat.toDigitsCore 10 fuel n acc).map Char.toNat = ds ++ acc.map Char.toNat ∧
      (∀ d ∈ ds, 48 ≤ d ∧ d ≤ 57) ∧ decimal_value ds = n ∧
      (n = 0 → ds = [48]) ∧ (n ≠ 0 → ds.head? ≠ some 48) ∧ ds ≠ [] := by
  induction fuel with
  | zero => intro n acc h; omega
  | succ f ih =>
    intro n acc hn
    have hd := digitChar_toNat (n % 10) (Nat.mod_lt _ (by decide))
    rw [Nat.toDigitsCore]
    by_cases h0 : n / 10 = 0
    · simp only [h0, if_true]
      refine ⟨[48 + n % 10], by simp [hd], ?_, ?_, ?_, ?_, by simp⟩
      · intro d hd'
        rw [List.mem_singleton] at hd'
        omega
      · unfold decimal_value
        simp only [List.foldl_cons, List.foldl_nil]
        omega
      · intro hn0
        subst hn0
        rfl
      · intro hn0
        have : n % 10 ≠ 0 := by omega
        simp only [List.head?_cons, ne_eq, Option.some.injEq]
        omega
    · simp only [h0, if_false]
      obtain ⟨ds, e1, e2, e3, -, e5, e6⟩ := ih (n / 10) (Nat.digitChar (n % 10) :: acc)
        (by omega)
      refine ⟨ds ++ [48 + n % 10], ?_, ?_, ?_, ?_, ?_, by simp⟩
      · rw [e1]
        simp [hd]
      · intro d hd'
        rw [List.mem_append, List.mem_singleton] at hd'
        rcases hd' with hd' | hd'
        · exact e2 d hd'
        · omega
      · rw [decimal_value_append, e3]
        omega
      · intro hn0
        omega
      · intro _
        have := e5 h0
        cases ds with
        | nil => exact absurd rfl e6
        | cons a t => exact this

/-- The text of `decDigits` reads back as the number and has no leading zero. -/
theorem decDigits_spec (n : Nat) :
    (∀ d ∈ decDigits n, 48 ≤ d ∧ d ≤ 57) ∧ decimal_value (decDigits n) = n ∧
      (n = 0 → decDigits n = [48]) ∧ (n ≠ 0 → (decDigits n).head? ≠ some 48) := by
  obtain ⟨ds, e1, e2, e3, e4, e5, -⟩ := toDigitsCore_spec (n + 1) n [] (by omega)
  have e : decDigits n = ds := by
    unfold decDigits Nat.toDigits
    rw [e1]
    simp
  rw [e]
  exact ⟨e2, e3, e4, e5⟩

theorem fmt_d_toInt32 (v : Nat) (hv : v < 2 ^ 32) :
    fmt_d (toInt32 v) =
      if v < 2 ^ 31 then decDigits v else 45 :: decDigits (2 ^ 32 - v) := by
  unfold fmt_d toInt32
  rw [Nat.mod_eq_of_lt hv]
  by_cases h : v < 2 ^ 31
  · rw [if_pos h, if_pos h, if_neg (by omega)]
    rfl
  · rw [if_neg h, if_neg h, if_pos (by omega)]
    have : ((v : Int) - 2 ^ 32).natAbs = 2 ^ 32 - v := by omega
    simp only [Nat.cast_ofNat] at this ⊢
    rw [this]

/-- C3: for every 32-bit `v`, the buffer made of one line with indent byte 0 or 1 that holds
the token 0x003E and the four big-endian bytes of `v` is written, with any table, as the
signed decimal text of `v` followed by a newline, and the mask returned is 0.  The signed
decimal text is a string of decimal digits without a leading zero (just "0" for zero) that
reads back as `v` when `v < 2 ^ 31`, and otherwise '-' followed by such a string that reads
back as `2 ^ 32 - v`. -/
theorem decimal_line_decodes (tsize : Nat) (fmtG : Nat → List Nat) (table : Table)
    (fuel ind v : Nat) (hv : v < 2 ^ 32) (hind : ind ≤ 1) :
    ∃ s ds, AMOS_print_source tsize fmtG (fuel + 2)
        [4, ind, 0, 0x3E, v / 2 ^ 24 % 256, v / 2 ^ 16 % 256, v / 2 ^ 8 % 256, v % 256] 8 table =
        some s ∧ s.err = 0 ∧
      s.out = (if v < 2 ^ 31 then ds else 45 :: ds) ++ [10] ∧
      (∀ d ∈ ds, 48 ≤ d ∧ d ≤ 57) ∧
      decimal_value ds = (if v < 2 ^ 31 then v else 2 ^ 32 - v) ∧
      (ds.head? = some 48 → ds = [48]) ∧
      s.out = fmt_d (toInt32 v) ++ [10] := by
  have hrun : AMOS_print_source tsize fmtG (fuel + 2)
      [4, ind, 0, 0x3E, v / 2 ^ 24 % 256, v / 2 ^ 16 % 256, v / 2 ^ 8 % 256, v % 256] 8 table =
      some ⟨[4, ind, 0, 0x3E, v / 2 ^ 24 % 256, v / 2 ^ 16 % 256, v / 2 ^ 8 % 256, v % 256],
        8, 8, 0, 0, fmt_d (toInt32 v) ++ [10]⟩ := by
    unfold AMOS_print_source
    rw [line_loop_succ, decimal_line_pass tsize fmtG table ind _ _ _ _ hind,
      leek_decimal_line ind v hv]
    rfl
  have hfmt := fmt_d_toInt32 v hv
  by_cases h : v < 2 ^ 31
  · obtain ⟨e1, e2, e3, e4⟩ := decDigits_spec v
    refine ⟨_, decDigits v, hrun, rfl, ?_, e1, ?_, ?_, rfl⟩
    · show fmt_d (toInt32 v) ++ [10] = _
      rw [hfmt, if_pos h, if_pos h]
    · rw [e2, if_pos h]
    · intro h0
      by_cases hz : v = 0
      · exact e3 hz
      · exact absurd h0 (e4 hz)
  · obtain ⟨e1, e2, e3, e4⟩ := decDigits_spec (2 ^ 32 - v)
    refine ⟨_, decDigits (2 ^ 32 - v), hrun, rfl, ?_, e1, ?_, ?_, rfl⟩
    · show fmt_d (toInt32 v) ++ [10] = _
      rw [hfmt, if_neg h, if_neg h]
    · rw [e2, if_neg h]
    · intro h0
      exact absurd h0 (e4 (by omega))

/-- Witness for C3: the value 1234 is written as "1234" and a newline, and the value
`2 ^ 32 - 1` as "-1" and a newline. -/
theorem decimal_line_decodes_witness :
    (1234 < 2 ^ 32 ∧ 1 ≤ 1) ∧
    (∃ s, AMOS_print_source 512 (fun _ => []) 2 [4, 1, 0, 0x3E, 0, 0, 4, 0xD2] 8 emptyTable =
      some s ∧ s.out = str "1234\n" ∧ s.err = 0) ∧
    (∃ s, AMOS_print_source 512 (fun _ => []) 2 [4, 1, 0, 0x3E, 255, 255, 255, 255] 8
      emptyTable = some s ∧ s.out = str "-1\n" ∧ s.err = 0) ∧
    ∃ s ds, AMOS_print_source 512 (fun _ => []) (0 + 2)
        [4, 1, 0, 0x3E, 1234 / 2 ^ 24 % 256, 1234 / 2 ^ 16 % 256, 1234 / 2 ^ 8 % 256, 1234 % 256]
        8 emptyTable = some s ∧ s.err = 0 ∧
      s.out = (if 1234 < 2 ^ 31 then ds else 45 :: ds) ++ [10] ∧
      (∀ d ∈ ds, 48 ≤ d ∧ d ≤ 57) ∧
      decimal_value ds = (if 1234 < 2 ^ 31 then 1234 else 2 ^ 32 - 1234) ∧
      (ds.head? = some 48 → ds = [48]) ∧
      s.out = fmt_d (toInt32 1234) ++ [10] :=
  ⟨⟨by decide, by decide⟩, ⟨_, rfl, by decide, rfl⟩, ⟨_, rfl, by decide, rfl⟩,
    decimal_line_decodes 512 (fun _ => []) emptyTable 0 1 1234 (by decide) (by decide)⟩
/-! ## Properties of one token step -/

theorem special_token_line (s : TState) (token : Nat) :
    s.line ≤ (special_token s token).line := by
  unfold special_token
  split_ifs <;> simp only [] <;> (try split_ifs) <;> omega

theorem emit_token_line (tsize : Nat) (table : Table) (s : TState) (slot token : Nat) :
    (emit_token tsize table s slot token).line = s.line := by
  unfold emit_token
  split <;> rfl

theorem instr_token_line (tsize : Nat) (table : Table) (s : TState) (token : Nat) :
    s.line ≤ (instr_token tsize table s token).line := by
  unfold instr_token
  simp only []
  split_ifs
  all_goals first
    | exact Nat.le_trans (by rw [emit_token_line]; simp) (special_token_line _ _)
    | (rw [emit_token_line]; simp)
    | exact Nat.le_trans (by rw [emit_token_line]) (special_token_line _ _)
    | (rw [emit_token_line])

/-- Every pass of the token loop moves `line` on by at least the two bytes of the token. -/
theorem token_step_line (tsize : Nat) (fmtG : Nat → List Nat) (table : Table) (s : TState)
    (token : Nat) : s.line + 2 ≤ (token_step tsize fmtG table s token).line := by
  unfold token_step
  split_ifs
  · unfold name_token
    split_ifs <;> simp only [] <;> omega
  · unfold const_token
    split_ifs <;> simp only [] <;> (try split_ifs) <;> omega
  · exact instr_token_line tsize table { s with line := s.line + 2 } token

/-- The token loop never runs out of fuel: more fuel does not change its result. -/
theorem token_loop_fuel (tsize : Nat) (fmtG : Nat → List Nat) (table : Table) (endline : Nat)
    (fuel : Nat) : ∀ s : TState, endline ≤ s.line + 2 * fuel →
    token_loop tsize fmtG table endline (fuel + 1) s =
      token_loop tsize fmtG table endline fuel s := by
  induction fuel with
  | zero =>
    intro s h
    rw [token_loop_end _ _ _ _ _ _ (by omega), token_loop_end _ _ _ _ _ _ (by omega)]
  | succ f ih =>
    intro s h
    by_cases hc : s.line < endline ∧ amos_deek s.mem s.line ≠ 0
    · rw [token_loop_step _ _ _ _ _ _ hc.1 hc.2, token_loop_step _ _ _ _ _ _ hc.1 hc.2]
      apply ih
      have := token_step_line tsize fmtG table s (amos_deek s.mem s.line)
      omega
    · rw [token_loop, if_neg hc, token_loop, if_neg hc]
/-! ## The `%02X` and `%04X` conversions -/

theorem hexDigits_last (fuel n : Nat) (acc : List Nat) (h : n / 16 = 0) :
    hexDigits (fuel + 1) n acc = hexDigit (n % 16) :: acc := by
  simp [hexDigits, h]

theorem hexDigits_more (fuel n : Nat) (acc : List Nat) (h : n / 16 ≠ 0) :
    hexDigits (fuel + 1) n acc = hexDigits fuel (n / 16) (hexDigit (n % 16) :: acc) := by
  simp [hexDigits, h]

theorem hexDigit_zero : hexDigit 0 = 48 := rfl

theorem fmt_X_2 (n : Nat) (h : n < 256) : fmt_X 2 n = [hexDigit (n / 16), hexDigit (n % 16)] := by
  have e : n % 2 ^ 32 = n := Nat.mod_eq_of_lt (by omega)
  unfold fmt_X
  rw [e]
  by_cases h1 : n / 16 = 0
  · rw [hexDigits_last _ _ _ h1, h1, hexDigit_zero]
    rfl
  · have h2 : n / 16 / 16 = 0 := by omega
    have h3 : n / 16 % 16 = n / 16 := by omega
    rw [hexDigits_more _ _ _ h1, hexDigits_last _ _ _ h2, h3]
    rfl

theorem fmt_X_4 (n : Nat) (h : n < 65536) :
    fmt_X 4 n = [hexDigit (n / 4096), hexDigit (n / 256 % 16), hexDigit (n / 16 % 16),
      hexDigit (n % 16)] := by
  have e : n % 2 ^ 32 = n := Nat.mod_eq_of_lt (by omega)
  have ea : n / 256 = n / 16 / 16 := by omega
  have ec : n / 4096 = n / 16 / 16 / 16 := by omega
  unfold fmt_X
  rw [e, ea, ec]
  by_cases h1 : n / 16 = 0
  · rw [hexDigits_last _ _ _ h1, h1]
    rfl
  · by_cases h2 : n / 16 / 16 = 0
    · rw [hexDigits_more _ _ _ h1, hexDigits_last _ _ _ h2, h2]
      rfl
    · by_cases h3 : n / 16 / 16 / 16 = 0
      · rw [hexDigits_more _ _ _ h1, hexDigits_more _ _ _ h2, hexDigits_last _ _ _ h3, h3]
        rfl
      · have h4 : n / 16 / 16 / 16 / 16 = 0 := by omega
        have h5 : n / 16 / 16 / 16 % 16 = n / 16 / 16 / 16 := by omega
        rw [hexDigits_more _ _ _ h1, hexDigits_more _ _ _ h2, hexDigits_more _ _ _ h3,
          hexDigits_last _ _ _ h4, h5]
        rfl
/-! ## The error mask only gains bits -/

theorem BitsLe.refl (a : Nat) : BitsLe a a := fun _ h => h

theorem BitsLe.trans {a b c : Nat} (h1 : BitsLe a b) (h2 : BitsLe b c) : BitsLe a c :=
  fun i h => h2 i (h1 i h)

theorem bitsLe_or (a b : Nat) : BitsLe a (a ||| b) := by
  intro i h
  simp [Nat.testBit_or, h]

theorem special_token_err (s : TState) (token : Nat) : (special_token s token).err = s.err := by
  unfold special_token
  split_ifs <;> rfl

theorem emit_token_err (tsize : Nat) (table : Table) (s : TState) (slot token : Nat) :
    BitsLe s.err (emit_token tsize table s slot token).err := by
  unfold emit_token
  split
  · exact BitsLe.refl _
  · exact bitsLe_or _ _

theorem instr_token_err (tsize : Nat) (table : Table) (s : TState) (token : Nat) :
    BitsLe s.err (instr_token tsize table s token).err := by
  have key : ∀ (s' : TState), s'.err = s.err → ∀ slot tok, BitsLe s.err
      (if slot = 0 then special_token (emit_token tsize table s' slot tok) tok
        else emit_token tsize table s' slot tok).err := by
    intro s' hs slot tok
    rw [← hs]
    split_ifs
    · rw [special_token_err]; exact emit_token_err _ _ _ _ _
    · exact emit_token_err _ _ _ _ _
  unfold instr_token
  by_cases ht : token = 0x004E
  · simp only [ht, if_true]
    exact key { s with line := s.line + 4 } rfl _ _
  · simpa [ht] using key s rfl 0 token

theorem token_step_err (tsize : Nat) (fmtG : Nat → List Nat) (table : Table) (s : TState)
    (token : Nat) : BitsLe s.err (token_step tsize fmtG table s token).err := by
  unfold token_step
  split_ifs
  · unfold name_token
    split_ifs <;> exact BitsLe.refl _
  · unfold const_token
    split_ifs <;> first | exact BitsLe.refl _ | exact bitsLe_or _ _
  · exact instr_token_err tsize table { s with line := s.line + 2 } token

theorem token_loop_err (tsize : Nat) (fmtG : Nat → List Nat) (table : Table) (endline : Nat)
    (fuel : Nat) : ∀ s : TState,
    BitsLe s.err (token_loop tsize fmtG table endline fuel s).err := by
  induction fuel with
  | zero => intro s; exact BitsLe.refl _
  | succ f ih =>
    intro s
    rw [token_loop]
    split_ifs
    · exact (token_step_err tsize fmtG table s _).trans (ih _)
    · exact BitsLe.refl _

theorem read_line_err (tsize : Nat) (fmtG : Nat → List Nat) (table : Table) (len : Nat)
    (s : PState) : BitsLe s.err (read_line tsize fmtG table len s).1.err := by
  unfold read_line
  split_ifs
  · exact bitsLe_or _ _
  · refine BitsLe.trans ?_ (token_loop_err tsize fmtG table _ _ _)
    unfold line_begin
    split_ifs
    all_goals first | exact bitsLe_or _ _ | exact BitsLe.refl _

theorem line_pass_err (tsize : Nat) (fmtG : Nat → List Nat) (table : Table) (len : Nat)
    (s : PState) : BitsLe s.err (line_pass tsize fmtG table len s).1.err := by
  have h : (skip_compiled s).err = s.err := by
    unfold skip_compiled
    split_ifs <;> rfl
  unfold line_pass
  split_ifs
  · rw [h]; exact BitsLe.refl _
  · refine BitsLe.trans ?_ (read_line_err tsize fmtG table len _)
    show BitsLe s.err (skip_compiled s).err
    rw [h]; exact BitsLe.refl _

/-- The mask that `AMOS_print_source` returns holds every bit set along the way. -/
theorem line_loop_err (tsize : Nat) (fmtG : Nat → List Nat) (table : Table) (len : Nat)
    (fuel : Nat) : ∀ (s fin : PState), line_loop tsize fmtG table len fuel s = some fin →
    BitsLe s.err fin.err := by
  induction fuel with
  | zero => intro s fin h; cases h
  | succ f ih =>
    intro s fin h
    rw [line_loop_succ] at h
    split_ifs at h with h1 h2
    · exact (line_pass_err tsize fmtG table len s).trans (ih _ _ h)
    · cases h; exact line_pass_err tsize fmtG table len s
    · cases h; exact BitsLe.refl _

/-! ## Getting to a line and to a token -/

theorem token_steps_loop (tsize : Nat) (fmtG : Nat → List Nat) (table : Table) (endline : Nat)
    (k : Nat) : ∀ (s t : TState) (fuel : Nat),
    token_steps tsize fmtG table endline k s = some t →
    token_loop tsize fmtG table endline (k + fuel) s =
      token_loop tsize fmtG table endline fuel t := by
  induction k with
  | zero => intro s t fuel h; cases h; simp
  | succ k ih =>
    intro s t fuel h
    rw [token_steps] at h
    split_ifs at h with hc
    rw [show k + 1 + fuel = (k + fuel) + 1 by omega, token_loop_step _ _ _ _ _ _ hc.1 hc.2]
    exact ih _ _ _ h

theorem token_steps_line (tsize : Nat) (fmtG : Nat → List Nat) (table : Table) (endline : Nat)
    (k : Nat) : ∀ (s t : TState), token_steps tsize fmtG table endline k s = some t →
    s.line + 2 * k ≤ t.line := by
  induction k with
  | zero => intro s t h; cases h; simp
  | succ k ih =>
    intro s t h
    rw [token_steps] at h
    split_ifs at h with hc
    have := ih _ _ h
    have := token_step_line tsize fmtG table s (amos_deek s.mem s.line)
    omega

theorem token_loop_fuel_add (tsize : Nat) (fmtG : Nat → List Nat) (table : Table)
    (endline fuel : Nat) (s : TState) (h : endline ≤ s.line + 2 * fuel) (k : Nat) :
    token_loop tsize fmtG table endline (fuel + k) s =
      token_loop tsize fmtG table endline fuel s := by
  induction k with
  | zero => rfl
  | succ k ih =>
    rw [← Nat.add_assoc, token_loop_fuel _ _ _ _ _ _ (by omega), ih]

theorem run_passes_loop (tsize : Nat) (fmtG : Nat → List Nat) (table : Table) (len : Nat)
    (k : Nat) : ∀ (s t : PState) (fuel : Nat),
    run_passes tsize fmtG table len k s = some t →
    line_loop tsize fmtG table len (k + fuel) s = line_loop tsize fmtG table len fuel t := by
  induction k with
  | zero => intro s t fuel h; cases h; simp
  | succ k ih =>
    intro s t fuel h
    rw [run_passes] at h
    split_ifs at h with hc
    rw [show k + 1 + fuel = (k + fuel) + 1 by omega, line_loop_succ, if_pos hc.1, if_pos hc.2]
    exact ih _ _ _ h

theorem run_passes_err (tsize : Nat) (fmtG : Nat → List Nat) (table : Table) (len : Nat)
    (k : Nat) : ∀ (s t : PState), run_passes tsize fmtG table len k s = some t →
    BitsLe s.err t.err := by
  induction k with
  | zero => intro s t h; cases h; exact BitsLe.refl _
  | succ k ih =>
    intro s t h
    rw [run_passes] at h
    split_ifs at h with hc
    exact (line_pass_err tsize fmtG table len s).trans (ih _ _ h)

/-- A run that returns has gone through every state that `run_passes` reaches. -/
theorem line_loop_of_run_passes (tsize : Nat) (fmtG : Nat → List Nat) (table : Table)
    (len : Nat) (k : Nat) : ∀ (s t fin : PState) (fuel : Nat),
    run_passes tsize fmtG table len k s = some t →
    line_loop tsize fmtG table len fuel s = some fin →
    ∃ f, fuel = k + f ∧ line_loop tsize fmtG table len f t = some fin := by
  induction k with
  | zero => intro s t fin fuel h hl; cases h; exact ⟨fuel, by omega, hl⟩
  | succ k ih =>
    intro s t fin fuel h hl
    rw [run_passes] at h
    split_ifs at h with hc
    cases fuel with
    | zero => cases hl
    | succ f0 =>
      rw [line_loop_succ, if_pos hc.1, if_pos hc.2] at hl
      obtain ⟨f, hf, hfin⟩ := ih _ _ _ _ h hl
      exact ⟨f, by omega, hfin⟩
/-! ## C5: an instruction token that the table does not hold -/

theorem amos_deek_lt (m : List Nat) (a : Nat) : amos_deek m a < 65536 := by
  unfold amos_deek
  have h1 := peek_lt m a
  have h2 := peek_lt m (a + 1)
  have : peek m a <<< 8 < 2 ^ 16 := by rw [Nat.shiftLeft_eq]; omega
  exact Nat.or_lt_two_pow this (by omega)

theorem special_token_out (s : TState) (token : Nat) :
    ∃ rest, (special_token s token).out = s.out ++ rest := by
  unfold special_token
  split_ifs
  · exact ⟨_, rfl⟩
  all_goals exact ⟨[], by simp⟩

/-- The state after the pass of the token loop for the unknown instruction token at
`s.line`, before the `switch` on the core tokens. -/
theorem emit_token_none (tsize : Nat) (table : Table) (s : TState) (slot offset : Nat)
    (hs : slot < 256) (ho : offset < 65536) (h : lookup_token tsize slot offset table = none) :
    emit_token tsize table s slot offset =
      { s with out := s.out ++ placeholder_text slot offset, err := s.err ||| 4 } := by
  unfold emit_token
  rw [h]
  simp only [placeholder_text, fmt_X_2 slot hs, fmt_X_4 offset ho, List.append_assoc]

theorem unknown_token_step (tsize : Nat) (fmtG : Nat → List Nat) (table : Table) (s : TState)
    (htok : 0x004E ≤ amos_deek s.mem s.line)
    (hnone : lookup_token tsize (token_slot s) (token_offset s) table = none) :
    token_step tsize fmtG table s (amos_deek s.mem s.line) =
      if token_slot s = 0 then
        special_token { s with
          line := if amos_deek s.mem s.line = 0x004E then s.line + 6 else s.line + 2,
          out := s.out ++ placeholder_text (token_slot s) (token_offset s),
          err := s.err ||| 4 } (token_offset s)
      else { s with
          line := if amos_deek s.mem s.line = 0x004E then s.line + 6 else s.line + 2,
          out := s.out ++ placeholder_text (token_slot s) (token_offset s),
          err := s.err ||| 4 } := by
  have hslot : token_slot s < 256 := by
    unfold token_slot; split_ifs
    · exact peek_lt _ _
    · decide
  have hoff : token_offset s < 65536 := by
    unfold token_offset; split_ifs <;> exact amos_deek_lt _ _
  unfold token_step
  rw [if_neg (by omega), if_neg (by omega)]
  unfold instr_token
  by_cases ht : amos_deek s.mem s.line = 0x004E
  · have e1 : token_slot s = peek s.mem (s.line + 2) := by simp [token_slot, ht]
    have e2 : token_offset s = amos_deek s.mem (s.line + 4) := by simp [token_offset, ht]
    rw [e1] at hslot hnone
    rw [e2] at hoff hnone
    simp only [ht, if_true, e1, e2]
    rw [emit_token_none tsize table _ _ _ hslot hoff hnone]
  · have e1 : token_slot s = 0 := by simp [token_slot, ht]
    have e2 : token_offset s = amos_deek s.mem s.line := by simp [token_offset, ht]
    rw [e1] at hslot hnone
    rw [e2] at hoff hnone
    simp only [ht, if_false, e1, e2, if_true]
    rw [emit_token_none tsize table _ _ _ hslot hoff hnone]
theorem testBit_or_four (x : Nat) : (x ||| 4).testBit 2 = true := by
  rw [Nat.testBit_or]
  have : Nat.testBit 4 2 = true := by decide
  simp [this]

/-- C5: when the token loop gets to an instruction token (a raw value of 0x004E or more:
looked up under slot 0, or, for 0x004E, under its slot byte and 16-bit offset) that the
table does not hold, the pass writes "EXTENSION_", the slot as 2 hexadecimal digits, "_"
and the offset as 4 hexadecimal digits, sets bit 2 of the mask, and the loop goes on with
the tokens that follow on the line; bit 2 is set in the mask that is returned. -/
theorem unknown_token_placeholder (tsize : Nat) (fmtG : Nat → List Nat) (table : Table)
    (len : Nat) (src : List Nat) (j k : Nat) (q : PState) (s : TState)
    (hq : run_passes tsize fmtG table len j (initial src) = some q)
    (hin : q.inpos < len)
    (hnb : ¬ (q.compiled_len ≠ 0 ∧ (skip_compiled q).inpos > len))
    (hnz : peek (pass_begin q).mem (pass_begin q).inpos ≠ 0)
    (hs : token_steps tsize fmtG table ((pass_begin q).inpos + line_linelen len (pass_begin q))
      k (line_begin len (pass_begin q)) = some s)
    (hlt : s.line < (pass_begin q).inpos + line_linelen len (pass_begin q))
    (htok : 0x004E ≤ amos_deek s.mem s.line)
    (hnone : lookup_token tsize (token_slot s) (token_offset s) table = none) :
    (∃ rest, (token_step tsize fmtG table s (amos_deek s.mem s.line)).out =
      s.out ++ placeholder_text (token_slot s) (token_offset s) ++ rest) ∧
    (token_step tsize fmtG table s (amos_deek s.mem s.line)).err = s.err ||| 4 ∧
    (∀ fuel, token_loop tsize fmtG table
        ((pass_begin q).inpos + line_linelen len (pass_begin q)) (fuel + 1) s =
      token_loop tsize fmtG table ((pass_begin q).inpos + line_linelen len (pass_begin q)) fuel
        (token_step tsize fmtG table s (amos_deek s.mem s.line))) ∧
    ∀ lfuel fin, AMOS_print_source tsize fmtG lfuel src len table = some fin →
      fin.err.testBit 2 = true := by
  have hstep := unknown_token_step tsize fmtG table s htok hnone
  have herr : (token_step tsize fmtG table s (amos_deek s.mem s.line)).err = s.err ||| 4 := by
    rw [hstep]
    by_cases h0 : token_slot s = 0
    · rw [if_pos h0, special_token_err]
    · rw [if_neg h0]
  have hne : amos_deek s.mem s.line ≠ 0 := by omega
  refine ⟨?_, herr, fun fuel => token_loop_step _ _ _ _ _ _ hlt hne, ?_⟩
  · rw [hstep]
    by_cases h0 : token_slot s = 0
    · rw [if_pos h0]
      exact special_token_out _ _
    · rw [if_neg h0]
      exact ⟨[], by simp⟩
  · intro lfuel fin hfin
    unfold AMOS_print_source at hfin
    obtain ⟨f, -, hf⟩ := line_loop_of_run_passes _ _ _ _ _ _ _ _ _ hq hfin
    cases f with
    | zero => cases hf
    | succ f =>
      rw [line_loop_succ, if_pos hin] at hf
      have hp : line_pass tsize fmtG table len q = read_line tsize fmtG table len (pass_begin q) := by
        unfold line_pass
        rw [if_neg hnb]
      have hnz2 : ¬ peek (pass_begin q).mem (pass_begin q).inpos * 2 = 0 := by omega
      have hr : read_line tsize fmtG table len (pass_begin q) =
          (⟨(token_loop tsize fmtG table ((pass_begin q).inpos + line_linelen len (pass_begin q))
              (line_linelen len (pass_begin q)) (line_begin len (pass_begin q))).mem,
            next_inpos (pass_begin q), line_linelen len (pass_begin q),
            (token_loop tsize fmtG table ((pass_begin q).inpos + line_linelen len (pass_begin q))
              (line_linelen len (pass_begin q)) (line_begin len (pass_begin q))).compiled_len,
            (token_loop tsize fmtG table ((pass_begin q).inpos + line_linelen len (pass_begin q))
              (line_linelen len (pass_begin q)) (line_begin len (pass_begin q))).err,
            (token_loop tsize fmtG table ((pass_begin q).inpos + line_linelen len (pass_begin q))
              (line_linelen len (pass_begin q)) (line_begin len (pass_begin q))).out ++ [10]⟩,
            true) := by
        unfold read_line
        rw [if_neg hnz2]
      rw [hp, hr] at hf
      simp only [if_true] at hf
      have hmono := line_loop_err _ _ _ _ _ _ _ hf
      apply hmono
      show (token_loop tsize fmtG table ((pass_begin q).inpos + line_linelen len (pass_begin q))
              (line_linelen len (pass_begin q)) (line_begin len (pass_begin q))).err.testBit 2 = true
      have hl := token_steps_line _ _ _ _ _ _ _ hs
      have hlb : (line_begin len (pass_begin q)).line = (pass_begin q).inpos + 2 := rfl
      obtain ⟨L, hL⟩ : ∃ L, line_linelen len (pass_begin q) = L + 1 :=
        ⟨line_linelen len (pass_begin q) - 1, by omega⟩
      rw [← token_loop_fuel_add _ _ _ _ _ _ (by rw [hlb]; omega) k,
        show line_linelen len (pass_begin q) + k = k + line_linelen len (pass_begin q) from
          Nat.add_comm _ _,
        token_steps_loop _ _ _ _ _ _ _ _ hs, hL,
        token_loop_step _ _ _ _ _ _ (by rw [← hL]; exact hlt) hne]
      apply token_loop_err
      rw [herr]
      exact testBit_or_four _
/-- Witness for C5: on the line `EXTENSION_07_1234 EXTENSION_00_1234` the second token is
reached after one pass of the token loop. -/
theorem unknown_token_placeholder_witness :
    (∃ rest, (token_step 512 (fun _ => []) emptyTable
        ⟨[5, 3, 0, 0x4E, 7, 0, 0x12, 0x34, 0x12, 0x34, 2, 1, 0, 0], 8, 4,
          [32, 32] ++ placeholder_text 7 0x1234, true, 0⟩ 0x1234).out =
      ([32, 32] ++ placeholder_text 7 0x1234) ++ placeholder_text 0 0x1234 ++ rest) ∧
    (token_step 512 (fun _ => []) emptyTable
        ⟨[5, 3, 0, 0x4E, 7, 0, 0x12, 0x34, 0x12, 0x34, 2, 1, 0, 0], 8, 4,
          [32, 32] ++ placeholder_text 7 0x1234, true, 0⟩ 0x1234).err = 4 ||| 4 ∧
    (∀ fuel, token_loop 512 (fun _ => []) emptyTable 10 (fuel + 1)
        ⟨[5, 3, 0, 0x4E, 7, 0, 0x12, 0x34, 0x12, 0x34, 2, 1, 0, 0], 8, 4,
          [32, 32] ++ placeholder_text 7 0x1234, true, 0⟩ =
      token_loop 512 (fun _ => []) emptyTable 10 fuel
        (token_step 512 (fun _ => []) emptyTable
          ⟨[5, 3, 0, 0x4E, 7, 0, 0x12, 0x34, 0x12, 0x34, 2, 1, 0, 0], 8, 4,
            [32, 32] ++ placeholder_text 7 0x1234, true, 0⟩ 0x1234)) ∧
    ∀ lfuel fin, AMOS_print_source 512 (fun _ => []) lfuel
        [5, 3, 0, 0x4E, 7, 0, 0x12, 0x34, 0x12, 0x34, 2, 1, 0, 0] 14 emptyTable = some fin →
      fin.err.testBit 2 = true :=
  unknown_token_placeholder 512 (fun _ => []) emptyTable 14
    [5, 3, 0, 0x4E, 7, 0, 0x12, 0x34, 0x12, 0x34, 2, 1, 0, 0] 0 1
    (initial [5, 3, 0, 0x4E, 7, 0, 0x12, 0x34, 0x12, 0x34, 2, 1, 0, 0])
    ⟨[5, 3, 0, 0x4E, 7, 0, 0x12, 0x34, 0x12, 0x34, 2, 1, 0, 0], 8, 4,
      [32, 32] ++ placeholder_text 7 0x1234, true, 0⟩
    rfl (by decide) (by decide) (by decide) (by decide) (by decide) (by decide) (by decide)

/-! ## C6: a line of length zero -/

theorem testBit_or_one (x : Nat) : (x ||| 1).testBit 0 = true := by
  rw [Nat.testBit_or]
  have : Nat.testBit 1 0 = true := by decide
  simp [this]

/-- C6: when the line loop, after any number of passes, gets to a line whose length byte
is 0, `AMOS_print_source` returns at once: its output is what had been written when the line
was reached, and bit 0 is set in the mask it returns. -/
theorem zero_length_line_stops (tsize : Nat) (fmtG : Nat → List Nat) (table : Table)
    (len : Nat) (src : List Nat) (j : Nat) (q : PState)
    (hq : run_passes tsize fmtG table len j (initial src) = some q)
    (hin : q.inpos < len)
    (hnb : ¬ (q.compiled_len ≠ 0 ∧ (skip_compiled q).inpos > len))
    (hz : peek (pass_begin q).mem (pass_begin q).inpos = 0) (fuel : Nat) :
    ∃ fin, AMOS_print_source tsize fmtG (j + (fuel + 1)) src len table = some fin ∧
      fin.out = (skip_compiled q).out ∧ fin.err = q.err ||| 1 ∧ fin.err.testBit 0 = true ∧
      fin.mem = q.mem := by
  have hsk : (skip_compiled q).err = q.err ∧ (skip_compiled q).mem = q.mem := by
    unfold skip_compiled
    split_ifs <;> exact ⟨rfl, rfl⟩
  have hp : line_pass tsize fmtG table len q =
      (⟨(pass_begin q).mem, next_inpos (pass_begin q), 0, (pass_begin q).compiled_len,
        (pass_begin q).err ||| 1, (pass_begin q).out⟩, false) := by
    unfold line_pass
    rw [if_neg hnb]
    unfold read_line
    rw [if_pos (by rw [hz])]
  refine ⟨⟨(pass_begin q).mem, next_inpos (pass_begin q), 0, (pass_begin q).compiled_len,
        (pass_begin q).err ||| 1, (pass_begin q).out⟩, ?_, rfl, ?_, ?_, ?_⟩
  · unfold AMOS_print_source
    rw [run_passes_loop _ _ _ _ _ _ _ _ hq, line_loop_succ, if_pos hin, hp]
    rfl
  · show (skip_compiled q).err ||| 1 = q.err ||| 1
    rw [hsk.1]
  · show ((skip_compiled q).err ||| 1).testBit 0 = true
    exact testBit_or_one _
  · exact hsk.2

/-- Witness for C6: the second line of the buffer has the length byte 0. -/
theorem zero_length_line_stops_witness :
    ∃ fin, AMOS_print_source 512 (fun _ => []) (1 + (0 + 1))
        [4, 1, 0, 0x3E, 0, 0, 4, 0xD2, 0, 1, 0, 0x3E, 0, 0, 0, 7] 16 emptyTable = some fin ∧
      fin.out = (skip_compiled ⟨[4, 1, 0, 0x3E, 0, 0, 4, 0xD2, 0, 1, 0, 0x3E, 0, 0, 0, 7],
        8, 8, 0, 0, str "1234\n"⟩).out ∧
      fin.err = 0 ||| 1 ∧ fin.err.testBit 0 = true ∧
      fin.mem = [4, 1, 0, 0x3E, 0, 0, 4, 0xD2, 0, 1, 0, 0x3E, 0, 0, 0, 7] :=
  zero_length_line_stops 512 (fun _ => []) emptyTable 16
    [4, 1, 0, 0x3E, 0, 0, 4, 0xD2, 0, 1, 0, 0x3E, 0, 0, 0, 7] 1
    ⟨[4, 1, 0, 0x3E, 0, 0, 4, 0xD2, 0, 1, 0, 0x3E, 0, 0, 0, 7], 8, 8, 0, 0, str "1234\n"⟩
    (by decide) (by decide) (by decide) (by decide) 0

/-! ## C4: string constants -/

/-- C4, the part that holds: after a string constant `line` is the index of the token that
starts `n` bytes, rounded up to even, after the two-byte length field, and a declared length
of 0 writes the two quotes only. -/
theorem string_constant_resumes (fmtG : Nat → List Nat) (s : TState) (token : Nat)
    (h : token = 0x0026 ∨ token = 0x002E) :
    (const_token fmtG s token).line = s.line + 2 + (amos_deek s.mem s.line + 1) / 2 * 2 ∧
    (amos_deek s.mem s.line = 0 →
      (const_token fmtG s token).out = s.out ++ [if token = 0x0026 then 34 else 39,
        if token = 0x0026 then 34 else 39]) := by
  rcases h with rfl | rfl
  · constructor
    · simp only [const_token]
      norm_num
      split_ifs <;> omega
    · intro h0
      simp [const_token, h0]
  · constructor
    · simp only [const_token]
      norm_num
      split_ifs <;> omega
    · intro h0
      simp [const_token, h0]

/-- C4, where the code departs from it: the line `"ab" Else` (the 2-byte string `ab`, then
the token 0x02D0 with its two bytes of data) is written with the two bytes of the next
token inside the quotes, because the string is printed up to the first NUL and not for its
declared length. -/
theorem string_constant_overrun :
    AMOS_print_source 512 (fun _ => []) 2
        [7, 1, 0x00, 0x26, 0x00, 0x02, 0x61, 0x62, 0x02, 0xD0, 0x00, 0x00, 0x00, 0x00] 14
        emptyTable =
      some ⟨[7, 1, 0x00, 0x26, 0x00, 0x02, 0x61, 0x62, 0x02, 0xD0, 0x00, 0x00, 0x00, 0x00],
        14, 14, 0, 4,
        [34, 0x61, 0x62, 0x02, 0xD0, 34] ++ placeholder_text 0 0x02D0 ++ [10]⟩ := by
  decide
/-! ## C7: a last line that is longer than the buffer -/

theorem pass_begin_inpos_le (len : Nat) (q : PState) (hin : q.inpos < len)
    (hnb : ¬ (q.compiled_len ≠ 0 ∧ (skip_compiled q).inpos > len)) :
    (pass_begin q).inpos ≤ len := by
  show (skip_compiled q).inpos ≤ len
  by_cases hc : q.compiled_len ≠ 0
  · have : ¬ (skip_compiled q).inpos > len := fun h => hnb ⟨hc, h⟩
    omega
  · have : skip_compiled q = q := by
      unfold skip_compiled
      rw [if_neg hc]
    rw [this]
    omega

/-- Where the declared end of the line lies below `2 ^ 32`, the code does what C7 says: when
the line loop gets to a line that declares more bytes than the buffer has left, the pass
sets bit 0 of the mask, decodes the tokens up to the end of the buffer (`endline` is
`len`), writes a newline, and `AMOS_print_source` returns after it with bit 0 set. -/
theorem overlong_line_truncated (tsize : Nat) (fmtG : Nat → List Nat) (table : Table)
    (len : Nat) (src : List Nat) (j : Nat) (q : PState)
    (hq : run_passes tsize fmtG table len j (initial src) = some q)
    (hin : q.inpos < len)
    (hnb : ¬ (q.compiled_len ≠ 0 ∧ (skip_compiled q).inpos > len))
    (hover : len < (pass_begin q).inpos + peek (pass_begin q).mem (pass_begin q).inpos * 2)
    (h32 : (pass_begin q).inpos + peek (pass_begin q).mem (pass_begin q).inpos * 2 < 2 ^ 32)
    (fuel : Nat) :
    ∃ fin, AMOS_print_source tsize fmtG (j + (fuel + 2)) src len table = some fin ∧
      fin.err.testBit 0 = true ∧
      fin.linelen = len - (pass_begin q).inpos ∧
      (line_begin len (pass_begin q)).err = (pass_begin q).err ||| 1 ∧
      fin.out = (token_loop tsize fmtG table len (len - (pass_begin q).inpos)
        (line_begin len (pass_begin q))).out ++ [10] ∧
      fin.err = (token_loop tsize fmtG table len (len - (pass_begin q).inpos)
        (line_begin len (pass_begin q))).err := by
  have hle := pass_begin_inpos_le len q hin hnb
  generalize hb : pass_begin q = b at *
  have hnext : next_inpos b = b.inpos + peek b.mem b.inpos * 2 := by
    unfold next_inpos
    exact Nat.mod_eq_of_lt h32
  have hgt : next_inpos b > len := by rw [hnext]; exact hover
  have hll : line_linelen len b = len - b.inpos := by
    unfold line_linelen
    rw [if_pos hgt, hnext]
    have h1 := peek_lt b.mem b.inpos
    have e : (b.inpos + peek b.mem b.inpos * 2 + 2 ^ 32 - peek b.mem b.inpos * 2) % 2 ^ 32 =
        b.inpos := by omega
    rw [e]
    omega
  have hbe : (line_begin len b).err = b.err ||| 1 := by
    unfold line_begin
    rw [if_pos hgt]
  have hend : b.inpos + (len - b.inpos) = len := by omega
  have hp : line_pass tsize fmtG table len q =
      (⟨(token_loop tsize fmtG table len (len - b.inpos) (line_begin len b)).mem,
        next_inpos b, len - b.inpos,
        (token_loop tsize fmtG table len (len - b.inpos) (line_begin len b)).compiled_len,
        (token_loop tsize fmtG table len (len - b.inpos) (line_begin len b)).err,
        (token_loop tsize fmtG table len (len - b.inpos) (line_begin len b)).out ++ [10]⟩,
        true) := by
    unfold line_pass
    rw [if_neg hnb, hb]
    unfold read_line
    rw [if_neg (by omega), hll, hend]
  refine ⟨⟨(token_loop tsize fmtG table len (len - b.inpos) (line_begin len b)).mem,
        next_inpos b, len - b.inpos,
        (token_loop tsize fmtG table len (len - b.inpos) (line_begin len b)).compiled_len,
        (token_loop tsize fmtG table len (len - b.inpos) (line_begin len b)).err,
        (token_loop tsize fmtG table len (len - b.inpos) (line_begin len b)).out ++ [10]⟩,
    ?_, ?_, rfl, hbe, rfl, rfl⟩
  · unfold AMOS_print_source
    rw [run_passes_loop _ _ _ _ _ _ _ _ hq, line_loop_succ, if_pos hin, hp]
    simp only [if_true]
    rw [line_loop_succ, if_neg (by show ¬ next_inpos b < len; omega)]
  · apply token_loop_err
    rw [hbe]
    exact testBit_or_one _

/-- Witness for C7: an 8-byte buffer whose line declares 10 bytes and holds the decimal
token for 1234 is written as "1234" and a newline, and the mask returned is 1. -/
theorem overlong_line_truncated_witness :
    AMOS_print_source 512 (fun _ => []) 2 [5, 0, 0, 0x3E, 0, 0, 4, 0xD2] 8 emptyTable =
      some ⟨[5, 0, 0, 0x3E, 0, 0, 4, 0xD2], 10, 8, 0, 1, str "1234\n"⟩ ∧
    ∃ fin, AMOS_print_source 512 (fun _ => []) (0 + (0 + 2)) [5, 0, 0, 0x3E, 0, 0, 4, 0xD2] 8
        emptyTable = some fin ∧
      fin.err.testBit 0 = true ∧
      fin.linelen = 8 - (pass_begin (initial [5, 0, 0, 0x3E, 0, 0, 4, 0xD2])).inpos ∧
      (line_begin 8 (pass_begin (initial [5, 0, 0, 0x3E, 0, 0, 4, 0xD2]))).err =
        (pass_begin (initial [5, 0, 0, 0x3E, 0, 0, 4, 0xD2])).err ||| 1 ∧
      fin.out = (token_loop 512 (fun _ => []) emptyTable 8
        (8 - (pass_begin (initial [5, 0, 0, 0x3E, 0, 0, 4, 0xD2])).inpos)
        (line_begin 8 (pass_begin (initial [5, 0, 0, 0x3E, 0, 0, 4, 0xD2])))).out ++ [10] ∧
      fin.err = (token_loop 512 (fun _ => []) emptyTable 8
        (8 - (pass_begin (initial [5, 0, 0, 0x3E, 0, 0, 4, 0xD2])).inpos)
        (line_begin 8 (pass_begin (initial [5, 0, 0, 0x3E, 0, 0, 4, 0xD2])))).err :=
  ⟨by decide,
    overlong_line_truncated 512 (fun _ => []) emptyTable 8 [5, 0, 0, 0x3E, 0, 0, 4, 0xD2] 0
      (initial [5, 0, 0, 0x3E, 0, 0, 4, 0xD2]) rfl (by decide) (by decide) (by decide)
      (by decide) 0⟩
/-! ## C7 beyond 32 bits: a run on a buffer of nearly 4 GiB -/

theorem peek_append_left (a b : List Nat) (i : Nat) (h : i < a.length) :
    peek (a ++ b) i = peek a i := by
  unfold peek
  rw [List.getD_append _ _ _ _ h]

theorem peek_append_right (a b : List Nat) (i : Nat) (h : a.length ≤ i) :
    peek (a ++ b) i = peek b (i - a.length) := by
  unfold peek
  rw [List.getD_append_right _ _ _ _ h]

theorem peek_of_length_le (m : List Nat) (i : Nat) (h : m.length ≤ i) : peek m i = 0 := by
  unfold peek
  rw [List.getD_eq_default _ _ h]

theorem wrapPad_eq : wrapPad = 4294967260 := by decide

theorem wrapBuffer_lo (i : Nat) (h : i < 16) :
    peek wrapBuffer i =
      peek [8, 1, 0x03, 0x76, 0xFF, 0xFF, 0xFF, 0xF4, 0, 0, 0x10, 0, 0, 0, 0, 0] i := by
  unfold wrapBuffer
  exact peek_append_left _ _ _ h

theorem length16 (a0 a1 a2 a3 a4 a5 a6 a7 a8 a9 a10 a11 a12 a13 a14 a15 : Nat) :
    [a0, a1, a2, a3, a4, a5, a6, a7, a8, a9, a10, a11, a12, a13, a14, a15].length = 16 := rfl

theorem wrapBuffer_mid (i : Nat) (h : i < 16) :
    peek wrapBuffer (16 + i) =
      peek [8, 1, 0x03, 0x76, 0xFF, 0xFF, 0xFF, 0xE7, 0, 0, 0x10, 0, 0, 0, 0, 0] i := by
  unfold wrapBuffer
  rw [peek_append_right _ _ _ (by rw [length16]; omega),
    peek_append_left _ _ _ (by rw [length16, length16]; omega), length16]
  congr 1
  omega

theorem wrapBuffer_hi (n i : Nat) (h : n = 4294967292 + i) :
    peek wrapBuffer n = peek [10, 0] i := by
  have hp := wrapPad_eq
  have e1 := peek_append_right
    [8, 1, 0x03, 0x76, 0xFF, 0xFF, 0xFF, 0xF4, 0, 0, 0x10, 0, 0, 0, 0, 0]
    ([8, 1, 0x03, 0x76, 0xFF, 0xFF, 0xFF, 0xE7, 0, 0, 0x10, 0, 0, 0, 0, 0] ++
      (List.replicate wrapPad 0 ++ [10, 0])) n (by rw [length16]; omega)
  have e2 := peek_append_right
    [8, 1, 0x03, 0x76, 0xFF, 0xFF, 0xFF, 0xE7, 0, 0, 0x10, 0, 0, 0, 0, 0]
    (List.replicate wrapPad 0 ++ [10, 0]) (n - 16) (by rw [length16]; omega)
  have e3 := peek_append_right (List.replicate wrapPad 0) [10, 0] (n - 16 - 16)
    (by rw [List.length_replicate]; omega)
  rw [length16] at e1 e2
  rw [List.length_replicate] at e3
  have e4 : n - 16 - 16 - wrapPad = i := by omega
  rw [e4] at e3
  unfold wrapBuffer
  exact e1.trans (e2.trans e3)
/-- A PROCEDURE line of 16 bytes whose flags byte marks compiled code, decoded with an
empty table: the pass writes the text for an unknown token and remembers the length. -/
theorem compiled_proc_line (tsize : Nat) (fmtG : Nat → List Nat) (len : Nat) (M : List Nat)
    (p ll err S : Nat) (out : List Nat)
    (h0 : peek M p = 8) (h1 : peek M (p + 1) = 1) (h2 : amos_deek M (p + 2) = 0x0376)
    (h10 : peek M (p + 10) = 0x10) (hS : amos_leek M (p + 4) = S)
    (h12 : amos_deek M (p + 12) = 0) (hlen : p + 16 ≤ len) (hp : p + 16 < 2 ^ 32) :
    read_line tsize fmtG emptyTable len ⟨M, p, ll, 0, err, out⟩ =
      (⟨M, p + 16, 16, S, err ||| 4, out ++ placeholder_text 0 0x0376 ++ [10]⟩, true) := by
  have hn : next_inpos ⟨M, p, ll, 0, err, out⟩ = p + 16 := by
    simp only [next_inpos, h0]
    omega
  have hl : line_linelen len ⟨M, p, ll, 0, err, out⟩ = 16 := by
    simp only [line_linelen, hn, h0]
    rw [if_neg (by omega)]
  have hb : line_begin len ⟨M, p, ll, 0, err, out⟩ = ⟨M, p + 2, err, out, true, 0⟩ := by
    simp only [line_begin, hn, h1]
    rw [if_neg (by omega), if_neg (by omega)]
  have hstep : token_step tsize fmtG emptyTable ⟨M, p + 2, err, out, true, 0⟩ 0x0376 =
      ⟨M, p + 12, err ||| 4, out ++ placeholder_text 0 0x0376, true, S⟩ := by
    have e := unknown_token_step tsize fmtG emptyTable ⟨M, p + 2, err, out, true, 0⟩
      (by show 0x004E ≤ amos_deek M (p + 2); rw [h2]; decide)
      (by simp [lookup_token, emptyTable])
    have hs : token_slot ⟨M, p + 2, err, out, true, 0⟩ = 0 := by
      simp [token_slot, h2]
    have ho : token_offset ⟨M, p + 2, err, out, true, 0⟩ = 0x0376 := by
      simp [token_offset, h2]
    rw [hs, ho] at e
    simp only [h2, if_true] at e
    rw [e]
    have a1 : 16 &&& 32 = 0 := by decide
    have a2 : 16 &&& 16 = 16 := by decide
    simp [special_token, show p + 2 + 2 + 6 = p + 10 by omega, h10,
      show p + 2 + 2 = p + 4 by omega, hS, a1, a2]
  unfold read_line
  rw [if_neg (by simp [h0]), hl, hb, hn]
  rw [token_loop_step _ _ _ _ _ _ (by show p + 2 < p + 16; omega)
      (by show amos_deek M (p + 2) ≠ 0; rw [h2]; decide)]
  simp only []
  rw [h2, hstep, token_loop_zero_token _ _ _ _ _ _ (by show amos_deek M (p + 12) = 0; exact h12)]

theorem wrapBuffer_length : wrapBuffer.length = 4294967294 := by
  unfold wrapBuffer
  rw [List.length_append, List.length_append, List.length_append, length16, length16,
    List.length_replicate, wrapPad_eq]
  rfl

theorem wrap_pass1 (tsize : Nat) (fmtG : Nat → List Nat) :
    line_pass tsize fmtG emptyTable 4294967294 (initial wrapBuffer) =
      (⟨wrapBuffer, 16, 16, 4294967284, 4, placeholder_text 0 0x0376 ++ [10]⟩, true) := by
  have hr := compiled_proc_line tsize fmtG 4294967294 wrapBuffer 0 0 0 4294967284 []
    (by rw [wrapBuffer_lo 0 (by decide)]; decide)
    (by rw [wrapBuffer_lo _ (by decide)]; decide)
    (by unfold amos_deek; rw [wrapBuffer_lo _ (by decide), wrapBuffer_lo _ (by decide)]; decide)
    (by rw [wrapBuffer_lo _ (by decide)]; decide)
    (by unfold amos_leek; rw [wrapBuffer_lo _ (by decide), wrapBuffer_lo _ (by decide),
          wrapBuffer_lo _ (by decide), wrapBuffer_lo _ (by decide)]; decide)
    (by unfold amos_deek; rw [wrapBuffer_lo _ (by decide), wrapBuffer_lo _ (by decide)]; decide)
    (by decide) (by decide)
  exact hr

theorem wrap_pass3 (tsize : Nat) (fmtG : Nat → List Nat) (out : List Nat) :
    line_pass tsize fmtG emptyTable 4294967294 ⟨wrapBuffer, 16, 10 * 2, 0, 4, out⟩ =
      (⟨wrapBuffer, 32, 16, 4294967271, 4, out ++ placeholder_text 0 0x0376 ++ [10]⟩, true) := by
  have hr := compiled_proc_line tsize fmtG 4294967294 wrapBuffer 16 (10 * 2) 4 4294967271 out
    (by rw [wrapBuffer_mid 0 (by decide)]; decide)
    (by rw [wrapBuffer_mid _ (by decide)]; decide)
    (by unfold amos_deek; rw [wrapBuffer_mid _ (by decide), wrapBuffer_mid 3 (by decide)]; decide)
    (by rw [wrapBuffer_mid _ (by decide)]; decide)
    (by unfold amos_leek; rw [wrapBuffer_mid _ (by decide), wrapBuffer_mid 5 (by decide),
          wrapBuffer_mid 6 (by decide), wrapBuffer_mid 7 (by decide)]; decide)
    (by unfold amos_deek; rw [wrapBuffer_mid _ (by decide), wrapBuffer_mid 13 (by decide)]; decide)
    (by decide) (by decide)
  exact hr


theorem amos_deek_zero (m : List Nat) (a : Nat) (h1 : peek m a = 0) (h2 : peek m (a + 1) = 0) :
    amos_deek m a = 0 := by
  unfold amos_deek
  rw [h1, h2]
  rfl

/-- A pass with a compiled procedure pending that does not run past the buffer reads the
line at the position it skips to. -/
theorem line_pass_skip (tsize : Nat) (fmtG : Nat → List Nat) (table : Table) (len : Nat)
    (M : List Nat) (p ll c err p' : Nat) (out : List Nat) (hc : c ≠ 0)
    (hp : (p + c + 8 + 2 ^ 32 - ll) % 2 ^ 32 = p') (hle : p' ≤ len) :
    line_pass tsize fmtG table len ⟨M, p, ll, c, err, out⟩ =
      read_line tsize fmtG table len ⟨M, p', ll, 0, err, out ++ compiled_notice⟩ := by
  have hsk : skip_compiled ⟨M, p, ll, c, err, out⟩ = ⟨M, p', ll, c, err, out ++ compiled_notice⟩ := by
    unfold skip_compiled
    rw [if_pos hc]
    simp only [hp]
  unfold line_pass pass_begin
  rw [hsk, if_neg (by simp; omega)]

/-- A pass with a compiled procedure pending that runs past the buffer ends the loop. -/
theorem line_pass_skip_break (tsize : Nat) (fmtG : Nat → List Nat) (table : Table) (len : Nat)
    (M : List Nat) (p ll c err p' : Nat) (out : List Nat) (hc : c ≠ 0)
    (hp : (p + c + 8 + 2 ^ 32 - ll) % 2 ^ 32 = p') (hgt : len < p') :
    line_pass tsize fmtG table len ⟨M, p, ll, c, err, out⟩ =
      (⟨M, p', ll, c, err, out ++ compiled_notice⟩, false) := by
  have hsk : skip_compiled ⟨M, p, ll, c, err, out⟩ = ⟨M, p', ll, c, err, out ++ compiled_notice⟩ := by
    unfold skip_compiled
    rw [if_pos hc]
    simp only [hp]
  unfold line_pass
  rw [hsk, if_pos ⟨hc, hgt⟩]

/-- A line with indent byte 0 and no token, whose end as `inpos` computes it is `p'`, a
position that is not past the buffer. -/
theorem empty_line (tsize : Nat) (fmtG : Nat → List Nat) (table : Table) (len : Nat)
    (M : List Nat) (p ll err n p' : Nat) (out : List Nat)
    (h0 : peek M p = n) (hn : n ≠ 0) (hp : (p + n * 2) % 2 ^ 32 = p') (hle : p' ≤ len)
    (h1 : peek M (p + 1) = 0) (h2 : amos_deek M (p + 2) = 0) :
    read_line tsize fmtG table len ⟨M, p, ll, 0, err, out⟩ =
      (⟨M, p', n * 2, 0, err, out ++ [10]⟩, true) := by
  have hnx : next_inpos ⟨M, p, ll, 0, err, out⟩ = p' := by
    simp only [next_inpos, h0, hp]
  have hl : line_linelen len ⟨M, p, ll, 0, err, out⟩ = n * 2 := by
    simp only [line_linelen, hnx, h0]
    rw [if_neg (by omega)]
  have hb : line_begin len ⟨M, p, ll, 0, err, out⟩ = ⟨M, p + 2, err, out, true, 0⟩ := by
    simp only [line_begin, hnx, h1]
    rw [if_neg (by omega), if_neg (by omega)]
  unfold read_line
  rw [if_neg (by simp only [h0]; omega), hl, hb, hnx]
  simp only []
  rw [token_loop_zero_token _ _ _ _ _ _ (by show amos_deek M (p + 2) = 0; exact h2)]

/-- Four passes of the line loop, the last of which ends in `break`. -/
theorem line_loop_four (tsize : Nat) (fmtG : Nat → List Nat) (table : Table) (len : Nat)
    (s0 s1 s2 s3 s4 : PState)
    (h0 : s0.inpos < len) (p0 : line_pass tsize fmtG table len s0 = (s1, true))
    (h1 : s1.inpos < len) (p1 : line_pass tsize fmtG table len s1 = (s2, true))
    (h2 : s2.inpos < len) (p2 : line_pass tsize fmtG table len s2 = (s3, true))
    (h3 : s3.inpos < len) (p3 : line_pass tsize fmtG table len s3 = (s4, false)) :
    line_loop tsize fmtG table len 4 s0 = some s4 := by
  rw [line_loop_succ, if_pos h0, p0]
  simp only [if_true]
  rw [line_loop_succ, if_pos h1, p1]
  simp only [if_true]
  rw [line_loop_succ, if_pos h2, p2]
  simp only [if_true]
  rw [line_loop_succ, if_pos h3, p3]
  simp

theorem wrap_pass2 (tsize : Nat) (fmtG : Nat → List Nat) (out : List Nat) :
    line_pass tsize fmtG emptyTable 4294967294 ⟨wrapBuffer, 16, 16, 4294967284, 4, out⟩ =
      (⟨wrapBuffer, 16, 10 * 2, 0, 4, out ++ compiled_notice ++ [10]⟩, true) :=
  (line_pass_skip tsize fmtG emptyTable 4294967294 wrapBuffer 16 16 4294967284 4 4294967292 out
    (by decide) (by decide) (by decide)).trans
  (empty_line tsize fmtG emptyTable 4294967294 wrapBuffer 4294967292 16 4 10 16
    (out ++ compiled_notice) (wrapBuffer_hi 4294967292 0 rfl) (by decide) (by decide) (by decide)
    ((wrapBuffer_hi (4294967292 + 1) 1 rfl).trans (by decide))
    (amos_deek_zero _ _
      (peek_of_length_le _ _ (Nat.le_trans (Nat.le_of_eq wrapBuffer_length) (by decide)))
      (peek_of_length_le _ _ (Nat.le_trans (Nat.le_of_eq wrapBuffer_length) (by decide)))))

theorem wrap_pass4 (tsize : Nat) (fmtG : Nat → List Nat) (out : List Nat) :
    line_pass tsize fmtG emptyTable 4294967294 ⟨wrapBuffer, 32, 16, 4294967271, 4, out⟩ =
      (⟨wrapBuffer, 4294967295, 16, 4294967271, 4, out ++ compiled_notice⟩, false) :=
  line_pass_skip_break tsize fmtG emptyTable 4294967294 wrapBuffer 32 16 4294967271 4 4294967295
    out (by decide) (by decide) (by decide)

theorem wrap_reach :
    run_passes 512 (fun _ => []) emptyTable 4294967294 1 (initial wrapBuffer) =
      some ⟨wrapBuffer, 16, 16, 4294967284, 4, placeholder_text 0 0x0376 ++ [10]⟩ := by
  rw [run_passes, wrap_pass1]
  rfl

theorem wrap_skip :
    skip_compiled ⟨wrapBuffer, 16, 16, 4294967284, 4, placeholder_text 0 0x0376 ++ [10]⟩ =
      ⟨wrapBuffer, 4294967292, 16, 4294967284, 4,
        placeholder_text 0 0x0376 ++ [10] ++ compiled_notice⟩ := by
  unfold skip_compiled
  rw [if_pos (by decide)]
  rfl

theorem wrap_begin :
    pass_begin ⟨wrapBuffer, 16, 16, 4294967284, 4, placeholder_text 0 0x0376 ++ [10]⟩ =
      ⟨wrapBuffer, 4294967292, 16, 0, 4,
        placeholder_text 0 0x0376 ++ [10] ++ compiled_notice⟩ := by
  unfold pass_begin
  rw [wrap_skip]

theorem wrap_run :
    AMOS_print_source 512 (fun _ => []) 4 wrapBuffer 4294967294 emptyTable =
      some ⟨wrapBuffer, 4294967295, 16, 4294967271, 4,
        placeholder_text 0 0x0376 ++ [10] ++ compiled_notice ++ [10] ++
          placeholder_text 0 0x0376 ++ [10] ++ compiled_notice⟩ :=
  line_loop_four 512 (fun _ => []) emptyTable 4294967294 _ _ _ _ _
    (by decide) (wrap_pass1 _ _) (by decide) (wrap_pass2 _ _ _) (by decide)
    (wrap_pass3 _ _ _) (by decide) (wrap_pass4 _ _ _)

/-- C7 fails on `wrapBuffer`: in this buffer of `2 ^ 32 - 2` bytes the second pass of
the line loop gets, past a compiled procedure, to the last line at `2 ^ 32 - 4`, which
declares 20 bytes where 2 are left; the 32-bit `inpos` wraps to 16, so the line is not
found overlong, the loop goes on from index 16, and the mask returned is 4, bit 0 unset. -/
theorem overlong_line_wraps :
    ∃ q fin, run_passes 512 (fun _ => []) emptyTable 4294967294 1 (initial wrapBuffer) = some q ∧
      q.inpos < 4294967294 ∧
      ¬ (q.compiled_len ≠ 0 ∧ (skip_compiled q).inpos > 4294967294) ∧
      (pass_begin q).inpos = 4294967292 ∧
      peek (pass_begin q).mem (pass_begin q).inpos = 10 ∧
      AMOS_print_source 512 (fun _ => []) 4 wrapBuffer 4294967294 emptyTable = some fin ∧
      fin.err = 4 ∧ fin.err.testBit 0 = false :=
  ⟨_, _, wrap_reach, by decide, by rw [wrap_skip]; decide, by rw [wrap_begin],
    by rw [wrap_begin]; exact wrapBuffer_hi 4294967292 0 rfl, wrap_run, rfl, by decide⟩
/-! ## The scans of `AMOS_parse_extension` -/

theorem skip_below_stop (m : List Nat) (lim e fuel p : Nat) (h : ¬ (p < e ∧ peek m p < lim)) :
    skip_below m lim e fuel p = p := by
  cases fuel with
  | zero => rfl
  | succ f => rw [skip_below, if_neg h]

theorem skip_below_ge (m : List Nat) (lim e : Nat) (fuel : Nat) : ∀ p,
    p ≤ skip_below m lim e fuel p := by
  induction fuel with
  | zero => intro p; exact Nat.le_refl _
  | succ f ih =>
    intro p
    rw [skip_below]
    split_ifs
    · exact Nat.le_trans (Nat.le_succ p) (ih _)
    · exact Nat.le_refl _

/-- With enough fuel the scan stops at the end of the buffer or at the first byte that is
not below `lim`. -/
theorem skip_below_spec (m : List Nat) (lim e : Nat) (fuel : Nat) : ∀ p, e - p ≤ fuel →
    (skip_below m lim e fuel p < e → lim ≤ peek m (skip_below m lim e fuel p)) ∧
    (∀ i, p ≤ i → i < skip_below m lim e fuel p → peek m i < lim) ∧
    (p ≤ e → skip_below m lim e fuel p ≤ e) := by
  induction fuel with
  | zero =>
    intro p h
    refine ⟨fun h1 => ?_, fun i h1 h2 => ?_, fun h1 => ?_⟩
    · simp only [skip_below] at h1; omega
    · simp only [skip_below] at h2; omega
    · simp only [skip_below]; omega
  | succ f ih =>
    intro p h
    by_cases hc : p < e ∧ peek m p < lim
    · rw [skip_below, if_pos hc]
      obtain ⟨a, b, c⟩ := ih (p + 1) (by omega)
      refine ⟨a, fun i h1 h2 => ?_, fun _ => c (by omega)⟩
      by_cases hi : i = p
      · rw [hi]; exact hc.2
      · exact b i (by omega) h2
    · rw [skip_below_stop _ _ _ _ _ hc]
      refine ⟨fun h1 => ?_, fun i h1 h2 => by omega, fun h1 => h1⟩
      by_contra hlt
      exact hc ⟨h1, by omega⟩

theorem entry_type_ge (m : List Nat) (e p : Nat) : p + 5 ≤ entry_type m e p := by
  unfold entry_type entry_name
  have := skip_below_ge m 0x80 e (e - (p + 4)) (p + 4)
  omega

theorem entry_next_ge (m : List Nat) (e p : Nat) : p + 6 ≤ entry_next m e p := by
  unfold entry_next
  have h1 := entry_type_ge m e p
  have h2 := skip_below_ge m 0xFD e (e - entry_type m e p) (entry_type m e p)
  simp only []
  split_ifs <;> omega

/-- When the entry after the one at `p` still lies in the buffer, the name of the entry at
`p` is ended by a byte of the buffer. -/
theorem entry_name_ended (m : List Nat) (e p : Nat) (h : entry_next m e p < e + 2) :
    ∃ t, entry_name p ≤ t ∧ t < e ∧ 0x80 ≤ peek m t ∧
      ∀ i, entry_name p ≤ i → i < t → peek m i < 0x80 := by
  have hs := skip_below_spec m 0x80 e (e - entry_name p) (entry_name p) (Nat.le_refl _)
  have hge := skip_below_ge m 0x80 e (e - entry_name p) (entry_name p)
  have hlt : skip_below m 0x80 e (e - entry_name p) (entry_name p) < e := by
    by_contra hc
    have h1 : e + 1 ≤ entry_type m e p := by unfold entry_type; omega
    have h2 := skip_below_ge m 0xFD e (e - entry_type m e p) (entry_type m e p)
    have h3 : e + 2 ≤ entry_next m e p := by
      unfold entry_next
      simp only []
      split_ifs <;> omega
    omega
  exact ⟨_, hge, hlt, hs.1 hlt, hs.2.1⟩

/-! ## The name loops of `add_token` -/

theorem name_len_isSome (m : List Nat) (fuel : Nat) : ∀ name t, name ≤ t → 0x80 ≤ peek m t →
    t - name < fuel → ∃ n, name_len fuel m name = some n := by
  induction fuel with
  | zero => intro name t _ _ h; omega
  | succ f ih =>
    intro name t h1 h2 h3
    rw [name_len]
    by_cases hc : peek m name < 0x80
    · rw [if_pos hc]
      have hne : name ≠ t := by
        intro e; rw [e] at hc; omega
      obtain ⟨n, hn⟩ := ih (name + 1) t (by omega) h2 (by omega)
      exact ⟨n + 1, by rw [hn]; rfl⟩
    · rw [if_neg hc]
      exact ⟨0, rfl⟩

set_option maxRecDepth 100000 in
theorem high_bit_iff : ∀ c < 256, (c &&& 0x80 ≠ 0 ↔ 0x80 ≤ c) := by
  decide

theorem copy_name_isSome (m : List Nat) (fuel : Nat) : ∀ name t up, name ≤ t →
    0x80 ≤ peek m t → t - name < fuel → ∃ body, copy_name fuel m name up = some body := by
  induction fuel with
  | zero => intro name t up _ _ h; omega
  | succ f ih =>
    intro name t up h1 h2 h3
    by_cases hd : peek m name &&& 0x80 ≠ 0
    · rw [copy_name]
      simp only [hd, if_true]
      split_ifs <;> exact ⟨_, rfl⟩
    · have hlt : ¬ 0x80 ≤ peek m name := fun h =>
        hd ((high_bit_iff _ (peek_lt m name)).mpr h)
      have hne : name ≠ t := by
        intro e; rw [e] at hlt; exact hlt h2
      rw [copy_name]
      simp only [hd, if_false]
      split_ifs
      all_goals
        first
        | (obtain ⟨b, hb⟩ := ih (name + 1) t false (by omega) h2 (by omega)
           exact ⟨_, by rw [hb]; rfl⟩)
        | (obtain ⟨b, hb⟩ := ih (name + 1) t true (by omega) h2 (by omega)
           exact ⟨_, by rw [hb]; rfl⟩)
        | (obtain ⟨b, hb⟩ := ih (name + 1) t up (by omega) h2 (by omega)
           exact ⟨_, by rw [hb]; rfl⟩)

theorem lt_length_of_peek (m : List Nat) (t : Nat) (h : 0x80 ≤ peek m t) : t < m.length := by
  by_contra hc
  have : peek m t = 0 := by
    unfold peek
    rw [List.getD_eq_default _ _ (by omega)]
  omega

/-- `add_token` builds a text for every name that is ended somewhere in the memory. -/
theorem token_text_isSome (m : List Nat) (name type t : Nat) (h1 : name ≤ t)
    (h2 : 0x80 ≤ peek m t) : ∃ text, token_text m name type = some text := by
  have hl := lt_length_of_peek m t h2
  obtain ⟨n, hn⟩ := name_len_isSome m (m.length + 1 - name) name t h1 h2 (by omega)
  obtain ⟨b, hb⟩ := copy_name_isSome m (m.length + 1 - name) name t true h1 h2 (by omega)
  unfold token_text
  simp only [hn, hb]
  exact ⟨_, rfl⟩

/-! ## `add_token` along the walk -/

/-- What a call of `add_token` that returns leaves behind. -/
theorem add_token_some (tsize : Nat) (m : List Nat) (key p type : Nat) (table : Table)
    (last_name : Option Nat) (r : AddResult)
    (h : add_token tsize m key (entry_name p) type table last_name = some r) :
    r.ret = 0 ∧ r.last_name = next_last m p last_name ∧
    ((resolve_name m (entry_name p) last_name = none ∧ r.table = table) ∨
      ∃ nm ln text, resolve_name m (entry_name p) last_name = some (nm, ln) ∧
        token_text m nm type = some text ∧ r.table = link_token tsize ⟨key, text⟩ table) := by
  unfold add_token at h
  unfold next_last
  cases hr : resolve_name m (entry_name p) last_name with
  | none =>
    rw [hr] at h
    cases h
    exact ⟨rfl, rfl, Or.inl ⟨rfl, rfl⟩⟩
  | some x =>
    obtain ⟨nm, ln⟩ := x
    rw [hr] at h
    cases ht : token_text m nm type with
    | none => simp [ht] at h
    | some text =>
      simp only [ht, Option.some.injEq] at h
      subst h
      exact ⟨rfl, rfl, Or.inr ⟨nm, ln, text, rfl, ht, rfl⟩⟩

/-- `add_token` returns when the name it is given and the remembered name are ended. -/
theorem add_token_isSome (tsize : Nat) (m : List Nat) (key p type : Nat) (table : Table)
    (last_name : Option Nat) (hl : LastOk m last_name)
    (hn : ∃ t, entry_name p ≤ t ∧ 0x80 ≤ peek m t) :
    ∃ r, add_token tsize m key (entry_name p) type table last_name = some r ∧
      LastOk m r.last_name := by
  obtain ⟨t, ht1, ht2⟩ := hn
  unfold add_token resolve_name
  by_cases h80 : peek m (entry_name p) = 0x80
  · rw [if_pos h80]
    cases hlast : last_name with
    | none => exact ⟨_, rfl, fun ln h => by cases h⟩
    | some ln =>
      obtain ⟨t', h1, h2⟩ := hl ln hlast
      obtain ⟨text, htx⟩ := token_text_isSome m ln type t' h1 h2
      simp only [Option.map_some', htx]
      exact ⟨_, rfl, fun ln' h => by cases h; exact ⟨t', h1, h2⟩⟩
  · rw [if_neg h80]
    by_cases h33 : peek m (entry_name p) = 33
    · rw [if_pos h33]
      have hne : entry_name p ≠ t := by
        intro e; rw [e] at h33; omega
      obtain ⟨text, htx⟩ := token_text_isSome m (entry_name p + 1) type t (by omega) ht2
      simp only [htx]
      exact ⟨_, rfl, fun ln' h => by cases h; exact ⟨t, by omega, ht2⟩⟩
    · rw [if_neg h33]
      obtain ⟨text, htx⟩ := token_text_isSome m (entry_name p) type t ht1 ht2
      simp only [htx]
      exact ⟨_, rfl, hl⟩

/-! ## C9: when `AMOS_parse_extension` succeeds -/

theorem parse_loop_succ (tsize : Nat) (m : List Nat) (len slot tkoff fuel p : Nat)
    (table : Table) (last_name : Option Nat) :
    parse_loop tsize m len slot tkoff (fuel + 1) p table last_name =
      if p + 2 < len then
        if amos_deek m p = 0 then some (0, table)
        else
          match add_token tsize m (entry_key slot tkoff p) (entry_name p)
            (peek m (entry_type m len p)) table last_name with
          | none => none
          | some r =>
            if r.ret ≠ 0 then some (1, r.table)
            else parse_loop tsize m len slot tkoff fuel (entry_next m len p) r.table r.last_name
      else some (1, table) := rfl

theorem walk_end_lt (m : List Nat) (len fuel p q : Nat) (h : walk_end m len fuel p = some q) :
    p + 2 < len := by
  cases fuel with
  | zero => cases h
  | succ f =>
    rw [walk_end] at h
    by_contra hc
    rw [if_neg hc] at h
    cases h

/-- The loop returns 0 when the walk ends at an entry whose first pointer is zero. -/
theorem parse_loop_success (tsize : Nat) (m : List Nat) (len slot tkoff : Nat) (fuel : Nat) :
    ∀ (p q : Nat) (table : Table) (last_name : Option Nat), LastOk m last_name →
    walk_end m len fuel p = some q →
    ∃ T, parse_loop tsize m len slot tkoff fuel p table last_name = some (0, T) := by
  induction fuel with
  | zero => intro p q table last_name _ h; cases h
  | succ f ih =>
    intro p q table last_name hl h
    have hp := walk_end_lt m len _ p q h
    rw [walk_end, if_pos hp] at h
    rw [parse_loop_succ, if_pos hp]
    by_cases hz : amos_deek m p = 0
    · rw [if_pos hz]; exact ⟨table, rfl⟩
    · rw [if_neg hz] at h ⊢
      have hnext := walk_end_lt m len _ _ q h
      obtain ⟨t, h1, -, h3, -⟩ := entry_name_ended m len p (by omega)
      obtain ⟨r, hr, hlr⟩ := add_token_isSome tsize m (entry_key slot tkoff p) p
        (peek m (entry_type m len p)) table last_name hl ⟨t, h1, h3⟩
      have hret := (add_token_some _ _ _ _ _ _ _ _ hr).1
      rw [hr]
      simp only [hret, ne_eq, not_true_eq_false, if_false]
      exact ih _ q _ _ hlr h

/-- The loop returns 0 only when the walk ends at an entry whose first pointer is zero. -/
theorem parse_loop_walk (tsize : Nat) (m : List Nat) (len slot tkoff : Nat) (fuel : Nat) :
    ∀ (p : Nat) (table T : Table) (last_name : Option Nat),
    parse_loop tsize m len slot tkoff fuel p table last_name = some (0, T) →
    ∃ q, walk_end m len fuel p = some q := by
  induction fuel with
  | zero => intro p table T last_name h; cases h
  | succ f ih =>
    intro p table T last_name h
    rw [parse_loop_succ] at h
    rw [walk_end]
    by_cases hp : p + 2 < len
    · rw [if_pos hp] at h ⊢
      by_cases hz : amos_deek m p = 0
      · rw [if_pos hz]; exact ⟨p, rfl⟩
      · rw [if_neg hz] at h ⊢
        cases hr : add_token tsize m (entry_key slot tkoff p) (entry_name p)
            (peek m (entry_type m len p)) table last_name with
        | none => rw [hr] at h; cases h
        | some r =>
          rw [hr] at h
          have hret := (add_token_some _ _ _ _ _ _ _ _ hr).1
          simp only [hret, ne_eq, not_true_eq_false, if_false] at h
          exact ih _ _ _ _ h
    · rw [if_neg hp] at h
      cases h

/-- The loop returns 0 or 1. -/
theorem parse_loop_ret (tsize : Nat) (m : List Nat) (len slot tkoff : Nat) (fuel : Nat) :
    ∀ (p : Nat) (table : Table) (last_name : Option Nat) (r : Nat × Table),
    parse_loop tsize m len slot tkoff fuel p table last_name = some r → r.1 = 0 ∨ r.1 = 1 := by
  induction fuel with
  | zero => intro p table last_name r h; cases h
  | succ f ih =>
    intro p table last_name r h
    rw [parse_loop_succ] at h
    split_ifs at h with h1 h2
    · cases h; exact Or.inl rfl
    · cases hr : add_token tsize m (entry_key slot tkoff p) (entry_name p)
          (peek m (entry_type m len p)) table last_name with
      | none => rw [hr] at h; cases h
      | some x =>
        rw [hr] at h
        simp only at h
        split_ifs at h
        · cases h; exact Or.inr rfl
        · exact ih _ _ _ _ h
    · cases h; exact Or.inr rfl

/-- The loop returns, within its fuel, when the memory past the image holds a byte that
ends a name. -/
theorem parse_loop_total (tsize : Nat) (m : List Nat) (len slot tkoff : Nat) (i : Nat)
    (hi : len + 2 ≤ i) (hterm : 0x80 ≤ peek m i) (fuel : Nat) :
    ∀ (p : Nat) (table : Table) (last_name : Option Nat), LastOk m last_name →
    len < fuel + p → 1 ≤ fuel →
    ∃ r, parse_loop tsize m len slot tkoff fuel p table last_name = some r := by
  induction fuel with
  | zero => intro p table last_name _ _ h; omega
  | succ f ih =>
    intro p table last_name hl hf _
    rw [parse_loop_succ]
    by_cases hp : p + 2 < len
    · rw [if_pos hp]
      by_cases hz : amos_deek m p = 0
      · rw [if_pos hz]; exact ⟨_, rfl⟩
      · rw [if_neg hz]
        obtain ⟨r, hr, hlr⟩ := add_token_isSome tsize m (entry_key slot tkoff p) p
          (peek m (entry_type m len p)) table last_name hl
          ⟨i, by unfold entry_name; omega, hterm⟩
        have hret := (add_token_some _ _ _ _ _ _ _ _ hr).1
        rw [hr]
        simp only [hret, ne_eq, not_true_eq_false, if_false]
        have hn := entry_next_ge m len p
        exact ih _ _ _ hlr (by omega) (by omega)
    · rw [if_neg hp]; exact ⟨_, rfl⟩

theorem walk_end_zero (m : List Nat) (len : Nat) (fuel : Nat) : ∀ p q,
    walk_end m len fuel p = some q → amos_deek m q = 0 ∧ q + 2 < len ∧ p ≤ q := by
  induction fuel with
  | zero => intro p q h; cases h
  | succ f ih =>
    intro p q h
    have hp := walk_end_lt m len _ p q h
    rw [walk_end, if_pos hp] at h
    by_cases hz : amos_deek m p = 0
    · rw [if_pos hz] at h
      cases h
      exact ⟨hz, hp, Nat.le_refl _⟩
    · rw [if_neg hz] at h
      obtain ⟨a, b, c⟩ := ih _ _ h
      have := entry_next_ge m len p
      exact ⟨a, b, by omega⟩

/-- What holds of the loading contract for every image and every memory around it:
`AMOS_parse_extension`, with a `malloc` that never fails, returns failure for an
image shorter than 54 bytes, with a wrong longword at offset 0 or 24, or whose token-list
offset exceeds its length; it returns success exactly when the header is right and the walk
from `src[tkoff + start]` gets to an entry whose first 16-bit pointer is zero; whatever it
returns is 0 or 1, so a token list that runs out of the buffer without such an entry gives
failure; and it does return when the bytes past the image, which it reads in that last
case, hold a byte that ends a name. -/
theorem parse_extension_result (tsize : Nat) (m : List Nat) (len slot : Nat) (start : Int)
    (table : Table) :
    (len < 54 ∨ amos_leek m 0 ≠ 0x3f3 ∨ amos_leek m 24 ≠ 0x3e9 ∨ len < ext_tkoff m →
      AMOS_parse_extension tsize m len slot start table = some (1, table)) ∧
    ((∃ T, AMOS_parse_extension tsize m len slot start table = some (0, T)) ↔
      (54 ≤ len ∧ amos_leek m 0 = 0x3f3 ∧ amos_leek m 24 = 0x3e9 ∧ ext_tkoff m ≤ len ∧
        ∃ q, walk_end m len (len + 1) (walk_start m start) = some q)) ∧
    (∀ q, walk_end m len (len + 1) (walk_start m start) = some q →
      amos_deek m q = 0 ∧ q + 2 < len) ∧
    (∀ r, AMOS_parse_extension tsize m len slot start table = some r → r.1 = 0 ∨ r.1 = 1) ∧
    (∀ i, len + 2 ≤ i → 0x80 ≤ peek m i →
      ∃ r, AMOS_parse_extension tsize m len slot start table = some r) := by
  have hnone : LastOk m none := fun ln h => by cases h
  have hbad : len < 54 ∨ amos_leek m 0 ≠ 0x3f3 ∨ amos_leek m 24 ≠ 0x3e9 ∨ len < ext_tkoff m →
      AMOS_parse_extension tsize m len slot start table = some (1, table) := by
    intro h
    unfold AMOS_parse_extension
    by_cases h1 : len < 54
    · rw [if_pos h1]
    · rw [if_neg h1]
      by_cases h2 : amos_leek m 0 ≠ 0x3f3
      · rw [if_pos h2]
      · rw [if_neg h2]
        by_cases h3 : amos_leek m 24 ≠ 0x3e9
        · rw [if_pos h3]
        · rw [if_neg h3]
          have h4 : ext_tkoff m > len := by
            rcases h with h | h | h | h
            · exact absurd h h1
            · exact absurd h h2
            · exact absurd h h3
            · exact h
          simp only [h4, if_true]
  have hgood : 54 ≤ len → amos_leek m 0 = 0x3f3 → amos_leek m 24 = 0x3e9 → ext_tkoff m ≤ len →
      AMOS_parse_extension tsize m len slot start table =
        parse_loop tsize m len slot (ext_tkoff m) (len + 1) (walk_start m start) table none := by
    intro h1 h2 h3 h4
    unfold AMOS_parse_extension
    rw [if_neg (by omega), if_neg (by simp [h2]), if_neg (by simp [h3])]
    simp only [if_neg (show ¬ ext_tkoff m > len by omega)]
  refine ⟨hbad, ⟨?_, ?_⟩, fun q h => ⟨(walk_end_zero _ _ _ _ _ h).1, (walk_end_zero _ _ _ _ _ h).2.1⟩,
    ?_, ?_⟩
  · rintro ⟨T, hT⟩
    by_cases hb : len < 54 ∨ amos_leek m 0 ≠ 0x3f3 ∨ amos_leek m 24 ≠ 0x3e9 ∨ len < ext_tkoff m
    · rw [hbad hb] at hT
      cases hT
    · have h1 : 54 ≤ len := by
        by_contra hc; exact hb (Or.inl (by omega))
      have h2 : amos_leek m 0 = 0x3f3 := by
        by_contra hc; exact hb (Or.inr (Or.inl hc))
      have h3 : amos_leek m 24 = 0x3e9 := by
        by_contra hc; exact hb (Or.inr (Or.inr (Or.inl hc)))
      have h4 : ext_tkoff m ≤ len := by
        by_contra hc; exact hb (Or.inr (Or.inr (Or.inr (by omega))))
      rw [hgood h1 h2 h3 h4] at hT
      exact ⟨h1, h2, h3, h4, parse_loop_walk _ _ _ _ _ _ _ _ _ _ hT⟩
  · rintro ⟨h1, h2, h3, h4, q, hq⟩
    rw [hgood h1 h2 h3 h4]
    exact parse_loop_success _ _ _ _ _ _ _ q _ _ hnone hq
  · intro r hr
    by_cases hb : len < 54 ∨ amos_leek m 0 ≠ 0x3f3 ∨ amos_leek m 24 ≠ 0x3e9 ∨ len < ext_tkoff m
    · rw [hbad hb] at hr
      cases hr
      exact Or.inr rfl
    · have h1 : 54 ≤ len := by
        by_contra hc; exact hb (Or.inl (by omega))
      have h2 : amos_leek m 0 = 0x3f3 := by
        by_contra hc; exact hb (Or.inr (Or.inl hc))
      have h3 : amos_leek m 24 = 0x3e9 := by
        by_contra hc; exact hb (Or.inr (Or.inr (Or.inl hc)))
      have h4 : ext_tkoff m ≤ len := by
        by_contra hc; exact hb (Or.inr (Or.inr (Or.inr (by omega))))
      rw [hgood h1 h2 h3 h4] at hr
      exact parse_loop_ret _ _ _ _ _ _ _ _ _ _ hr
  · intro i hi hterm
    by_cases hb : len < 54 ∨ amos_leek m 0 ≠ 0x3f3 ∨ amos_leek m 24 ≠ 0x3e9 ∨ len < ext_tkoff m
    · exact ⟨_, hbad hb⟩
    · have h1 : 54 ≤ len := by
        by_contra hc; exact hb (Or.inl (by omega))
      have h2 : amos_leek m 0 = 0x3f3 := by
        by_contra hc; exact hb (Or.inr (Or.inl hc))
      have h3 : amos_leek m 24 = 0x3e9 := by
        by_contra hc; exact hb (Or.inr (Or.inr (Or.inl hc)))
      have h4 : ext_tkoff m ≤ len := by
        by_contra hc; exact hb (Or.inr (Or.inr (Or.inr (by omega))))
      rw [hgood h1 h2 h3 h4]
      exact parse_loop_total _ _ _ _ _ i hi hterm _ _ _ _ hnone (by omega) (by omega)

/-! ## C8: the keys of the entries walked -/

theorem entry_key_eq (slot tkoff p : Nat) (hslot : slot < 256) (h1 : tkoff ≤ p)
    (h2 : p < tkoff + 65536) : entry_key slot tkoff p = (slot <<< 16) ||| (p - tkoff) := by
  unfold entry_key
  have e : (((p : Int) - (tkoff : Int)) % 65536).toNat = p - tkoff := by
    omega
  rw [e, key_eq_mul_add _ _ (by omega)]
  omega

theorem walk_entries_bounds (m : List Nat) (len : Nat) (fuel : Nat) :
    ∀ (p q : Nat) (last_name : Option Nat) (e : Nat × Option Nat),
    e ∈ walk_entries m len fuel p last_name → walk_end m len fuel p = some q →
    p ≤ e.1 ∧ e.1 < q := by
  induction fuel with
  | zero => intro p q last_name e h; simp [walk_entries] at h
  | succ f ih =>
    intro p q last_name e h hq
    have hp := walk_end_lt m len _ p q hq
    rw [walk_entries] at h
    rw [walk_end, if_pos hp] at hq
    by_cases hz : amos_deek m p = 0
    · rw [if_neg (by simp [hz])] at h
      simp at h
    · rw [if_pos ⟨hp, hz⟩] at h
      rw [if_neg hz] at hq
      have hn := entry_next_ge m len p
      have hq2 := (walk_end_zero m len f _ q hq).2.2
      rcases List.mem_cons.mp h with h | h
      · rw [h]
        exact ⟨Nat.le_refl _, by show p < q; omega⟩
      · have := ih _ q _ e h hq
        omega

/-- Along a walk that stays within 65536 bytes of the token list, every entry walked is
found under its key, and no other key changes. -/
theorem parse_loop_found (tsize : Nat) (m : List Nat) (len slot tkoff : Nat)
    (hslot : slot < 256) (fuel : Nat) :
    ∀ (p q : Nat) (table T : Table) (last_name : Option Nat), tkoff ≤ p →
    parse_loop tsize m len slot tkoff fuel p table last_name = some (0, T) →
    walk_end m len fuel p = some q → q < tkoff + 65536 →
    (∀ e ∈ walk_entries m len fuel p last_name, ∀ nm ln,
      resolve_name m (entry_name e.1) e.2 = some (nm, ln) →
      ∃ text, token_text m nm (peek m (entry_type m len e.1)) = some text ∧
        lookup_token tsize slot (e.1 - tkoff) T = some text) ∧
    (∀ slot' off', (∀ e ∈ walk_entries m len fuel p last_name,
        (slot' <<< 16) ||| off' ≠ entry_key slot tkoff e.1) →
      lookup_token tsize slot' off' T = lookup_token tsize slot' off' table) := by
  induction fuel with
  | zero => intro p q table T last_name _ h; cases h
  | succ f ih =>
    intro p q table T last_name htk h hq hq65
    have hp := walk_end_lt m len _ p q hq
    rw [parse_loop_succ, if_pos hp] at h
    rw [walk_end, if_pos hp] at hq
    rw [walk_entries]
    by_cases hz : amos_deek m p = 0
    · rw [if_pos hz] at h
      cases h
      rw [if_neg (by simp [hz])]
      exact ⟨fun e he => by simp at he, fun _ _ _ => rfl⟩
    · rw [if_neg hz] at h hq
      rw [if_pos ⟨hp, hz⟩]
      cases hr : add_token tsize m (entry_key slot tkoff p) (entry_name p)
          (peek m (entry_type m len p)) table last_name with
      | none => rw [hr] at h; cases h
      | some r =>
        rw [hr] at h
        obtain ⟨hret, hlast, htab⟩ := add_token_some _ _ _ _ _ _ _ _ hr
        simp only [hret, ne_eq, not_true_eq_false, if_false] at h
        rw [hlast] at h
        have hn := entry_next_ge m len p
        obtain ⟨ihA, ihB⟩ := ih (entry_next m len p) q r.table T (next_last m p last_name)
          (by omega) h hq hq65
        have hq2 := (walk_end_zero m len f _ q hq).2.2
        have hkp := entry_key_eq slot tkoff p hslot htk (by omega)
        have hdiff : ∀ e ∈ walk_entries m len f (entry_next m len p) (next_last m p last_name),
            (slot <<< 16) ||| (p - tkoff) ≠ entry_key slot tkoff e.1 := by
          intro e he
          have hb := walk_entries_bounds m len f _ q _ e he hq
          rw [entry_key_eq slot tkoff e.1 hslot (by omega) (by omega),
            key_eq_mul_add _ _ (show p - tkoff < 65536 by omega),
            key_eq_mul_add _ _ (show e.1 - tkoff < 65536 by omega)]
          omega
        constructor
        · intro e he nm ln hres
          rcases List.mem_cons.mp he with he | he
          · subst he
            rcases htab with ⟨hnone, -⟩ | ⟨nm', ln', text, hres', htx, hT⟩
            · rw [hnone] at hres; cases hres
            · have : nm' = nm := by
                have := hres'.symm.trans hres
                cases this; rfl
              subst this
              refine ⟨text, htx, ?_⟩
              rw [ihB slot (p - tkoff) hdiff, hT, hkp]
              exact lookup_link_same _ _ _ _ _
          · exact ihA e he nm ln hres
        · intro slot' off' hne
          have h1 := ihB slot' off' (fun e he => hne e (List.mem_cons_of_mem _ he))
          rw [h1]
          rcases htab with ⟨-, hT⟩ | ⟨nm', ln', text, -, -, hT⟩
          · rw [hT]
          · rw [hT]
            exact lookup_link_other _ _ _ _ _ _ (hne (p, last_name) (List.mem_cons_self _ _))

theorem walk_start_eq (m : List Nat) (start : Nat) (h : ext_tkoff m + start < 2 ^ 32) :
    walk_start m (start : Int) = ext_tkoff m + start := by
  unfold walk_start
  omega

/-- C8, for a token list whose end-of-list entry lies less than 65536 bytes after its
start: when `AMOS_parse_extension` succeeds with slot `slot` (0..255) and start offset
`start`, every entry walked, unless it is skipped for a blank name with no remembered name,
is afterwards found by `lookup_token(slot, o)` with `o` the entry's byte offset from the
token-list start `tkoff`, and the text found is the one `add_token` builds from the entry's
name (the remembered one for a blank name) and the first byte of its type field. -/
theorem walked_entries_found (tsize : Nat) (m : List Nat) (len slot start : Nat)
    (table T : Table) (q : Nat) (hslot : slot < 256)
    (hst : ext_tkoff m + start < 2 ^ 32)
    (hres : AMOS_parse_extension tsize m len slot (start : Int) table = some (0, T))
    (hq : walk_end m len (len + 1) (ext_tkoff m + start) = some q)
    (hq65 : q < ext_tkoff m + 65536) :
    ∀ e ∈ walk_entries m len (len + 1) (ext_tkoff m + start) none, ∀ nm ln,
      resolve_name m (entry_name e.1) e.2 = some (nm, ln) →
      ∃ text, token_text m nm (peek m (entry_type m len e.1)) = some text ∧
        lookup_token tsize slot (e.1 - ext_tkoff m) T = some text := by
  have hloop : parse_loop tsize m len slot (ext_tkoff m) (len + 1) (ext_tkoff m + start) table
      none = some (0, T) := by
    unfold AMOS_parse_extension at hres
    rw [walk_start_eq m start hst] at hres
    simp only [gt_iff_lt] at hres
    split_ifs at hres
    all_goals first | exact hres | (exfalso; simp at hres)
  exact (parse_loop_found tsize m len slot (ext_tkoff m) hslot (len + 1) _ q table T none
    (Nat.le_add_right _ _) hloop hq hq65).1

/-! ## An entry 65536 bytes into the token list -/

theorem farPad_eq : farPad = 65536 := rfl

theorem hunkHeader_length : hunkHeader.length = 50 := rfl

theorem farImage_lo (i : Nat) (h : i < 50) : peek farImage i = peek hunkHeader i := by
  unfold farImage
  exact peek_append_left _ _ _ (by rw [hunkHeader_length]; exact h)

theorem farImage_mid (i : Nat) (h1 : 50 ≤ i) (h2 : i < 65586) : peek farImage i = 0 := by
  have hp := farPad_eq
  have e1 := peek_append_right hunkHeader
    (List.replicate farPad 0 ++ [0, 1, 0, 0, 0xE1, 0xFF, 0, 0, 0]) i
    (by rw [hunkHeader_length]; exact h1)
  have e2 := peek_append_left (List.replicate farPad 0) [0, 1, 0, 0, 0xE1, 0xFF, 0, 0, 0]
    (i - 50) (by rw [List.length_replicate]; omega)
  rw [hunkHeader_length] at e1
  have e3 : peek (List.replicate farPad 0) (i - 50) = 0 := by
    unfold peek
    rw [List.getD_eq_getElem?_getD, List.getElem?_replicate]
    split_ifs <;> rfl
  unfold farImage
  exact e1.trans (e2.trans e3)

theorem farImage_hi (n i : Nat) (h : n = 65586 + i) :
    peek farImage n = peek [0, 1, 0, 0, 0xE1, 0xFF, 0, 0, 0] i := by
  have hp := farPad_eq
  have e1 := peek_append_right hunkHeader
    (List.replicate farPad 0 ++ [0, 1, 0, 0, 0xE1, 0xFF, 0, 0, 0]) n
    (by rw [hunkHeader_length]; omega)
  have e2 := peek_append_right (List.replicate farPad 0) [0, 1, 0, 0, 0xE1, 0xFF, 0, 0, 0]
    (n - 50) (by rw [List.length_replicate]; omega)
  rw [hunkHeader_length] at e1
  rw [List.length_replicate] at e2
  have e4 : n - 50 - farPad = i := by omega
  rw [e4] at e2
  unfold farImage
  exact e1.trans e2

/-- The text `add_token` builds for the one-letter name `a`. -/
theorem token_text_a (m : List Nat) (name : Nat) (h : peek m name = 0xE1) :
    token_text m name 0xFF = some [32, 65] := by
  have hl := lt_length_of_peek m name (by rw [h]; decide)
  obtain ⟨F, hF⟩ : ∃ F, m.length + 1 - name = F + 1 := ⟨m.length - name, by omega⟩
  unfold token_text
  rw [hF]
  simp [name_len, copy_name, h]
  decide

/-- A walk over one entry named `a`, followed by the end of the list. -/
theorem one_entry_walk (tsize : Nat) (m : List Nat) (len slot tkoff p fuel : Nat)
    (table : Table) (h0 : peek m p = 0) (h1 : peek m (p + 1) = 1)
    (hn : peek m (p + 4) = 0xE1) (ht : peek m (p + 5) = 0xFF)
    (e0 : peek m (p + 6) = 0) (e1 : peek m (p + 7) = 0) (hlen : len = p + 9)
    (hp : p % 2 = 0) :
    parse_loop tsize m len slot tkoff (fuel + 2) p table none =
      some (0, link_token tsize ⟨entry_key slot tkoff p, [32, 65]⟩ table) ∧
    walk_end m len (fuel + 2) p = some (p + 6) ∧
    walk_entries m len (fuel + 2) p none = [(p, none)] ∧
    resolve_name m (entry_name p) none = some (p + 4, none) ∧
    token_text m (p + 4) (peek m (entry_type m len p)) = some [32, 65] := by
  have hd : amos_deek m p = 1 := by
    unfold amos_deek
    rw [h0, h1]
    rfl
  have hd6 : amos_deek m (p + 6) = 0 := amos_deek_zero m (p + 6) e0 e1
  have hty : entry_type m len p = p + 5 := by
    unfold entry_type entry_name
    rw [skip_below_stop _ _ _ _ _ (by rw [hn]; simp)]
  have hnx : entry_next m len p = p + 6 := by
    unfold entry_next
    rw [hty, skip_below_stop _ _ _ _ _ (by rw [ht]; simp)]
    simp only [Nat.and_one_is_mod]
    rw [if_neg (by omega)]
  have hres : resolve_name m (entry_name p) none = some (p + 4, none) := by
    unfold resolve_name entry_name
    rw [hn]
    rfl
  have htx := token_text_a m (p + 4) hn
  have hadd : add_token tsize m (entry_key slot tkoff p) (entry_name p)
      (peek m (entry_type m len p)) table none =
      some ⟨0, link_token tsize ⟨entry_key slot tkoff p, [32, 65]⟩ table, none⟩ := by
    unfold add_token
    rw [hres, hty, ht]
    simp only [htx]
  refine ⟨?_, ?_, ?_, hres, by rw [hty, ht]; exact htx⟩
  · rw [parse_loop_succ, if_pos (by omega), if_neg (by omega), hadd]
    simp only [ne_eq, not_true_eq_false, if_false]
    rw [hnx, parse_loop_succ, if_pos (by omega), if_pos hd6]
  · rw [walk_end, if_pos (by omega), if_neg (by omega), hnx, walk_end, if_pos (by omega),
      if_pos hd6]
  · rw [walk_entries, if_pos ⟨by omega, by omega⟩, hnx, walk_entries,
      if_neg (by rw [hd6]; simp)]

theorem farImage_tkoff : ext_tkoff farImage = 50 := by
  unfold ext_tkoff amos_leek
  rw [farImage_lo 32 (by omega), farImage_lo 33 (by omega), farImage_lo 34 (by omega),
    farImage_lo 35 (by omega), farImage_mid 50 (by omega) (by omega),
    farImage_mid 51 (by omega) (by omega), farImage_mid 52 (by omega) (by omega),
    farImage_mid 53 (by omega) (by omega)]
  rfl

theorem farImage_magic : amos_leek farImage 0 = 0x3f3 ∧ amos_leek farImage 24 = 0x3e9 := by
  unfold amos_leek
  rw [farImage_lo 0 (by omega), farImage_lo 1 (by omega), farImage_lo 2 (by omega),
    farImage_lo 3 (by omega), farImage_lo 24 (by omega), farImage_lo 25 (by omega),
    farImage_lo 26 (by omega), farImage_lo 27 (by omega)]
  exact ⟨rfl, rfl⟩

theorem farImage_start : walk_start farImage 65536 = 65586 := by
  unfold walk_start
  rw [farImage_tkoff]
  rfl

theorem farImage_walk (tsize : Nat) :
    parse_loop tsize farImage 65595 0 50 65596 65586 emptyTable none =
      some (0, link_token tsize ⟨entry_key 0 50 65586, [32, 65]⟩ emptyTable) ∧
    walk_end farImage 65595 65596 65586 = some 65592 ∧
    walk_entries farImage 65595 65596 65586 none = [(65586, none)] ∧
    resolve_name farImage (entry_name 65586) none = some (65590, none) ∧
    token_text farImage 65590 (peek farImage (entry_type farImage 65595 65586)) =
      some [32, 65] :=
  one_entry_walk tsize farImage 65595 0 50 65586 65594 emptyTable
    ((farImage_hi 65586 0 rfl).trans rfl) ((farImage_hi 65587 1 rfl).trans rfl)
    ((farImage_hi 65590 4 rfl).trans rfl) ((farImage_hi 65591 5 rfl).trans rfl)
    ((farImage_hi 65592 6 rfl).trans rfl) ((farImage_hi 65593 7 rfl).trans rfl) rfl rfl

theorem farImage_parse : AMOS_parse_extension 512 farImage 65595 0 65536 emptyTable =
    some (0, link_token 512 ⟨0, [32, 65]⟩ emptyTable) := by
  unfold AMOS_parse_extension
  rw [if_neg (by omega), if_neg (by rw [farImage_magic.1]; simp),
    if_neg (by rw [farImage_magic.2]; simp)]
  simp only [farImage_tkoff, farImage_start]
  rw [if_neg (by omega)]
  exact (farImage_walk 512).1

/-- C8 fails for an entry 65536 bytes after the start of the token list: on `farImage`,
`AMOS_parse_extension` with slot 0 and start offset 65536 succeeds and walks the entry at
index 65586, whose byte offset from the token-list start (index 50) is 65536, and builds the
text ` A` for it; but `lookup_token(0, 65536)` finds nothing in the table, because the entry
was stored under the key `65536 & 0xFFFF = 0`. -/
theorem far_entry_not_found :
    ext_tkoff farImage = 50 ∧
    AMOS_parse_extension 512 farImage 65595 0 65536 emptyTable =
      some (0, link_token 512 ⟨0, [32, 65]⟩ emptyTable) ∧
    walk_entries farImage 65595 65596 (walk_start farImage 65536) none = [(65586, none)] ∧
    resolve_name farImage (entry_name 65586) none = some (65590, none) ∧
    token_text farImage 65590 (peek farImage (entry_type farImage 65595 65586)) =
      some [32, 65] ∧
    lookup_token 512 0 (65586 - 50) (link_token 512 ⟨0, [32, 65]⟩ emptyTable) = none ∧
    lookup_token 512 0 0 (link_token 512 ⟨0, [32, 65]⟩ emptyTable) = some [32, 65] :=
  ⟨farImage_tkoff, farImage_parse,
    (congrArg (fun s => walk_entries farImage 65595 65596 s none) farImage_start).trans
      (farImage_walk 512).2.2.1,
    (farImage_walk 512).2.2.2.1, (farImage_walk 512).2.2.2.2, by decide, by decide⟩

/-! ## A name that runs out of the image -/

/-- C9 fails on `unendedImage` (57 bytes, header right, token list at offset 50): the walk
from index 50 finds no entry whose first 16-bit pointer is zero, the name at index 54 is not
ended by any byte of the image, and `add_token` measures it with `while (name[len] < 0x80)`,
which is not bounded by the buffer.  With nothing but the image in memory the call does not
return; with the two bytes `0, 0x80` behind the image it returns failure. -/
theorem parse_unended_name :
    walk_end unendedImage 57 (57 + 1) (walk_start unendedImage 0) = none ∧
    (∀ i, 54 ≤ i → i < 57 → peek unendedImage i < 0x80) ∧
    AMOS_parse_extension 512 unendedImage 57 0 0 emptyTable = none ∧
    ∃ T, AMOS_parse_extension 512 (unendedImage ++ [0, 0x80]) 57 0 0 emptyTable =
      some (1, T) :=
  ⟨by decide, by decide, rfl, _, rfl⟩

theorem walked_entries_found_witness :
    (0 < 256 ∧ ext_tkoff smallImage + 0 < 2 ^ 32 ∧
      AMOS_parse_extension 512 smallImage 73 0 ((0 : Nat) : Int) emptyTable =
        some (0, link_token 512 ⟨12, [79, 112, 101, 110]⟩
          (link_token 512 ⟨0, [32, 79, 112, 101, 110, 32]⟩ emptyTable)) ∧
      walk_end smallImage 73 (73 + 1) (ext_tkoff smallImage + 0) = some 70 ∧
      70 < ext_tkoff smallImage + 65536) ∧
    walk_entries smallImage 73 (73 + 1) (ext_tkoff smallImage + 0) none =
      [(50, none), (62, some 55)] ∧
    ∀ e ∈ walk_entries smallImage 73 (73 + 1) (ext_tkoff smallImage + 0) none, ∀ nm ln,
      resolve_name smallImage (entry_name e.1) e.2 = some (nm, ln) →
      ∃ text, token_text smallImage nm (peek smallImage (entry_type smallImage 73 e.1)) =
          some text ∧
        lookup_token 512 0 (e.1 - ext_tkoff smallImage)
          (link_token 512 ⟨12, [79, 112, 101, 110]⟩
            (link_token 512 ⟨0, [32, 79, 112, 101, 110, 32]⟩ emptyTable)) = some text :=
  ⟨⟨by decide, by decide, rfl, by decide, by decide⟩, by decide,
    walked_entries_found 512 smallImage 73 0 0 emptyTable _ 70 (by decide) (by decide) rfl
      (by decide) (by decide)⟩

/-! ## `AMOS_find_slot`: the order of preference -/

theorem getLast?_filterMap_cons (f : Nat → Option Int) (p : Nat) (rest : List Nat) (d : Int) :
    ((p :: rest).filterMap f).getLast?.getD d =
      (rest.filterMap f).getLast?.getD ((f p).getD d) := by
  cases h : f p with
  | none => rw [List.filterMap_cons_none h]; rfl
  | some v =>
    rw [List.filterMap_cons_some h, List.getLast?_cons]
    cases (rest.filterMap f).getLast? <;> rfl

theorem deek_eq_add (m : List Nat) (a : Nat) :
    amos_deek m a = peek m a * 256 + peek m (a + 1) := by
  unfold amos_deek
  have h := peek_lt m (a + 1)
  rw [Nat.shiftLeft_eq]
  have := Nat.mul_add_lt_is_or (i := 8) (b := peek m (a + 1)) (by simpa using h) (peek m a)
  rw [Nat.mul_comm] at this
  omega

theorem find_step_cands (slots : Nat) (m : List Nat) (e p : Nat) (s : FindState)
    (h : amos_deek m p ≠ 0x4E75) :
    (find_step slots m e p s).2 = true ∧
    (find_step slots m e p s).1.b = (moveq_slot slots m p).getD s.b ∧
    (find_step slots m e p s).1.l = (movel_slot slots m e p).getD s.l ∧
    (find_step slots m e p s).1.w = (movew_slot slots m e p).getD s.w := by
  simp only [find_step, moveq_slot, movel_slot, movew_slot, if_neg h]
  split_ifs <;> simp_all

theorem find_loop_cands (slots : Nat) (m : List Nat) (e : Nat) (fuel : Nat) :
    ∀ (p : Nat) (s : FindState),
    (find_loop slots m e fuel p s).b =
      ((scan_words m e fuel p).filterMap (moveq_slot slots m)).getLast?.getD s.b ∧
    (find_loop slots m e fuel p s).l =
      ((scan_words m e fuel p).filterMap (movel_slot slots m e)).getLast?.getD s.l ∧
    (find_loop slots m e fuel p s).w =
      ((scan_words m e fuel p).filterMap (movew_slot slots m e)).getLast?.getD s.w := by
  induction fuel with
  | zero => intro p s; exact ⟨rfl, rfl, rfl⟩
  | succ f ih =>
    intro p s
    rw [find_loop, scan_words]
    by_cases hp : p + 2 < e
    · by_cases hr : amos_deek m p = 0x4E75
      · have hs : find_step slots m e p s =
            (⟨s.b, s.w, s.l, s.reads ++ deek_reads p⟩, false) := by
          unfold find_step
          simp only []
          rw [if_pos hr]
        rw [if_pos hp, if_neg (show ¬ (p + 2 < e ∧ amos_deek m p ≠ 0x4E75) by simp [hr]), hs]
        exact ⟨rfl, rfl, rfl⟩
      · obtain ⟨h2, hb, hl, hw⟩ := find_step_cands slots m e p s hr
        rw [if_pos hp, if_pos (And.intro hp hr)]
        simp only [h2, if_true]
        obtain ⟨ib, il, iw⟩ := ih (p + 2) (find_step slots m e p s).1
        rw [ib, il, iw, hb, hl, hw, getLast?_filterMap_cons, getLast?_filterMap_cons,
          getLast?_filterMap_cons]
        exact ⟨rfl, rfl, rfl⟩
    · rw [if_neg hp, if_neg (by tauto)]
      exact ⟨rfl, rfl, rfl⟩

theorem mem_scan_words (m : List Nat) (e : Nat) (fuel : Nat) : ∀ c, e - c ≤ fuel → ∀ p,
    (p ∈ scan_words m e fuel c ↔
      ∃ k, p = c + 2 * k ∧ p + 2 < e ∧ ∀ j, j ≤ k → amos_deek m (c + 2 * j) ≠ 0x4E75) := by
  induction fuel with
  | zero =>
    intro c hc p
    simp only [scan_words, List.not_mem_nil, false_iff]
    rintro ⟨k, hk, hp, -⟩
    omega
  | succ f ih =>
    intro c hc p
    rw [scan_words]
    by_cases h : c + 2 < e ∧ amos_deek m c ≠ 0x4E75
    · rw [if_pos h, List.mem_cons, ih (c + 2) (by omega) p]
      constructor
      · rintro (rfl | ⟨k, hk, hp, hj⟩)
        · refine ⟨0, rfl, h.1, fun j hj => ?_⟩
          have : j = 0 := by omega
          subst this
          exact h.2
        · refine ⟨k + 1, by omega, hp, fun j hj' => ?_⟩
          cases j with
          | zero => exact h.2
          | succ i =>
            have := hj i (by omega)
            have e2 : c + 2 * (i + 1) = c + 2 + 2 * i := by ring
            rw [e2]
            exact this
      · rintro ⟨k, hk, hp, hj⟩
        cases k with
        | zero => left; omega
        | succ i =>
          right
          refine ⟨i, by omega, hp, fun j hj' => ?_⟩
          have := hj (j + 1) (by omega)
          have e2 : c + 2 * (j + 1) = c + 2 + 2 * j := by ring
          rw [e2] at this
          exact this
    · rw [if_neg h]
      simp only [List.not_mem_nil, false_iff]
      rintro ⟨k, hk, hp, hj⟩
      have h0 := hj 0 (Nat.zero_le _)
      apply h
      exact ⟨by omega, h0⟩

theorem moveq_slot_pos (slots : Nat) (m : List Nat) (ws : List Nat) (v : Int)
    (h : (ws.filterMap (moveq_slot slots m)).getLast? = some v) : v ≠ -1 := by
  have hm := List.mem_of_mem_getLast? (Option.mem_def.mpr h)
  rw [List.mem_filterMap] at hm
  obtain ⟨p, -, hp⟩ := hm
  unfold moveq_slot at hp
  split_ifs at hp
  cases hp
  omega

theorem movel_slot_pos (slots : Nat) (m : List Nat) (e : Nat) (ws : List Nat) (v : Int)
    (h : (ws.filterMap (movel_slot slots m e)).getLast? = some v) : v ≠ -1 := by
  have hm := List.mem_of_mem_getLast? (Option.mem_def.mpr h)
  rw [List.mem_filterMap] at hm
  obtain ⟨p, -, hp⟩ := hm
  unfold movel_slot at hp
  split_ifs at hp
  cases hp
  omega

theorem find_slot_eq_preferred (slots : Nat) (m : List Nat) (len : Nat) (hlen : 50 ≤ len)
    (hc : find_codeoff m ≤ len) (ht : find_titleoff m ≤ len) :
    AMOS_find_slot slots m len = preferred_slot slots m (find_titleoff m)
      (scan_words m (find_titleoff m) (find_titleoff m - find_codeoff m) (find_codeoff m)) := by
  unfold AMOS_find_slot find_slot_run
  rw [if_neg (by omega), if_neg (by omega)]
  obtain ⟨hb, hl, hw⟩ := find_loop_cands slots m (find_titleoff m)
    (find_titleoff m - find_codeoff m) (find_codeoff m) ⟨-1, -1, -1, header_reads⟩
  simp only [hb, hl, hw]
  unfold preferred_slot
  cases h1 : ((scan_words m (find_titleoff m) (find_titleoff m - find_codeoff m)
      (find_codeoff m)).filterMap (moveq_slot slots m)).getLast? with
  | some v =>
    have := moveq_slot_pos slots m _ v h1
    simp [this]
  | none =>
    cases h2 : ((scan_words m (find_titleoff m) (find_titleoff m - find_codeoff m)
        (find_codeoff m)).filterMap (movel_slot slots m (find_titleoff m))).getLast? with
    | some v =>
      have := movel_slot_pos slots m _ _ v h2
      simp [this]
    | none =>
      cases h3 : ((scan_words m (find_titleoff m) (find_titleoff m - find_codeoff m)
          (find_codeoff m)).filterMap (movew_slot slots m (find_titleoff m))).getLast? with
      | some v => simp
      | none => simp

theorem leek_eq_add (m : List Nat) (a : Nat) :
    amos_leek m a = peek m a * 2 ^ 24 + peek m (a + 1) * 2 ^ 16 + peek m (a + 2) * 2 ^ 8 +
      peek m (a + 3) := by
  unfold amos_leek
  exact leek_of_bytes _ _ _ _ (peek_lt m _) (peek_lt m _) (peek_lt m _)

theorem find_step_congr (slots : Nat) (m m' : List Nat) (e p : Nat) (s : FindState)
    (h1 : amos_deek m' p = amos_deek m p) (h2 : amos_deek m' (p + 2) = amos_deek m (p + 2))
    (h3 : amos_leek m' (p + 2) = amos_leek m (p + 2) ∨
      (slots < amos_leek m' (p + 2) ∧ slots < amos_leek m (p + 2))) :
    find_step slots m' e p s = find_step slots m e p s := by
  unfold find_step
  simp only [h1, h2]
  rcases h3 with h3 | ⟨h3, h4⟩
  · rw [h3]
  · rw [if_neg (show ¬ amos_leek m' (p + 2) ≤ slots by omega),
      if_neg (show ¬ amos_leek m (p + 2) ≤ slots by omega)]

theorem find_step_rts (slots : Nat) (m : List Nat) (e p : Nat) (s : FindState)
    (hr : amos_deek m p = 0x4E75) :
    find_step slots m e p s = (⟨s.b, s.w, s.l, s.reads ++ deek_reads p⟩, false) := by
  unfold find_step
  simp only []
  rw [if_pos hr]

/-- The scan does not depend on what lies behind a word 0x4E75 that it meets. -/
theorem find_loop_agree (slots : Nat) (m m' : List Nat) (e r : Nat)
    (hs : slots < 0x4E750000) (hr : amos_deek m r = 0x4E75)
    (hag : ∀ i, i < r + 2 → peek m' i = peek m i) (fuel : Nat) :
    ∀ (p : Nat) (s : FindState), (∃ k, r = p + 2 * k) →
    find_loop slots m' e fuel p s = find_loop slots m e fuel p s := by
  have hr' : amos_deek m' r = 0x4E75 := by
    rw [deek_eq_add, hag r (by omega), hag (r + 1) (by omega), ← deek_eq_add, hr]
  induction fuel with
  | zero => intro p s _; rfl
  | succ f ih =>
    intro p s hk
    obtain ⟨k, hk⟩ := hk
    rw [find_loop, find_loop]
    have hstep : find_step slots m' e p s = find_step slots m e p s := by
      cases k with
      | zero =>
        have hpr : p = r := by omega
        subst hpr
        rw [find_step_rts _ _ _ _ _ hr, find_step_rts _ _ _ _ _ hr']
      | succ i =>
        apply find_step_congr
        · rw [deek_eq_add, deek_eq_add, hag p (by omega), hag (p + 1) (by omega)]
        · rw [deek_eq_add, deek_eq_add, hag (p + 2) (by omega), hag (p + 2 + 1) (by omega)]
        · cases i with
          | zero =>
            right
            have hpr : p + 2 = r := by omega
            rw [hpr]
            have a1 := leek_eq_add m r
            have a2 := leek_eq_add m' r
            have b1 := deek_eq_add m r
            have b2 := deek_eq_add m' r
            have c1 := peek_lt m (r + 1)
            have c2 := peek_lt m' (r + 1)
            omega
          | succ j =>
            left
            rw [leek_eq_add, leek_eq_add, hag (p + 2) (by omega), hag (p + 2 + 1) (by omega),
              hag (p + 2 + 2) (by omega), hag (p + 2 + 3) (by omega)]
    rw [hstep]
    by_cases hp : p + 2 < e
    · rw [if_pos hp, if_pos hp]
      cases k with
      | zero =>
        have hpr : p = r := by omega
        subst hpr
        rw [find_step_rts _ _ _ _ _ hr]
        rfl
      | succ i =>
        simp only []
        rw [ih (p + 2) _ ⟨i, by omega⟩]
    · rw [if_neg hp, if_neg hp]

/-- C13 with the guards of the code: for an image that passes the bounds checks of
`AMOS_find_slot`, with `ws` the words the scan looks at (every second index `p` from the
code offset while `p + 2 < end`, up to the first word 0x4E75): the result is the
immediate + 1 of the last 8-bit `MOVEQ` among `ws` if there is one, whatever else occurs;
otherwise that of the last 32-bit move among `ws` with `p + 6 < end` and an in-range
immediate; otherwise that of the last 16-bit move among `ws` with `p + 4 < end` and an
in-range immediate; otherwise -1.  And an image that differs only behind a scanned word
0x4E75 gives the same result. -/
theorem find_slot_preference (slots : Nat) (m : List Nat) (len : Nat) (hlen : 50 ≤ len)
    (hc : find_codeoff m ≤ len) (ht : find_titleoff m ≤ len) (hs : slots < 0x4E750000) :
    (∀ p, p ∈ scan_words m (find_titleoff m) (find_titleoff m - find_codeoff m)
        (find_codeoff m) ↔
      ∃ k, p = find_codeoff m + 2 * k ∧ p + 2 < find_titleoff m ∧
        ∀ j, j ≤ k → amos_deek m (find_codeoff m + 2 * j) ≠ 0x4E75) ∧
    AMOS_find_slot slots m len = preferred_slot slots m (find_titleoff m)
      (scan_words m (find_titleoff m) (find_titleoff m - find_codeoff m) (find_codeoff m)) ∧
    ∀ (m' : List Nat) (k : Nat), find_codeoff m' = find_codeoff m →
      find_titleoff m' = find_titleoff m →
      amos_deek m (find_codeoff m + 2 * k) = 0x4E75 →
      (∀ i, i < find_codeoff m + 2 * k + 2 → peek m' i = peek m i) →
      AMOS_find_slot slots m' len = AMOS_find_slot slots m len := by
  refine ⟨mem_scan_words m _ _ _ (Nat.le_refl _), find_slot_eq_preferred slots m len hlen hc ht,
    ?_⟩
  intro m' k hc' ht' hr hag
  unfold AMOS_find_slot find_slot_run
  rw [hc', ht', find_loop_agree slots m m' _ _ hs hr hag _ _ _ ⟨k, rfl⟩]

/-! ## `AMOS_find_slot`: the range of the result and the bytes read -/

theorem moveq_imm_le (c : Nat) (h1 : 0x7000 ≤ c) (h2 : c ≤ (0x7000 ||| 25)) :
    c &&& 0xFF ≤ 25 := by
  have h3 : (0x7000 ||| 25) = 0x7019 := by decide
  rw [h3] at h2
  interval_cases c <;> decide

theorem find_step_ok (m : List Nat) (e p : Nat) (s : FindState)
    (hb : SlotOk s.b) (hw : SlotOk s.w) (hl : SlotOk s.l) :
    SlotOk (find_step 25 m e p s).1.b ∧ SlotOk (find_step 25 m e p s).1.w ∧
      SlotOk (find_step 25 m e p s).1.l := by
  unfold find_step
  simp only []
  split_ifs with h1 h2 h3 h4 h5 h6
  · exact ⟨hb, hw, hl⟩
  · refine ⟨Or.inr ?_, hw, hl⟩
    have := moveq_imm_le _ h2.1 h2.2
    show 1 ≤ ((amos_deek m p &&& 0xFF : Nat) : Int) + 1 ∧
      ((amos_deek m p &&& 0xFF : Nat) : Int) + 1 ≤ 26
    omega
  · refine ⟨hb, Or.inr ?_, hl⟩
    show 1 ≤ ((amos_deek m (p + 2) : Nat) : Int) + 1 ∧
      ((amos_deek m (p + 2) : Nat) : Int) + 1 ≤ 26
    omega
  · exact ⟨hb, hw, hl⟩
  · refine ⟨hb, hw, Or.inr ?_⟩
    show 1 ≤ ((amos_leek m (p + 2) : Nat) : Int) + 1 ∧
      ((amos_leek m (p + 2) : Nat) : Int) + 1 ≤ 26
    omega
  · exact ⟨hb, hw, hl⟩
  · exact ⟨hb, hw, hl⟩

theorem find_loop_ok (m : List Nat) (e : Nat) (fuel : Nat) : ∀ (p : Nat) (s : FindState),
    SlotOk s.b → SlotOk s.w → SlotOk s.l →
    SlotOk (find_loop 25 m e fuel p s).b ∧ SlotOk (find_loop 25 m e fuel p s).w ∧
      SlotOk (find_loop 25 m e fuel p s).l := by
  induction fuel with
  | zero => intro p s hb hw hl; exact ⟨hb, hw, hl⟩
  | succ f ih =>
    intro p s hb hw hl
    rw [find_loop]
    obtain ⟨h1, h2, h3⟩ := find_step_ok m e p s hb hw hl
    by_cases hp : p + 2 < e
    · rw [if_pos hp]
      simp only []
      by_cases h : (find_step 25 m e p s).2 = true
      · rw [if_pos h]
        exact ih _ _ h1 h2 h3
      · rw [if_neg h]
        exact ⟨h1, h2, h3⟩
    · rw [if_neg hp]
      exact ⟨hb, hw, hl⟩

/-- C14 as the code has it, with `AMOS_EXTENSION_SLOTS` = 25: for every image
`AMOS_find_slot` returns -1 or a number from 1 to 26. -/
theorem find_slot_range (m : List Nat) (len : Nat) :
    AMOS_find_slot 25 m len = -1 ∨ (1 ≤ AMOS_find_slot 25 m len ∧ AMOS_find_slot 25 m len ≤ 26) := by
  unfold AMOS_find_slot find_slot_run
  split_ifs with h1 h2
  · left; rfl
  · left; rfl
  · have hm : SlotOk (-1) := Or.inl rfl
    obtain ⟨hb, hw, hl⟩ := find_loop_ok m (find_titleoff m) (find_titleoff m - find_codeoff m)
      (find_codeoff m) ⟨-1, -1, -1, header_reads⟩ hm hm hm
    simp only []
    split_ifs
    · exact hb
    · exact hl
    · exact hw

/-- C14 fails for the image `moveqImage` of 54 bytes, whose code region (offsets 50 to 53)
holds the word 0x7019, `MOVEQ #25,D0`: with `AMOS_EXTENSION_SLOTS` = 25 the word passes the
test `c <= (0x7000 | 25)` and `AMOS_find_slot` returns 26. -/
theorem find_slot_returns_26 :
    find_codeoff moveqImage = 50 ∧ find_titleoff moveqImage = 54 ∧
      amos_deek moveqImage 50 = 0x7019 ∧ AMOS_find_slot 25 moveqImage 54 = 26 := by
  decide

/-- C15: for a buffer shorter than 50 bytes `AMOS_find_slot` returns -1 and reads no byte;
for a buffer of 50 bytes or more whose code offset or title offset, as they are after the
"AP20" adjustment, exceeds the length, it returns -1. -/
theorem find_slot_rejects (slots : Nat) (m : List Nat) (len : Nat) :
    (len < 50 → find_slot_run slots m len = (-1, [])) ∧
    (50 ≤ len → find_codeoff m > len ∨ find_titleoff m > len →
      AMOS_find_slot slots m len = -1) := by
  constructor
  · intro h
    unfold find_slot_run
    rw [if_pos h]
  · intro h1 h2
    unfold AMOS_find_slot find_slot_run
    rw [if_neg (by omega), if_pos h2]

theorem find_slot_rejects_witness :
    (find_slot_run 25 (List.replicate 49 0x7F) 49 = (-1, [])) ∧
    (find_codeoff (List.replicate 38 0 ++ [1, 0] ++ List.replicate 10 0) > 50 ∧
      AMOS_find_slot 25 (List.replicate 38 0 ++ [1, 0] ++ List.replicate 10 0) 50 = -1) :=
  ⟨(find_slot_rejects 25 (List.replicate 49 0x7F) 49).1 (by decide),
    by decide,
    (find_slot_rejects 25 (List.replicate 38 0 ++ [1, 0] ++ List.replicate 10 0) 50).2
      (by decide) (Or.inl (by decide))⟩

theorem find_slot_preference_witness :
    (50 ≤ 68 ∧ find_codeoff idiomImage = 50 ∧ find_titleoff idiomImage = 68 ∧
      25 < 0x4E750000) ∧
    scan_words idiomImage 68 (68 - 50) 50 = [50, 52, 54, 56, 58, 60] ∧
    AMOS_find_slot 25 idiomImage 68 = 6 ∧
    AMOS_find_slot 25 idiomImage 68 = preferred_slot 25 idiomImage (find_titleoff idiomImage)
      (scan_words idiomImage (find_titleoff idiomImage)
        (find_titleoff idiomImage - find_codeoff idiomImage) (find_codeoff idiomImage)) ∧
    AMOS_find_slot 25 (idiomImage.take 64 ++ [0x70, 0x01, 0x70, 0x02]) 68 =
      AMOS_find_slot 25 idiomImage 68 :=
  ⟨by decide, by decide, by decide,
    (find_slot_preference 25 idiomImage 68 (by decide) (by decide) (by decide) (by decide)).2.1,
    (find_slot_preference 25 idiomImage 68 (by decide) (by decide) (by decide)
      (by decide)).2.2 (idiomImage.take 64 ++ [0x70, 0x01, 0x70, 0x02]) 6 (by decide)
      (by decide) (by decide) (by decide)⟩

theorem find_step_reads (slots : Nat) (m : List Nat) (e p len : Nat) (s : FindState)
    (hp : p + 2 < e) (he : e ≤ len) (hs : ∀ i ∈ s.reads, i < len) :
    ∀ i ∈ (find_step slots m e p s).1.reads, i < len := by
  unfold find_step
  simp only [deek_reads, leek_reads]
  split_ifs with h1 h2 h3 h4 h5 h6 <;> intro i hi <;>
    simp only [List.mem_append, List.mem_cons, List.mem_singleton, List.not_mem_nil,
      or_false] at hi
  · rcases hi with hi | hi | hi
    · exact hs i hi
    all_goals omega
  · rcases hi with hi | hi | hi
    · exact hs i hi
    all_goals omega
  · rcases hi with (hi | hi | hi) | hi | hi
    · exact hs i hi
    all_goals omega
  · rcases hi with (hi | hi | hi) | hi | hi
    · exact hs i hi
    all_goals omega
  · rcases hi with (hi | hi | hi) | hi | hi | hi | hi
    · exact hs i hi
    all_goals omega
  · rcases hi with (hi | hi | hi) | hi | hi | hi | hi
    · exact hs i hi
    all_goals omega
  · rcases hi with hi | hi | hi
    · exact hs i hi
    all_goals omega

theorem find_loop_reads (slots : Nat) (m : List Nat) (e len : Nat) (he : e ≤ len)
    (fuel : Nat) : ∀ (p : Nat) (s : FindState), (∀ i ∈ s.reads, i < len) →
    ∀ i ∈ (find_loop slots m e fuel p s).reads, i < len := by
  induction fuel with
  | zero => intro p s hs; exact hs
  | succ f ih =>
    intro p s hs
    rw [find_loop]
    by_cases hp : p + 2 < e
    · rw [if_pos hp]
      simp only []
      have h1 := find_step_reads slots m e p len s hp he hs
      by_cases h : (find_step slots m e p s).2 = true
      · rw [if_pos h]
        exact ih _ _ h1
      · rw [if_neg h]
        exact h1
    · rw [if_neg hp]
      exact hs

/-- From 54 bytes on, every byte that `AMOS_find_slot` reads lies inside the image. -/
theorem find_slot_reads_inside (slots : Nat) (m : List Nat) (len : Nat) (h : 54 ≤ len) :
    ∀ i ∈ (find_slot_run slots m len).2, i < len := by
  have hh : ∀ i ∈ header_reads, i < len := by
    intro i hi
    simp only [header_reads, leek_reads, List.mem_append, List.mem_cons, List.mem_singleton,
      List.not_mem_nil, or_false] at hi
    omega
  unfold find_slot_run
  split_ifs with h1 h2
  · omega
  · exact hh
  · exact find_loop_reads slots m _ len (by omega) _ _ _ hh

/-- C20 fails for a buffer of 50 zero bytes: `AMOS_find_slot` passes the test `len < 50` and
reads, for the "AP20" check, the four bytes at indices 50 to 53, which lie past the end of
the buffer. -/
theorem find_slot_reads_past_end :
    (find_slot_run 25 (List.replicate 50 0) 50).2 =
      [32, 33, 34, 35, 36, 37, 38, 39, 40, 41, 42, 43, 50, 51, 52, 53] ∧
    ¬ ∀ i ∈ (find_slot_run 25 (List.replicate 50 0) 50).2, i < 50 := by
  decide

/-! ## `print_binary` -/

theorem binary_value_append (ds : List Nat) (d : Nat) :
    binary_value (ds ++ [d]) = 2 * binary_value ds + (d - 48) := by
  unfold binary_value
  rw [List.foldl_append]
  rfl

theorem print_binary_loop_spec (fuel : Nat) : ∀ (v : Nat) (acc : List Nat), v < 2 ^ (fuel + 1) →
    ∃ ds, print_binary_loop (fuel + 1) v acc = ds ++ acc ∧
      (∀ d ∈ ds, d = 48 ∨ d = 49) ∧ binary_value ds = v ∧
      (v = 0 → ds = [48]) ∧ (v ≠ 0 → ds.head? = some 49) ∧
      1 ≤ ds.length ∧ ds.length ≤ fuel + 1 := by
  induction fuel with
  | zero =>
    intro v acc hv
    have hv2 : v = 0 ∨ v = 1 := by omega
    rcases hv2 with rfl | rfl
    · exact ⟨[48], rfl, by simp, rfl, fun _ => rfl, fun h => absurd rfl h, by simp, by simp⟩
    · exact ⟨[49], rfl, by simp, rfl, fun h => by omega, fun _ => rfl, by simp, by simp⟩
  | succ f ih =>
    intro v acc hv
    rw [print_binary_loop]
    simp only [Nat.and_one_is_mod, Nat.shiftRight_one]
    have hd : (if v % 2 ≠ 0 then 49 else 48) = 48 + v % 2 := by
      split_ifs <;> omega
    by_cases h0 : v / 2 = 0
    · rw [if_neg (by simp [h0])]
      refine ⟨[if v % 2 ≠ 0 then 49 else 48], rfl, ?_, ?_, ?_, ?_, by simp, by simp⟩
      · intro d hd'
        rw [List.mem_singleton] at hd'
        rw [hd'] 
        split_ifs
        · right; rfl
        · left; rfl
      · unfold binary_value
        simp only [List.foldl_cons, List.foldl_nil, hd]
        omega
      · intro hv0
        subst hv0
        rfl
      · intro hv0
        have : v % 2 ≠ 0 := by omega
        rw [if_pos this]
        rfl
    · rw [if_pos h0]
      obtain ⟨ds, e1, e2, e3, -, e5, e6, e7⟩ := ih (v / 2)
        ((if v % 2 ≠ 0 then 49 else 48) :: acc) (by
          have : 2 ^ (f + 1 + 1) = 2 * 2 ^ (f + 1) := by ring
          omega)
      refine ⟨ds ++ [if v % 2 ≠ 0 then 49 else 48], ?_, ?_, ?_, ?_, ?_, ?_, ?_⟩
      · rw [e1]
        simp
      · intro d hd'
        rw [List.mem_append, List.mem_singleton] at hd'
        rcases hd' with hd' | hd'
        · exact e2 d hd'
        · rw [hd']
          split_ifs
          · right; rfl
          · left; rfl
      · rw [binary_value_append, e3, hd]
        omega
      · intro hv0
        omega
      · intro _
        have := e5 h0
        cases ds with
        | nil => cases this
        | cons a t => exact this
      · simp
      · simp
        omega

/-- C16: for every 32-bit `v`, `print_binary` writes '%' and then a string of the digits
'0' and '1' that reads back as `v`, most significant digit first; the string is "0" when
`v = 0` and starts with '1' otherwise, and it has between 1 and 32 digits. -/
theorem print_binary_digits (v : Nat) (hv : v < 2 ^ 32) :
    ∃ ds, print_binary v = 37 :: ds ∧ (∀ d ∈ ds, d = 48 ∨ d = 49) ∧ binary_value ds = v ∧
      (v = 0 → ds = [48]) ∧ (v ≠ 0 → ds.head? = some 49) ∧
      1 ≤ ds.length ∧ ds.length ≤ 32 := by
  obtain ⟨ds, e1, e2, e3, e4, e5, e6, e7⟩ := print_binary_loop_spec 31 v [] hv
  refine ⟨ds, ?_, e2, e3, e4, e5, e6, e7⟩
  unfold print_binary
  rw [Nat.mod_eq_of_lt hv, e1, List.append_nil]

theorem print_binary_digits_witness :
    (print_binary 0 = str "%0" ∧ print_binary 5 = str "%101" ∧
      print_binary 255 = str "%11111111") ∧
    (5 < 2 ^ 32 ∧ ∃ ds, print_binary 5 = 37 :: ds ∧ (∀ d ∈ ds, d = 48 ∨ d = 49) ∧
      binary_value ds = 5 ∧ (5 = 0 → ds = [48]) ∧ (5 ≠ 0 → ds.head? = some 49) ∧
      1 ≤ ds.length ∧ ds.length ≤ 32) :=
  ⟨by decide, by decide, print_binary_digits 5 (by decide)⟩

/-! ## `print_float` -/

theorem any_point (t : List Nat) :
    t.any (fun c => c = 46 || c = 69) = true ↔ (46 ∈ t ∨ 69 ∈ t) := by
  simp only [List.any_eq_true, Bool.or_eq_true, decide_eq_true_eq]
  constructor
  · rintro ⟨c, hc, rfl | rfl⟩
    · left; exact hc
    · right; exact hc
  · rintro (h | h)
    · exact ⟨46, h, Or.inl rfl⟩
    · exact ⟨69, h, Or.inr rfl⟩

/-- C17: for every raw value, with `fmtG` the `%G` conversion (of at most 29 characters, the
room in the buffer), the text `print_float` writes has a '.' or an 'E' in it; it is the `%G`
text of the float with the bit pattern `float_bits value`, followed by ".0" exactly when
that text has neither; the bit pattern for the raw value 0 is 0, and then, when `%G` gives
"0" for it, the text is "0.0". -/
theorem print_float_text (fmtG : Nat → List Nat) (value : Nat)
    (hG : (fmtG (float_bits value)).length ≤ 29) :
    (46 ∈ print_float fmtG value ∨ 69 ∈ print_float fmtG value) ∧
    print_float fmtG value = fmtG (float_bits value) ++
      (if (46 ∈ fmtG (float_bits value) ∨ 69 ∈ fmtG (float_bits value)) then []
        else str ".0") ∧
    float_bits 0 = 0 ∧
    (value = 0 → fmtG 0 = str "0" → print_float fmtG value = str "0.0") := by
  have e : print_float fmtG value = fmtG (float_bits value) ++
      (if (46 ∈ fmtG (float_bits value) ∨ 69 ∈ fmtG (float_bits value)) then []
        else str ".0") := by
    unfold print_float
    simp only []
    have hb : (if value ≠ 0 then
        ((((value >>> 7) &&& 1) <<< 31) ||| ((((value &&& 0x7F) + 62) &&& 0xFF) <<< 23) |||
          ((value >>> 8) &&& 0x7FFFFF)) % 2 ^ 32 else 0) = float_bits value := rfl
    rw [hb, List.take_of_length_le hG]
    by_cases hp : (46 ∈ fmtG (float_bits value) ∨ 69 ∈ fmtG (float_bits value))
    · rw [if_pos ((any_point _).mpr hp), if_pos hp, List.append_nil]
    · rw [if_neg (fun h => hp ((any_point _).mp h)), if_neg hp]
  refine ⟨?_, e, rfl, ?_⟩
  · rw [e]
    by_cases hp : (46 ∈ fmtG (float_bits value) ∨ 69 ∈ fmtG (float_bits value))
    · rw [if_pos hp, List.append_nil]
      exact hp
    · rw [if_neg hp]
      left
      simp [str]
  · intro hv h0
    subst hv
    rw [e]
    have : float_bits 0 = 0 := rfl
    rw [this, h0]
    decide

theorem print_float_text_witness :
    (str "0").length ≤ 29 ∧
    ((46 ∈ print_float (fun _ => str "0") 0 ∨ 69 ∈ print_float (fun _ => str "0") 0) ∧
      print_float (fun _ => str "0") 0 = (fun _ => str "0") (float_bits 0) ++
        (if (46 ∈ (fun _ => str "0") (float_bits 0) ∨ 69 ∈ (fun _ => str "0") (float_bits 0))
          then [] else str ".0") ∧
      float_bits 0 = 0 ∧
      ((0 : Nat) = 0 → (fun _ => str "0") 0 = str "0" →
        print_float (fun _ => str "0") 0 = str "0.0")) :=
  ⟨by decide, print_float_text (fun _ => str "0") 0 (by decide)⟩

/-! ## The text that `add_token` builds -/

set_option maxRecDepth 100000 in
theorem low_bits : ∀ c < 256, 0x80 ≤ c → c &&& 0x7F = c - 128 := by
  decide

theorem bytesAt_tail (m : List Nat) (a c : Nat) (bs : List Nat) (h : BytesAt m a (c :: bs)) :
    peek m a = c ∧ BytesAt m (a + 1) bs := by
  constructor
  · exact h 0 (by simp)
  · intro i hi
    have := h (i + 1) (by simp; omega)
    rw [show a + 1 + i = a + (i + 1) by omega, this]
    rfl

theorem copy_name_eq (m : List Nat) (t : Nat) (ht : 0x80 ≤ t) (ht' : t < 256) :
    ∀ (cs : List Nat) (fuel name : Nat) (up : Bool), (∀ c ∈ cs, c < 0x80) →
    BytesAt m name (cs ++ [t]) → cs.length < fuel →
    copy_name fuel m name up = some (raise_words up (cs ++ [t - 128])) := by
  intro cs
  induction cs with
  | nil =>
    intro fuel name up _ hat hf
    obtain ⟨f, rfl⟩ : ∃ f, fuel = f + 1 := ⟨fuel - 1, by simp at hf; omega⟩
    have hp : peek m name = t := (bytesAt_tail m name t [] hat).1
    have hd : t &&& 0x80 ≠ 0 := (high_bit_iff t ht').mpr ht
    have hl := low_bits t ht' ht
    rw [copy_name]
    simp only [hp, hd, hl, List.nil_append, raise_words, ne_eq, not_false_eq_true, if_true]
    split_ifs <;> rfl
  | cons c cs ih =>
    intro fuel name up hcs hat hf
    obtain ⟨f, rfl⟩ : ∃ f, fuel = f + 1 := ⟨fuel - 1, by simp at hf; omega⟩
    obtain ⟨hp, hat'⟩ := bytesAt_tail m name c (cs ++ [t]) hat
    have hc : c < 0x80 := hcs c (List.mem_cons_self _ _)
    have hd : ¬ (c &&& 0x80 ≠ 0) := fun h => by
      have := (high_bit_iff c (by omega)).mp h
      omega
    have hcs' : ∀ c ∈ cs, c < 0x80 := fun x hx => hcs x (List.mem_cons_of_mem _ hx)
    have hf' : cs.length < f := by simp at hf; omega
    rw [copy_name]
    simp only [hp, hd, if_false, List.cons_append, raise_words]
    split_ifs <;> simp [ih f (name + 1) _ hcs' hat' hf']

theorem raise_words_length : ∀ (bs : List Nat) (up : Bool),
    (raise_words up bs).length = bs.length := by
  intro bs
  induction bs with
  | nil => intro up; rfl
  | cons c cs ih =>
    intro up
    rw [raise_words]
    split_ifs <;> simp [ih]

theorem raise_words_eq_capitalise : ∀ (bs : List Nat) (up : Bool),
    (∀ c ∈ bs, ¬ (65 ≤ c ∧ c ≤ 90)) → raise_words up bs = capitalise_words up bs := by
  intro bs
  induction bs with
  | nil => intro up _; rfl
  | cons c cs ih =>
    intro up h
    have hc := h c (List.mem_cons_self _ _)
    have hcs : ∀ c ∈ cs, ¬ (65 ≤ c ∧ c ≤ 90) := fun x hx => h x (List.mem_cons_of_mem _ hx)
    rw [raise_words, capitalise_words, if_neg hc]
    split_ifs <;> rw [ih _ hcs]

/-- The text that `add_token` builds for the raw name `cs ++ [t]` at index `name`. -/
theorem token_text_eq (m : List Nat) (name type : Nat) (cs : List Nat) (t : Nat)
    (hn : RawName cs t) (hat : BytesAt m name (cs ++ [t])) :
    token_text m name type = some
      ((if (cs ++ [t]).head? ≠ some 32 ∧ type ≠ 79 ∧ type ≠ 48 ∧ type ≠ 49 ∧ type ≠ 50 ∧
          type ≠ 86 then [32] else []) ++
        raise_words true (cs ++ [t - 128]) ++ (if type = 73 then [32] else [])) := by
  obtain ⟨hcs, ht, ht'⟩ := hn
  have hlast : peek m (name + cs.length) = t := by
    have := hat cs.length (by simp)
    rw [this]
    simp [List.getD_eq_getElem?_getD]
  have hl := lt_length_of_peek m (name + cs.length) (by rw [hlast]; exact ht)
  obtain ⟨n, hnl⟩ := name_len_isSome m (m.length + 1 - name) name (name + cs.length)
    (by omega) (by rw [hlast]; exact ht) (by omega)
  have hcp := copy_name_eq m t ht ht' cs (m.length + 1 - name) name true hcs hat (by omega)
  have hhead : peek m name = ((cs ++ [t]).head?).getD 0 := by
    have := hat 0 (by simp)
    rw [Nat.add_zero] at this
    rw [this]
    cases cs <;> rfl
  have hcond : (peek m name ≠ 32) ↔ ((cs ++ [t]).head? ≠ some 32) := by
    rw [hhead]
    cases cs with
    | nil => simp
    | cons a l => simp
  unfold token_text
  simp only [hnl, hcp, hcond]

theorem add_token_text (tsize : Nat) (m : List Nat) (key name type : Nat) (table : Table)
    (last_name : Option Nat) (nm : Nat) (ln : Option Nat) (cs : List Nat) (t : Nat)
    (hres : resolve_name m name last_name = some (nm, ln))
    (hn : RawName cs t) (hat : BytesAt m nm (cs ++ [t])) :
    add_token tsize m key name type table last_name = some ⟨0, link_token tsize ⟨key,
      (if (cs ++ [t]).head? ≠ some 32 ∧ type ≠ 79 ∧ type ≠ 48 ∧ type ≠ 49 ∧ type ≠ 50 ∧
          type ≠ 86 then [32] else []) ++
        raise_words true (cs ++ [t - 128]) ++ (if type = 73 then [32] else [])⟩ table, ln⟩ := by
  unfold add_token
  rw [hres]
  simp only [token_text_eq m nm type cs t hn hat]

theorem resolve_name_cases (m : List Nat) (name : Nat) (last_name : Option Nat) (nm : Nat)
    (ln : Option Nat) (hres : resolve_name m name last_name = some (nm, ln)) :
    (peek m name = 0x80 → last_name = some nm ∧ ln = last_name) ∧
    (peek m name = 33 → nm = name + 1 ∧ ln = some (name + 1)) ∧
    (peek m name ≠ 0x80 → peek m name ≠ 33 → nm = name ∧ ln = last_name) := by
  unfold resolve_name at hres
  refine ⟨fun h => ?_, fun h => ?_, fun h1 h2 => ?_⟩
  · rw [if_pos h] at hres
    cases last_name with
    | none => cases hres
    | some x =>
      simp only [Option.map_some', Option.some.injEq, Prod.mk.injEq] at hres
      exact ⟨by rw [hres.1], hres.2.symm⟩
  · rw [if_neg (by rw [h]; decide), if_pos h] at hres
    simp only [Option.some.injEq, Prod.mk.injEq] at hres
    exact ⟨hres.1.symm, hres.2.symm⟩
  · rw [if_neg h1, if_neg h2] at hres
    simp only [Option.some.injEq, Prod.mk.injEq] at hres
    exact ⟨hres.1.symm, hres.2.symm⟩

theorem raise_words_eq_first : ∀ (bs : List Nat) (up : Bool),
    lower_initials up bs = true → raise_words up bs = capitalise_first up bs := by
  intro bs
  induction bs with
  | nil => intro up _; rfl
  | cons c cs ih =>
    intro up h
    rw [lower_initials] at h
    rw [raise_words, capitalise_first]
    by_cases h1 : 97 ≤ c ∧ c ≤ 122
    · rw [if_pos h1] at h
      rw [if_pos h1, if_pos h1, ih _ h]
    · rw [if_neg h1] at h
      rw [if_neg h1, if_neg h1]
      by_cases h2 : 65 ≤ c ∧ c ≤ 90
      · rw [if_pos h2] at h
        rw [if_pos h2, if_neg (by omega)]
        simp only [Bool.and_eq_true, Bool.not_eq_true'] at h
        rw [h.1, ih _ h.2]
      · rw [if_neg h2] at h
        rw [if_neg h2]
        by_cases h3 : c = 32
        · rw [if_pos h3] at h
          rw [if_pos h3, if_pos h3, ih _ h]
        · rw [if_neg h3] at h
          rw [if_neg h3, if_neg h3, ih _ h]

theorem lower_initials_of_no_upper : ∀ (bs : List Nat) (up : Bool),
    (∀ c ∈ bs, ¬ (65 ≤ c ∧ c ≤ 90)) → lower_initials up bs = true := by
  intro bs
  induction bs with
  | nil => intro up _; rfl
  | cons c cs ih =>
    intro up h
    have hc := h c (List.mem_cons_self _ _)
    have hcs : ∀ c ∈ cs, ¬ (65 ≤ c ∧ c ≤ 90) := fun x hx => h x (List.mem_cons_of_mem _ hx)
    rw [lower_initials, if_neg hc]
    split_ifs <;> exact ih _ hcs

/-- C11 as the code has it by design: when `add_token` goes on with the name at `nm` (the
raw name, without a leading '!', or the remembered name for a blank name), whose characters
are `cs` and, without its high bit, `t - 128`, and no word of the name begins with an
upper-case letter, the text it stores is, between the added spaces, the name with the first
letter of the name and the first letter after each space in upper case and every other
character as it is in the raw name; so when the name holds no upper-case letter at all,
every other letter is in lower case. -/
theorem lower_name_capitalised (tsize : Nat) (m : List Nat) (key name type : Nat)
    (table : Table) (last_name : Option Nat) (nm : Nat) (ln : Option Nat) (cs : List Nat)
    (t : Nat) (hres : resolve_name m name last_name = some (nm, ln))
    (hn : RawName cs t) (hat : BytesAt m nm (cs ++ [t]))
    (hini : lower_initials true (cs ++ [t - 128]) = true) :
    add_token tsize m key name type table last_name = some ⟨0, link_token tsize ⟨key,
      (if (cs ++ [t]).head? ≠ some 32 ∧ type ≠ 79 ∧ type ≠ 48 ∧ type ≠ 49 ∧ type ≠ 50 ∧
          type ≠ 86 then [32] else []) ++
        capitalise_first true (cs ++ [t - 128]) ++ (if type = 73 then [32] else [])⟩ table,
      ln⟩ ∧
    ((∀ c ∈ cs ++ [t - 128], ¬ (65 ≤ c ∧ c ≤ 90)) →
      add_token tsize m key name type table last_name = some ⟨0, link_token tsize ⟨key,
        (if (cs ++ [t]).head? ≠ some 32 ∧ type ≠ 79 ∧ type ≠ 48 ∧ type ≠ 49 ∧ type ≠ 50 ∧
            type ≠ 86 then [32] else []) ++
          capitalise_words true (cs ++ [t - 128]) ++ (if type = 73 then [32] else [])⟩ table,
        ln⟩) := by
  have h := add_token_text tsize m key name type table last_name nm ln cs t hres hn hat
  constructor
  · rw [h, raise_words_eq_first _ _ hini]
  · intro hlow
    rw [h, raise_words_eq_capitalise _ _ hlow]

theorem bytesAt_open : BytesAt [33, 111, 112, 101, 0xEE] 1 ([111, 112, 101] ++ [0xEE]) := by
  intro i hi
  have hi' : i < 4 := hi
  interval_cases i <;> rfl

theorem bytesAt_aB : BytesAt [97, 0xC2] 0 ([97] ++ [0xC2]) := by
  intro i hi
  have hi' : i < 2 := hi
  interval_cases i <;> rfl

theorem lower_name_capitalised_witness :
    (resolve_name [97, 0xC2] 0 none = some (0, none) ∧ RawName [97] 0xC2 ∧
      lower_initials true ([97] ++ [0xC2 - 128]) = true) ∧
    capitalise_first true ([97] ++ [0xC2 - 128]) = str "AB" ∧
    add_token 512 [97, 0xC2] 7 0 79 emptyTable none =
      some ⟨0, link_token 512 ⟨7,
        (if ([97] ++ [0xC2]).head? ≠ some 32 ∧ 79 ≠ 79 ∧ 79 ≠ 48 ∧ 79 ≠ 49 ∧
            79 ≠ 50 ∧ 79 ≠ 86 then [32] else []) ++
          capitalise_first true ([97] ++ [0xC2 - 128]) ++
          (if 79 = 73 then [32] else [])⟩ emptyTable, none⟩ ∧
    (resolve_name [33, 111, 112, 101, 0xEE] 0 none = some (1, some 1) ∧
      RawName [111, 112, 101] 0xEE ∧
      (∀ c ∈ [111, 112, 101] ++ [0xEE - 128], ¬ (65 ≤ c ∧ c ≤ 90))) ∧
    capitalise_words true ([111, 112, 101] ++ [0xEE - 128]) = str "Open" ∧
    add_token 512 [33, 111, 112, 101, 0xEE] 7 0 73 emptyTable none =
      some ⟨0, link_token 512 ⟨7,
        (if ([111, 112, 101] ++ [0xEE]).head? ≠ some 32 ∧ 73 ≠ 79 ∧ 73 ≠ 48 ∧ 73 ≠ 49 ∧
            73 ≠ 50 ∧ 73 ≠ 86 then [32] else []) ++
          capitalise_words true ([111, 112, 101] ++ [0xEE - 128]) ++
          (if 73 = 73 then [32] else [])⟩ emptyTable, some 1⟩ :=
  ⟨⟨by decide, by unfold RawName; decide, by decide⟩, by decide,
    (lower_name_capitalised 512 [97, 0xC2] 7 0 79 emptyTable none 0 none [97] 0xC2
      (by decide) (by unfold RawName; decide) bytesAt_aB (by decide)).1,
    ⟨by decide, by unfold RawName; decide, by decide⟩, by decide,
    (lower_name_capitalised 512 [33, 111, 112, 101, 0xEE] 7 0 73 emptyTable none 1 (some 1)
      [111, 112, 101] 0xEE (by decide) (by unfold RawName; decide) bytesAt_open
      (by decide)).2 (by decide)⟩

/-- C11 fails where a name holds an upper-case letter that is not the first of its word:
for the raw name `aB` the text stored is `AB`, since `add_token` never lowers a letter; the
specification gives `Ab`. -/
theorem upper_case_not_lowered :
    add_token 512 [97, 0xC2] 7 0 79 emptyTable none =
      some ⟨0, link_token 512 ⟨7, str "AB"⟩ emptyTable, none⟩ ∧
    capitalise_words true (str "aB") = str "Ab" ∧ str "AB" ≠ str "Ab" :=
  ⟨rfl, by decide, by decide⟩

/-- The spacing of C12 with the start of the name read on its raw first byte: when
`add_token` goes on with the name at `nm` (the raw name at `name`, one byte
further when that starts with '!'; the remembered name when the raw name is blank), which is
the raw name `cs ++ [t]`, the text it stores starts with one added space exactly when the
first byte of that name is not a space and the type code is none of 'O', '0', '1', '2', 'V',
it ends with one added space exactly when the type code is 'I', and what lies between has
the length of the name. -/
theorem stored_text_spaces (tsize : Nat) (m : List Nat) (key name type : Nat)
    (table : Table) (last_name : Option Nat) (nm : Nat) (ln : Option Nat) (cs : List Nat)
    (t : Nat) (hres : resolve_name m name last_name = some (nm, ln))
    (hn : RawName cs t) (hat : BytesAt m nm (cs ++ [t])) :
    ((peek m name = 0x80 → last_name = some nm ∧ ln = last_name) ∧
      (peek m name = 33 → nm = name + 1 ∧ ln = some (name + 1)) ∧
      (peek m name ≠ 0x80 → peek m name ≠ 33 → nm = name ∧ ln = last_name)) ∧
    ∃ body, body.length = (cs ++ [t]).length ∧
      add_token tsize m key name type table last_name = some ⟨0, link_token tsize ⟨key,
        (if (cs ++ [t]).head? ≠ some 32 ∧ type ≠ 79 ∧ type ≠ 48 ∧ type ≠ 49 ∧ type ≠ 50 ∧
            type ≠ 86 then [32] else []) ++ body ++ (if type = 73 then [32] else [])⟩ table,
        ln⟩ := by
  refine ⟨resolve_name_cases m name last_name nm ln hres,
    raise_words true (cs ++ [t - 128]), ?_,
    add_token_text tsize m key name type table last_name nm ln cs t hres hn hat⟩
  rw [raise_words_length]
  simp

theorem bytesAt_plus : BytesAt [32, 0xAB, 0x80] 0 ([32] ++ [0xAB]) := by
  intro i hi
  have hi' : i < 2 := hi
  interval_cases i <;> rfl

theorem stored_text_spaces_witness :
    (resolve_name [32, 0xAB, 0x80] 2 (some 0) = some (0, some 0) ∧ RawName [32] 0xAB) ∧
    add_token 512 [32, 0xAB, 0x80] 7 2 73 emptyTable (some 0) =
      some ⟨0, link_token 512 ⟨7, str " + "⟩ emptyTable, some 0⟩ ∧
    ((peek [32, 0xAB, 0x80] 2 = 0x80 → some 0 = some 0 ∧ some 0 = some 0) ∧
      (peek [32, 0xAB, 0x80] 2 = 33 → 0 = 2 + 1 ∧ some 0 = some (2 + 1)) ∧
      (peek [32, 0xAB, 0x80] 2 ≠ 0x80 → peek [32, 0xAB, 0x80] 2 ≠ 33 →
        0 = 2 ∧ some 0 = some 0)) ∧
    ∃ body, body.length = ([32] ++ [0xAB]).length ∧
      add_token 512 [32, 0xAB, 0x80] 7 2 73 emptyTable (some 0) =
        some ⟨0, link_token 512 ⟨7,
          (if ([32] ++ [0xAB]).head? ≠ some 32 ∧ 73 ≠ 79 ∧ 73 ≠ 48 ∧ 73 ≠ 49 ∧ 73 ≠ 50 ∧
              73 ≠ 86 then [32] else []) ++ body ++ (if 73 = 73 then [32] else [])⟩
          emptyTable, some 0⟩ :=
  ⟨⟨by decide, by unfold RawName; decide⟩, rfl,
    stored_text_spaces 512 [32, 0xAB, 0x80] 7 2 73 emptyTable (some 0) 0 (some 0) [32] 0xAB
      (by decide) (by unfold RawName; decide) bytesAt_plus⟩

/-! ## A compiled procedure whose length leads back to its own line -/

theorem loopBuffer_line (tsize : Nat) (fmtG : Nat → List Nat) (ll err : Nat)
    (out : List Nat) :
    read_line tsize fmtG emptyTable 18 ⟨loopBuffer, 0, ll, 0, err, out⟩ =
      (⟨loopBuffer, 16, 16, 4294967288, err ||| 4,
        out ++ placeholder_text 0 0x0376 ++ [10]⟩, true) :=
  compiled_proc_line tsize fmtG 18 loopBuffer 0 ll err 4294967288 out
    (by decide) (by decide) (by decide) (by decide) (by decide) (by decide) (by decide)
    (by decide)

theorem loopBuffer_first (tsize : Nat) (fmtG : Nat → List Nat) :
    line_pass tsize fmtG emptyTable 18 (initial loopBuffer) =
      (⟨loopBuffer, 16, 16, 4294967288, 0 ||| 4, [] ++ placeholder_text 0 0x0376 ++ [10]⟩,
        true) :=
  loopBuffer_line tsize fmtG 0 0 []

theorem loopBuffer_again (tsize : Nat) (fmtG : Nat → List Nat) (err : Nat) (out : List Nat) :
    line_pass tsize fmtG emptyTable 18 ⟨loopBuffer, 16, 16, 4294967288, err, out⟩ =
      (⟨loopBuffer, 16, 16, 4294967288, err ||| 4,
        out ++ compiled_notice ++ placeholder_text 0 0x0376 ++ [10]⟩, true) :=
  (line_pass_skip tsize fmtG emptyTable 18 loopBuffer 16 16 4294967288 err 0 out
    (by decide) (by decide) (by decide)).trans
  (loopBuffer_line tsize fmtG 16 err (out ++ compiled_notice))

theorem loopBuffer_loops (tsize : Nat) (fmtG : Nat → List Nat) (fuel : Nat) :
    ∀ (err : Nat) (out : List Nat),
    line_loop tsize fmtG emptyTable 18 fuel ⟨loopBuffer, 16, 16, 4294967288, err, out⟩ =
      none := by
  induction fuel with
  | zero => intro err out; rfl
  | succ f ih =>
    intro err out
    rw [line_loop_succ, if_pos (show (16 : Nat) < 18 by decide), loopBuffer_again]
    simp only [if_true]
    exact ih _ _

/-- C19 fails on `loopBuffer`: the first pass reads the PROCEDURE line at 0 and leaves the
read position at 16 with the compiled length `2 ^ 32 - 8`; every further pass adds
`compiled_len + 8 - linelen`, which brings the 32-bit read position from 16 back to 0, reads
the same line again and leaves the same read position 16 and compiled length.  So no number
of passes ends the loop: `AMOS_print_source` does not return. -/
theorem print_source_loops (tsize : Nat) (fmtG : Nat → List Nat) (fuel : Nat) :
    AMOS_print_source tsize fmtG fuel loopBuffer 18 emptyTable = none ∧
    ∀ (err : Nat) (out : List Nat),
      (line_pass tsize fmtG emptyTable 18 ⟨loopBuffer, 16, 16, 4294967288, err, out⟩).2 = true ∧
      (line_pass tsize fmtG emptyTable 18 ⟨loopBuffer, 16, 16, 4294967288, err, out⟩).1.inpos
        = 16 ∧
      (line_pass tsize fmtG emptyTable 18
        ⟨loopBuffer, 16, 16, 4294967288, err, out⟩).1.compiled_len = 4294967288 := by
  constructor
  · unfold AMOS_print_source
    cases fuel with
    | zero => rfl
    | succ f =>
      rw [line_loop_succ, if_pos (by decide), loopBuffer_first]
      simp only [if_true]
      exact loopBuffer_loops tsize fmtG f _ _
  · intro err out
    rw [loopBuffer_again]
    exact ⟨rfl, rfl, rfl⟩

/-! ## The space before an instruction that follows a name -/

/-- C18 fails after a variable name: with the text ` Then` in the table under (0, 0x0100),
the line that holds the variable `X` and then the token 0x0100 is written as `XThen`; the
space is dropped although the character written just before is `X`, because
`space_just_printed`, set at the start of the line, is not cleared when the name is
written. -/
theorem space_dropped_after_name :
    lookup_token 512 0 0x0100 (link_token 512 ⟨0x0100, str " Then"⟩ emptyTable) =
      some (str " Then") ∧
    AMOS_print_source 512 (fun _ => []) 2
        [7, 1, 0x00, 0x06, 0, 0, 1, 0, 0x58, 0, 0x01, 0x00, 0, 0] 14
        (link_token 512 ⟨0x0100, str " Then"⟩ emptyTable) =
      some ⟨[7, 1, 0x00, 0x06, 0, 0, 1, 0, 0x58, 0, 0x01, 0x00, 0, 0], 14, 14, 0, 0,
        str "XThen\n"⟩ := by
  decide

/-! ## Degenerate inputs -/

/-- C12 fails for the raw name that is the one byte 0xA0, a space that carries the end bit:
with type `I` the text stored is three spaces, an added space, the name and the added space
for `I`, although the name itself starts with a space; `add_token` compares the raw byte,
`*name != ' '`.  In the same way the one-byte name 0xA1, a '!' that carries the end bit, is
stored as `!` and not remembered. -/
theorem space_name_gets_space :
    add_token 512 [0xA0] 7 0 73 emptyTable none =
      some ⟨0, link_token 512 ⟨7, [32, 32, 32]⟩ emptyTable, none⟩ ∧
    add_token 512 [0xA1] 7 0 79 emptyTable none =
      some ⟨0, link_token 512 ⟨7, [33]⟩ emptyTable, none⟩ :=
  ⟨rfl, rfl⟩

/-- C13 fails for `moveEndImage`, whose code region (offsets 50 to 55) is exactly
`MOVE.L #3,D0`: the word 0x203C is scanned and its immediate 3 is in range, but the test
`p+6 < end` fails and `AMOS_find_slot` returns -1, not 4.  With two more bytes in the region
(`moveRoomImage`) it returns 4. -/
theorem move_at_region_end :
    find_codeoff moveEndImage = 50 ∧ find_titleoff moveEndImage = 56 ∧
    scan_words moveEndImage 56 (56 - 50) 50 = [50, 52] ∧
    amos_deek moveEndImage 50 = 0x203C ∧ amos_leek moveEndImage 52 = 3 ∧
    AMOS_find_slot 25 moveEndImage 56 = -1 ∧ AMOS_find_slot 25 moveRoomImage 58 = 4 := by
  decide
end Amos
